import Mathlib

/-!
# Ochello: chess movement with Othello flips

A shallow embedding of the rule engine of `src/main.cpp`: the move generator
`getLegalMoves`, the flip resolver `flipOthello`, the history serializer
`serializeBoard` and the click handler of the event loop in `main`.

Conventions of the embedding.

* A `Piece*` cell of the grid is an `Option Piece`; a piece is a value.  The
  `texture` handle (display only) and the field `enPassantVulnerable` (never
  read or written by the program) are left out.
* Coordinates are mathematical integers, as the `int`s of the source are on
  the small values the program works with.
* An access `board[r][c]` with `r` or `c` outside `0..7`, and a dereference of
  a null cell, are undefined behaviour in the source.  A function that performs
  one returns `none`.
* The `while` loops walk a ray of the grid.  They are given fuel; running out
  of fuel is `none` as well, and the theorems show that the fuel supplied is
  always enough.
-/

namespace Ochello

/-- The `PieceType` enumeration of the source. -/
inductive PieceType where
  | KING | QUEEN | ROOK | BISHOP | KNIGHT | PAWN
  deriving DecidableEq, Repr

open PieceType

/-- The `Piece` structure of the source, without its display handle. -/
structure Piece where
  isWhite : Bool
  type : PieceType
  row : Int
  col : Int
  hasMoved : Bool
  deriving DecidableEq, Repr

abbrev ROWS : Int := 8
abbrev COLS : Int := 8

/-- The grid `Piece* board[ROWS][COLS]`.  Only the cells with both indices in
`0..7` belong to it; no definition below reads or writes any other cell. -/
abbrev Board := Int → Int → Option Piece

/-- The test `rr>=0 && rr<ROWS && cc>=0 && cc<COLS`. -/
def inBounds (r c : Int) : Prop := 0 ≤ r ∧ r < ROWS ∧ 0 ≤ c ∧ c < COLS

instance (r c : Int) : Decidable (inBounds r c) := by
  unfold inBounds; exact inferInstance

/-- A read of `board[r][c]`: undefined outside the grid. -/
def readCell (b : Board) (r c : Int) : Option (Option Piece) :=
  if inBounds r c then some (b r c) else none

/-- The assignment `board[r][c] = v`. -/
def setCell (b : Board) (r c : Int) (v : Option Piece) : Board :=
  fun i j => if i = r ∧ j = c then v else b i j

/-- The board with no piece on it. -/
def emptyBoard : Board := fun _ _ => none

/-- The table `dir` of the eight compass directions. -/
def dir : List (Int × Int) :=
  [(-1, -1), (-1, 0), (-1, 1), (0, -1), (0, 1), (1, -1), (1, 0), (1, 1)]

/-- The index table `rookDirs`. -/
def rookDirs : List Nat := [1, 3, 4, 6]

/-- The index table `bishopDirs`. -/
def bishopDirs : List Nat := [0, 2, 5, 7]

/-- The table `jmp` of knight jumps. -/
def jmp : List (Int × Int) :=
  [(-2, -1), (-2, 1), (-1, -2), (-1, 2), (1, -2), (1, 2), (2, -1), (2, 1)]

/-- The lambda `add` of `getLegalMoves`: push `(rr, cc)` when it is on the grid
and empty or held by a piece of the other colour. -/
def add (b : Board) (p : Piece) (moves : List (Int × Int)) (rr cc : Int) :
    List (Int × Int) :=
  if inBounds rr cc then
    match b rr cc with
    | none => moves ++ [(rr, cc)]
    | some q => if q.isWhite ≠ p.isWhite then moves ++ [(rr, cc)] else moves
  else moves

/-- The `while` loop of the QUEEN, ROOK and BISHOP cases, started at
`(nr, nc)` in direction `(dr, dc)`. -/
def slide (b : Board) (p : Piece) (dr dc : Int) :
    Nat → Int → Int → List (Int × Int) → Option (List (Int × Int))
  | 0, _, _, _ => none
  | fuel + 1, nr, nc, moves =>
    if inBounds nr nc then
      match b nr nc with
      | none => slide b p dr dc fuel (nr + dr) (nc + dc) (moves ++ [(nr, nc)])
      | some q =>
        if q.isWhite ≠ p.isWhite then some (moves ++ [(nr, nc)]) else some moves
    else some moves

/-- Fuel of the ray loops: a ray leaves the grid after at most eight cells. -/
def rayFuel : Nat := 9

/-- The `for` loop over a list of directions around `slide`. -/
def slideAll (b : Board) (p : Piece) (ds : List (Int × Int))
    (moves : List (Int × Int)) : Option (List (Int × Int)) :=
  ds.foldlM
    (fun m d => slide b p d.1 d.2 rayFuel (p.row + d.1) (p.col + d.2) m) moves

/-- One side of the castling test of the KING case: the corner `board[r][corner]`
is an unmoved rook and the cells `between` are empty. -/
def castleOk (b : Board) (r corner : Int) (between : List Int) : Bool :=
  match b r corner with
  | some rk => decide (rk.type = ROOK) && !rk.hasMoved &&
      between.all (fun c => (b r c).isNone)
  | none => false

/-- The body of the loop `for(dc=-1; dc<=1; dc+=2)` of the PAWN case. -/
def pawnDiag (b : Board) (p : Piece) (lastMove : Int × Int) (nr dr : Int)
    (moves : List (Int × Int)) (dc : Int) : Option (List (Int × Int)) :=
  let r := p.row
  let c := p.col
  let nc := c + dc
  if 0 ≤ nc ∧ nc < COLS then do
    let x ← readCell b nr nc
    let moves1 :=
      match x with
      | some q => if q.isWhite ≠ p.isWhite then moves ++ [(nr, nc)] else moves
      | none => moves
    let capRow := if p.isWhite then r else r
    if lastMove.1 = capRow + dr ∧ lastMove.2 = nc then do
      let y ← readCell b lastMove.1 lastMove.2
      match y with
      | some q =>
        if q.type = PAWN ∧ q.isWhite ≠ p.isWhite then pure (moves1 ++ [(nr, nc)])
        else pure moves1
      | none => pure moves1
    else pure moves1
  else pure moves

/-- The single step of the PAWN case:
`if(nr>=0&&nr<ROWS && !board[nr][c]) moves.push_back({nr,c})`. -/
def pawnSingle (b : Board) (p : Piece) (nr : Int) : Option (List (Int × Int)) :=
  if 0 ≤ nr ∧ nr < ROWS then
    (readCell b nr p.col).bind fun x => some (if x.isNone then [(nr, p.col)] else [])
  else some []

/-- The double step of the PAWN case, from the starting rank of the colour. -/
def pawnDouble (b : Board) (p : Piece) (dr : Int) (moves : List (Int × Int)) :
    Option (List (Int × Int)) :=
  let r := p.row
  let c := p.col
  if (p.isWhite ∧ r = 6) ∨ (¬ p.isWhite ∧ r = 1) then
    (readCell b (r + 2 * dr) c).bind fun x =>
      if x.isNone then
        (readCell b (r + dr) c).bind fun y =>
          some (if y.isNone then moves ++ [(r + 2 * dr, c)] else moves)
      else some moves
  else some moves

/-- The function `getLegalMoves` of the source. -/
def getLegalMoves (b : Board) (p : Piece) (lastMove : Int × Int) :
    Option (List (Int × Int)) :=
  let r := p.row
  let c := p.col
  match p.type with
  | KING =>
    let moves := dir.foldl (fun m d => add b p m (r + d.1) (c + d.2)) []
    if !p.hasMoved then
      -- every read below is in row `r`, at a column of the grid
      if 0 ≤ r ∧ r < ROWS then
        let moves1 := if castleOk b r 7 [5, 6] then moves ++ [(r, 6)] else moves
        let moves2 := if castleOk b r 0 [1, 2, 3] then moves1 ++ [(r, 2)] else moves1
        some moves2
      else none
    else some moves
  | QUEEN => slideAll b p dir []
  | ROOK => slideAll b p (rookDirs.map (fun i => dir.getD i (0, 0))) []
  | BISHOP => slideAll b p (bishopDirs.map (fun i => dir.getD i (0, 0))) []
  | KNIGHT => some (jmp.foldl (fun m jj => add b p m (r + jj.1) (c + jj.2)) [])
  | PAWN => do
    let dr : Int := if p.isWhite then -1 else 1
    let nr := r + dr
    let moves1 ← pawnSingle b p nr
    let moves2 ← pawnDouble b p dr moves1
    [-1, 1].foldlM (pawnDiag b p lastMove nr dr) moves2

/-- The lambda `place` of `main`. -/
def place (b : Board) (r c : Int) (white : Bool) (t : PieceType) : Board :=
  setCell b r c (some { isWhite := white, type := t, row := r, col := c, hasMoved := false })

/-- The initial position set up in `main`. -/
def initialBoard : Board :=
  let b := emptyBoard
  let b := place b 7 0 true ROOK
  let b := place b 7 7 true ROOK
  let b := place b 7 1 true KNIGHT
  let b := place b 7 6 true KNIGHT
  let b := place b 7 2 true BISHOP
  let b := place b 7 5 true BISHOP
  let b := place b 7 3 true QUEEN
  let b := place b 7 4 true KING
  let b := (List.range 8).foldl (fun b i => place b 6 i true PAWN) b
  let b := place b 0 0 false ROOK
  let b := place b 0 7 false ROOK
  let b := place b 0 1 false KNIGHT
  let b := place b 0 6 false KNIGHT
  let b := place b 0 2 false BISHOP
  let b := place b 0 5 false BISHOP
  let b := place b 0 3 false QUEEN
  let b := place b 0 4 false KING
  let b := (List.range 8).foldl (fun b i => place b 1 i false PAWN) b
  b

/-- What `flipOthello` works on: the grid and the two flags it gets by
reference. -/
structure FlipState where
  board : Board
  gameOver : Bool
  winnerIsWhite : Bool

/-- The loop `for(auto p: toFlip)` of `flipOthello`.  A pointer collected in
`toFlip` is given by the cell it was read from; the walk collects occupied cells
only, so the `none` case below stands for nothing the source does. -/
def flipAll (color : Bool) : List (Int × Int) → FlipState → FlipState
  | [], s => s
  | (r, c) :: rest, s =>
    match s.board r c with
    | some q =>
      let gameOver := if q.type = KING then true else s.gameOver
      let winnerIsWhite := if q.type = KING then color else s.winnerIsWhite
      flipAll color rest
        { board := setCell s.board r c (some { q with isWhite := color }),
          gameOver := gameOver, winnerIsWhite := winnerIsWhite }
    | none => flipAll color rest s

/-- The `while` loop of `flipOthello` for the direction `d`, at the cell
`(r, c)` with the candidates `toFlip` collected so far. -/
def flipWalk (color : Bool) (d : Int × Int) :
    Nat → Int → Int → List (Int × Int) → FlipState → Option FlipState
  | 0, _, _, _, _ => none
  | fuel + 1, r, c, toFlip, s =>
    if inBounds r c then
      match s.board r c with
      | some q =>
        if q.isWhite = color then
          if toFlip ≠ [] then some (flipAll color toFlip s) else some s
        else flipWalk color d fuel (r + d.1) (c + d.2) (toFlip ++ [(r, c)]) s
      | none => some s
    else some s

/-- The function `flipOthello` of the source (sounds and textures apart). -/
def flipOthello (b : Board) (row col : Int) (gameOver winnerIsWhite : Bool) :
    Option FlipState := do
  let cell ← readCell b row col
  let p ← cell
  let color := p.isWhite
  dir.foldlM
    (fun s d => flipWalk color d rayFuel (row + d.1) (col + d.2) [] s)
    { board := b, gameOver := gameOver, winnerIsWhite := winnerIsWhite }

/-- The character written for one cell by `serializeBoard`. -/
def cellChar : Option Piece → Char
  | none => '0'
  | some p =>
    let ch :=
      match p.type with
      | KING => 'K'
      | QUEEN => 'Q'
      | ROOK => 'R'
      | BISHOP => 'B'
      | KNIGHT => 'N'
      | PAWN => 'P'
    if !p.isWhite then ch.toLower else ch

/-- The function `serializeBoard` of the source; `ss<<whiteTurn` writes a
`bool` as `1` or `0`. -/
def serializeBoard (b : Board) (whiteTurn : Bool) : String :=
  let ss := (List.range 8).foldl
    (fun ss r => (List.range 8).foldl
      (fun ss c => ss.push (cellChar (b (r : Int) (c : Int)))) ss) ""
  ss.push (if whiteTurn then '1' else '0')

/-- The variables of `main` that the click handler reads and writes. -/
structure State where
  board : Board
  selectedRow : Int
  selectedCol : Int
  legalMoves : List (Int × Int)
  isWhiteTurn : Bool
  lastMove : Int × Int
  gameOver : Bool
  winnerIsWhite : Bool
  halfMoveClock : Int
  boardHistory : List String

/-- A write through the pointer `p` of the move executor, which points to the
piece on `board[row][col]` whenever that piece is still on the grid. -/
def modifyCell (b : Board) (r c : Int) (f : Piece → Piece) : Board :=
  fun i j => if i = r ∧ j = c then (b r c).map f else b i j

/-- The en passant block of the move executor: a pawn `p` that changes column
onto an empty cell removes the piece on `board[capRow][col]`. -/
def enPassantRemove (b : Board) (p : Piece) (backup : Option Piece)
    (selectedCol row col : Int) : Option Board :=
  if p.type = PAWN ∧ backup = none ∧ selectedCol ≠ col then
    let capRow := if p.isWhite then row + 1 else row - 1
    (readCell b capRow col).bind fun _ => some (setCell b capRow col none)
  else some b

/-- The relocation `board[row][col]=p; board[selectedRow][selectedCol]=nullptr;
p->row=row; p->col=col`. -/
def relocate (b : Board) (p : Piece) (selectedRow selectedCol row col : Int) : Board :=
  setCell (setCell b row col (some { p with row := row, col := col }))
    selectedRow selectedCol none

/-- The castling block of the move executor, run after the king `p` was put on
`(row, col)`; `oldCol` is the column stored in the king before the move. -/
def castleRook (b : Board) (p : Piece) (row col oldCol : Int) : Option Board :=
  if p.type = KING ∧ |col - oldCol| = 2 then
    if col > oldCol then
      (readCell b row 7).bind fun cell => cell.bind fun rook =>
        some (modifyCell (setCell (setCell b row 5 (some rook)) row 7 none) row 5
          (fun q => { q with col := 5, hasMoved := true }))
    else
      (readCell b row 0).bind fun cell => cell.bind fun rook =>
        some (modifyCell (setCell (setCell b row 3 (some rook)) row 0 none) row 3
          (fun q => { q with col := 3, hasMoved := true }))
  else some b

/-- The piece `new Piece{isWhiteTurn,QUEEN,row,col,...,true}` of a promotion. -/
def newQueen (white : Bool) (row col : Int) : Piece :=
  { isWhite := white, type := QUEEN, row := row, col := col, hasMoved := true }

/-- The test `p->type==PAWN && (row==0 || row==7)` of the promotion block. -/
def promotes (p : Piece) (row : Int) : Bool := decide (p.type = PAWN ∧ (row = 0 ∨ row = 7))

/-- The promotion block of the move executor. -/
def promote (b : Board) (p : Piece) (isWhiteTurn : Bool) (row col : Int) : Board :=
  if promotes p row then setCell b row col (some (newQueen isWhiteTurn row col)) else b

/-- The kind of the piece `p` points to after the promotion block. -/
def typeAfterPromotion (p : Piece) (row : Int) : PieceType :=
  if promotes p row then QUEEN else p.type

/-- The largest value of the `int` counter `halfMoveClock`. -/
def INT_MAX : Int := 2147483647

/-- The statement `if(backup || p->type==PAWN) halfMoveClock=0; else
halfMoveClock++;`, where `p` is the piece after the promotion block.  The
increment of an `int` at `INT_MAX` is undefined. -/
def clockAfter (clock : Int) (backup : Option Piece) (pType : PieceType) : Option Int :=
  if backup.isSome ∨ pType = PAWN then some 0
  else if clock = INT_MAX then none
  else some (clock + 1)

/-- The board on which the move executor calls `flipOthello`: en passant
removal, relocation, castling, promotion and `p->hasMoved=true` are done. -/
def boardBeforeFlips (s : State) (p : Piece) (backup : Option Piece) (row col : Int) :
    Option Board :=
  (enPassantRemove s.board p backup s.selectedCol row col).bind fun b1 =>
    (castleRook (relocate b1 p s.selectedRow s.selectedCol row col) p row col p.col).bind
      fun b3 =>
        some (modifyCell (promote b3 p s.isWhiteTurn row col) row col
          (fun q => { q with hasMoved := true }))

/-- The test `backup && backup->type == KING`. -/
def kingTaken (backup : Option Piece) : Bool :=
  match backup with
  | some q => decide (q.type = KING)
  | none => false

/-- The body of `if(mv.first==row && mv.second==col)`: the move of the selected
piece to `(row, col)` with all its side effects, up to the `break`.  A move of a
piece onto its own cell is undefined: `delete backup` frees the moving piece,
which is written to afterwards. -/
def executeMove (s : State) (row col : Int) : Option State :=
  (readCell s.board s.selectedRow s.selectedCol).bind fun selCell =>
    selCell.bind fun p =>
      (readCell s.board row col).bind fun backup =>
        if row = s.selectedRow ∧ col = s.selectedCol then none
        else
          (boardBeforeFlips s p backup row col).bind fun b5 =>
            (clockAfter s.halfMoveClock backup (typeAfterPromotion p row)).bind fun clock =>
              (flipOthello b5 row col
                (if kingTaken backup then true else s.gameOver)
                (if kingTaken backup then p.isWhite else s.winnerIsWhite)).bind fun f =>
                some { s with
                  board := f.board, lastMove := (p.row, p.col), gameOver := f.gameOver,
                  winnerIsWhite := f.winnerIsWhite, halfMoveClock := clock }

/-- The selection `if(board[row][col] && board[row][col]->isWhite==isWhiteTurn)`
of the click handler; `otherwise` is the state when the test fails. -/
def selectAt (s : State) (row col : Int) (otherwise : State) : Option State :=
  (readCell s.board row col).bind fun cell =>
    match cell with
    | some q =>
      if q.isWhite = s.isWhiteTurn then
        (getLegalMoves s.board q s.lastMove).bind fun moves =>
          some { s with selectedRow := row, selectedCol := col, legalMoves := moves }
      else some otherwise
    | none => some otherwise

/-- The handler of a left click on the cell `(row, col)` in the event loop of
`main` (sounds apart). -/
def handleClick (s : State) (row col : Int) : Option State :=
  if s.selectedRow = -1 then selectAt s row col s
  else if (row, col) ∈ s.legalMoves then
    (executeMove s row col).bind fun s1 =>
      some { s1 with
        isWhiteTurn := !s1.isWhiteTurn,
        boardHistory := s1.boardHistory ++ [serializeBoard s1.board (!s1.isWhiteTurn)],
        selectedRow := -1, selectedCol := -1, legalMoves := [] }
  else
    selectAt s row col { s with selectedRow := -1, selectedCol := -1, legalMoves := [] }

/-- The state of `main` when the event loop starts. -/
def initialState : State :=
  { board := initialBoard, selectedRow := -1, selectedCol := -1, legalMoves := [],
    isWhiteTurn := true, lastMove := (-1, -1), gameOver := false,
    winnerIsWhite := false, halfMoveClock := 0, boardHistory := [] }


/-! ## Concrete positions -/

/-- The white pawn on `(6, 4)` of the initial position. -/
def whitePawnE : Piece := { isWhite := true, type := PAWN, row := 6, col := 4, hasMoved := false }

/-- A white queen on `(4, 3)`. -/
def whiteQueenD : Piece := { isWhite := true, type := QUEEN, row := 4, col := 3, hasMoved := true }

/-- The initial position with a white queen put on `(4, 3)`. -/
def queenBoard : Board := setCell initialBoard 4 3 (some whiteQueenD)

/-- The white king on `(7, 4)` of the initial position. -/
def whiteKingE : Piece := { isWhite := true, type := KING, row := 7, col := 4, hasMoved := false }

/-- The initial position with the white knight and bishop of the king side
taken off the board. -/
def castleBoard : Board := setCell (setCell initialBoard 7 5 none) 7 6 none

/-- A white pawn on `(3, 4)`. -/
def epWhitePawn : Piece := { isWhite := true, type := PAWN, row := 3, col := 4, hasMoved := true }

/-- A black pawn on `(3, 3)`, next to `epWhitePawn`. -/
def epBlackPawn : Piece := { isWhite := false, type := PAWN, row := 3, col := 3, hasMoved := true }

/-- The position after the black pawn went from `(1, 3)` to `(3, 3)` past the
white pawn on `(3, 4)`; the cell `(2, 3)` behind it is empty. -/
def epBoard : Board := setCell (setCell emptyBoard 3 4 (some epWhitePawn)) 3 3 (some epBlackPawn)

/-- A white rook on `(4, 4)`, the piece that just moved in `flipBoard`. -/
def flipMover : Piece := { isWhite := true, type := ROOK, row := 4, col := 4, hasMoved := true }

/-- A white rook on `(4, 4)`, a black pawn on `(4, 5)`, a black king on
`(4, 6)` and a white rook on `(4, 7)`. -/
def flipBoard : Board :=
  setCell (setCell (setCell (setCell emptyBoard 4 4 (some flipMover))
    4 5 (some { isWhite := false, type := PAWN, row := 4, col := 5, hasMoved := true }))
    4 6 (some { isWhite := false, type := KING, row := 4, col := 6, hasMoved := true }))
    4 7 (some { isWhite := true, type := ROOK, row := 4, col := 7, hasMoved := false })

/-- A lone white pawn on `(1, 0)`, one step from promotion; nothing is selected
and the half-move clock stands at 5. -/
def promoStart : State :=
  { board := setCell emptyBoard 1 0
      (some { isWhite := true, type := PAWN, row := 1, col := 0, hasMoved := true }),
    selectedRow := -1, selectedCol := -1, legalMoves := [], isWhiteTurn := true,
    lastMove := (-1, -1), gameOver := false, winnerIsWhite := false, halfMoveClock := 5,
    boardHistory := [] }

/-- The initial state with the game-over flag set. -/
def terminalState : State := { initialState with gameOver := true, winnerIsWhite := false }

/-- The initial state with the game-over flag set and the white pawn on
`(6, 4)` selected. -/
def terminalSelected : State :=
  { initialState with
    gameOver := true, selectedRow := 6, selectedCol := 4, legalMoves := [(5, 4), (4, 4)] }

/-- A white rook on `(4, 0)`, the piece to move in `bracketState`. -/
def bracketRook : Piece := { isWhite := true, type := ROOK, row := 4, col := 0, hasMoved := false }

/-- The board of `flipBoard` with the white rook of `(4, 4)` still on `(4, 0)`. -/
def bracketBoard : Board := setCell (setCell flipBoard 4 4 none) 4 0 (some bracketRook)

/-- White to move on `bracketBoard` with the rook on `(4, 0)` selected. -/
def bracketState : State :=
  { board := bracketBoard, selectedRow := 4, selectedCol := 0,
    legalMoves := (getLegalMoves bracketBoard bracketRook (-1, -1)).getD [],
    isWhiteTurn := true, lastMove := (-1, -1), gameOver := false, winnerIsWhite := false,
    halfMoveClock := 3, boardHistory := [] }

/-- What the concrete evaluations compare of a state. -/
structure Summary where
  isWhiteTurn : Bool
  selected : Int × Int
  legalMoves : List (Int × Int)
  gameOver : Bool
  winnerIsWhite : Bool
  halfMoveClock : Int
  position : String
  deriving DecidableEq, Repr

/-- The summary of a state: side to move, selection, legal moves, flags, clock
and the serialized board. -/
def summary (s : State) : Summary :=
  { isWhiteTurn := s.isWhiteTurn, selected := (s.selectedRow, s.selectedCol),
    legalMoves := s.legalMoves, gameOver := s.gameOver, winnerIsWhite := s.winnerIsWhite,
    halfMoveClock := s.halfMoveClock, position := serializeBoard s.board s.isWhiteTurn }

/-! ## Predicates used to state the properties -/

/-- The cell `(r, c)` is not held by a piece of the colour of `p`. -/
def notOwn (b : Board) (p : Piece) (r c : Int) : Prop :=
  ∀ q, b r c = some q → q.isWhite ≠ p.isWhite

/-- The cell `q` is reached by walking from `(nr, nc)` in direction `d` over
empty cells of the grid: it lies `k` steps from `(nr, nc)`, is on the grid and is
not held by a piece of the colour of `p`. -/
def rayReach (b : Board) (p : Piece) (d : Int × Int) (nr nc : Int) (q : Int × Int) : Prop :=
  ∃ k : Nat, q = (nr + k * d.1, nc + k * d.2) ∧ inBounds q.1 q.2 ∧
    (∀ m : Nat, m < k → inBounds (nr + m * d.1) (nc + m * d.2) ∧
      b (nr + m * d.1) (nc + m * d.2) = none) ∧
    notOwn b p q.1 q.2

/-- The direction set of a sliding piece in the words of the specification:
the queen moves along all eight compass directions, the rook along the four
orthogonal ones, the bishop along the four diagonal ones. -/
def slideDirs (t : PieceType) (d : Int × Int) : Prop :=
  (d.1 = -1 ∨ d.1 = 0 ∨ d.1 = 1) ∧ (d.2 = -1 ∨ d.2 = 0 ∨ d.2 = 1) ∧ ¬ (d.1 = 0 ∧ d.2 = 0) ∧
    match t with
    | QUEEN => True
    | ROOK => d.1 = 0 ∨ d.2 = 0
    | BISHOP => d.1 ≠ 0 ∧ d.2 ≠ 0
    | _ => False

/-- The directions the source walks for a piece type: the whole table `dir`
for the queen, the entries picked by `rookDirs` and `bishopDirs` for the rook
and the bishop. -/
def codeDirs : PieceType → List (Int × Int)
  | QUEEN => dir
  | ROOK => rookDirs.map (fun i => dir.getD i (0, 0))
  | BISHOP => bishopDirs.map (fun i => dir.getD i (0, 0))
  | _ => []

/-- Two cells show the same thing: both are empty, or both hold a piece of the
same kind and the same colour. -/
def sameCell (x y : Option Piece) : Prop :=
  (x = none ∧ y = none) ∨
    ∃ p q, x = some p ∧ y = some q ∧ p.type = q.type ∧ p.isWhite = q.isWhite

/-- The cell at distance `m` from `(row, col)` on the ray of direction `d`. -/
def rayCell (row col : Int) (d : Int × Int) (m : Nat) : Int × Int :=
  (row + m * d.1, col + m * d.2)

/-- The cell is on the grid and holds a piece of the colour `white`. -/
def holds (b : Board) (cell : Int × Int) (white : Bool) : Prop :=
  inBounds cell.1 cell.2 ∧ ∃ q, b cell.1 cell.2 = some q ∧ q.isWhite = white

/-- The cell `(i, j)` is bracketed on the ray of direction `d` from the origin
`(row, col)` for the colour `X`: it lies at distance `k ≥ 1`, and for some
`n > k` all cells at distances `1..n-1` hold pieces of the other colour and the
cell at distance `n` holds a piece of colour `X`. -/
def bracketedOn (b : Board) (row col : Int) (X : Bool) (d : Int × Int) (i j : Int) : Prop :=
  ∃ k n : Nat, 1 ≤ k ∧ k < n ∧ (i, j) = rayCell row col d k ∧
    (∀ m : Nat, 1 ≤ m → m < n → holds b (rayCell row col d m) (!X)) ∧
    holds b (rayCell row col d n) X

/-- The cell `(i, j)` is bracketed on one of the eight rays from the origin. -/
def bracketed (b : Board) (row col : Int) (X : Bool) (i j : Int) : Prop :=
  ∃ d, ((d.1 = -1 ∨ d.1 = 0 ∨ d.1 = 1) ∧ (d.2 = -1 ∨ d.2 = 0 ∨ d.2 = 1) ∧
    ¬ (d.1 = 0 ∧ d.2 = 0)) ∧ bracketedOn b row col X d i j

/-- The piece `q` with its colour set to `X`, all else kept. -/
def recolour (X : Bool) (q : Piece) : Piece := { q with isWhite := X }

/-- The cell `(i, j)` holds a king. -/
def isKingAt (b : Board) (i j : Int) : Prop := ∃ q, b i j = some q ∧ q.type = KING

/-- The state `s1` is the state `s` after the pieces on the cells satisfying
`P` were flipped to the colour `X`: these cells are recoloured and no other cell
changes, the game is over if it was or if a king stood on one of them, and the
winner is `X` if a king stood on one of them and is unchanged otherwise. -/
def flipsTo (X : Bool) (P : Int → Int → Prop) (s s1 : FlipState) : Prop :=
  (∀ i j, (P i j → s1.board i j = (s.board i j).map (recolour X)) ∧
    (¬ P i j → s1.board i j = s.board i j)) ∧
  (s1.gameOver = true ↔ s.gameOver = true ∨ ∃ i j, P i j ∧ isKingAt s.board i j) ∧
  ((∃ i j, P i j ∧ isKingAt s.board i j) → s1.winnerIsWhite = X) ∧
  ((¬ ∃ i j, P i j ∧ isKingAt s.board i j) → s1.winnerIsWhite = s.winnerIsWhite)

/-- What a flip leaves alone in a piece: kind, stored position and the
`hasMoved` flag. -/
def pieceFrame (q : Piece) : PieceType × Int × Int × Bool := (q.type, q.row, q.col, q.hasMoved)

/-- Some king of the board `b` has another colour on the board `b1`. -/
def kingFlipped (b b1 : Board) : Prop :=
  ∃ i j q q1, b i j = some q ∧ q.type = KING ∧ b1 i j = some q1 ∧ q1.isWhite ≠ q.isWhite

/-- A piece `p` of the side to move is selected: it stands on the selected
cell, which is its stored position, and the legal set of the state is the one
the move generator computed for it. -/
def selectionOk (s : State) (p : Piece) : Prop :=
  inBounds s.selectedRow s.selectedCol ∧ s.board s.selectedRow s.selectedCol = some p ∧
    p.row = s.selectedRow ∧ p.col = s.selectedCol ∧ p.isWhite = s.isWhiteTurn ∧
    getLegalMoves s.board p s.lastMove = some s.legalMoves

instance (s : State) (p : Piece) : Decidable (selectionOk s p) := by
  unfold selectionOk; exact inferInstance

/-- The state with its two game-over flags cleared. -/
def forgetFlags (s : State) : State := { s with gameOver := false, winnerIsWhite := false }

/-- A pawn standing on the last row in its direction of travel. -/
def farRankPawn (p : Piece) : Prop :=
  p.type = PAWN ∧ ((p.isWhite = true ∧ p.row = 0) ∨ (p.isWhite = false ∧ p.row = 7))

/-- Number of cells of the grid on the ray from `(nr, nc)` in direction `d`,
when `(nr, nc)` is on the grid. -/
def rayLeft (d : Int × Int) (nr nc : Int) : Int :=
  if inBounds nr nc then
    (if d.1 = 1 then 8 - nr else if d.1 = -1 then nr + 1
     else if d.2 = 1 then 8 - nc else nc + 1)
  else 0

/-- The character of a cell in the words of the specification: `0` for an empty
cell, one of `K Q R B N P` for a white king, queen, rook, bishop, knight or pawn,
and the corresponding lower-case letter for a black piece. -/
def specCellChar : Option Piece → Char
  | none => '0'
  | some p =>
    match p.isWhite, p.type with
    | true, KING => 'K'
    | true, QUEEN => 'Q'
    | true, ROOK => 'R'
    | true, BISHOP => 'B'
    | true, KNIGHT => 'N'
    | true, PAWN => 'P'
    | false, KING => 'k'
    | false, QUEEN => 'q'
    | false, ROOK => 'r'
    | false, BISHOP => 'b'
    | false, KNIGHT => 'n'
    | false, PAWN => 'p'

/-- The state with the selection and the legal set cleared:
`selectedRow=selectedCol=-1; legalMoves.clear()`. -/
def deselect (s : State) : State :=
  { s with selectedRow := -1, selectedCol := -1, legalMoves := [] }

/-- The state with the cell `(row, col)` selected and `moves` as its legal set. -/
def selectCell (s : State) (row col : Int) (moves : List (Int × Int)) : State :=
  { s with selectedRow := row, selectedCol := col, legalMoves := moves }

/-- The cell holds no piece of the side to move: it is empty or holds a piece of
the other side. -/
def notToMove (s : State) (row col : Int) : Prop :=
  s.board row col = none ∨ ∃ q, s.board row col = some q ∧ q.isWhite ≠ s.isWhiteTurn

/-- The direction of travel of a pawn: `dr = isWhite ? -1 : 1`. -/
def pawnDir (p : Piece) : Int := if p.isWhite then -1 else 1

/-- The pawn stands on the starting rank of its colour: row 6 for white, row 1
for black. -/
def onStartRank (p : Piece) : Prop :=
  (p.isWhite = true ∧ p.row = 6) ∨ (p.isWhite = false ∧ p.row = 1)

instance (p : Piece) : Decidable (onStartRank p) := by
  unfold onStartRank; exact inferInstance

/-- Every piece of the board stores the coordinates of the cell that holds it. -/
def consistent (b : Board) : Prop := ∀ i j q, b i j = some q → q.row = i ∧ q.col = j

/-- The states reachable from the initial one by clicks on cells of the grid. -/
inductive Reachable : State → Prop
  | init : Reachable initialState
  | click (s s1 : State) (row col : Int) :
      Reachable s → inBounds row col → handleClick s row col = some s1 → Reachable s1

/-- The click handler run on a list of clicks, one after the other. -/
def runClicks (s : State) (clicks : List (Int × Int)) : Option State :=
  clicks.foldlM (fun t c => handleClick t c.1 c.2) s

/-- The state after white opened with the pawn from `(6, 4)` to `(4, 4)`. -/
def afterOpening : State := (runClicks initialState [(6, 4), (4, 4)]).getD initialState

/-- The state that `handleClick` returns after `executeMove` returned `s1`:
`isWhiteTurn=!isWhiteTurn`, the serialized position is appended to the history,
and the selection and the legal set are cleared. -/
def finishMove (s1 : State) : State :=
  { s1 with
    isWhiteTurn := !s1.isWhiteTurn,
    boardHistory := s1.boardHistory ++ [serializeBoard s1.board (!s1.isWhiteTurn)],
    selectedRow := -1, selectedCol := -1, legalMoves := [] }

/-- The state `promoStart` with its pawn on `(1, 0)` selected. -/
def promoSelected : State := (handleClick promoStart 1 0).getD promoStart

/-- The pawn of `promoStart`. -/
def promoPawn : Piece := { isWhite := true, type := PAWN, row := 1, col := 0, hasMoved := true }

/-- White to move on `castleBoard` with the king on `(7, 4)` selected. -/
def castleState : State :=
  (handleClick { initialState with board := castleBoard } 7 4).getD initialState

/-- The initial position with the white queen, bishop and knight of the queen
side taken off the board. -/
def longCastleBoard : Board := setCell (setCell (setCell initialBoard 7 1 none) 7 2 none) 7 3 none

/-- White to move on `longCastleBoard` with the king on `(7, 4)` selected. -/
def longCastleState : State :=
  (handleClick { initialState with board := longCastleBoard } 7 4).getD initialState

/-- The white rook on `(7, 7)` of the initial position. -/
def cornerRook : Piece := { isWhite := true, type := ROOK, row := 7, col := 7, hasMoved := false }

/-- Every piece of `b1` that is not marked as moved stood on the same cell of
`b`, with the same kind and stored position and not marked as moved either. -/
def staysUnmoved (b b1 : Board) : Prop :=
  ∀ i j q, b1 i j = some q → q.hasMoved = false →
    ∃ q0, b i j = some q0 ∧ pieceFrame q0 = pieceFrame q

/-- The position `epBoard` with the white pawn on `(3, 4)` selected and the
empty cell `(2, 3)` put into the legal set by hand. -/
def epState : State :=
  { board := epBoard, selectedRow := 3, selectedCol := 4, legalMoves := [(2, 4), (2, 3)],
    isWhiteTurn := true, lastMove := (1, 3), gameOver := false, winnerIsWhite := false,
    halfMoveClock := 0, boardHistory := [] }

/-- A white king on `(3, 4)` that has not moved. -/
def midKing : Piece := { isWhite := true, type := KING, row := 3, col := 4, hasMoved := false }

/-- A white rook on `(3, 7)` that has not moved. -/
def midRook : Piece := { isWhite := true, type := ROOK, row := 3, col := 7, hasMoved := false }

/-- The white king on `(3, 4)` and the white rook on `(3, 7)`, both unmoved,
with a black queen on `(2, 7)` and a black knight on `(4, 7)` around the rook. -/
def midBoard : Board :=
  setCell (setCell (setCell (setCell emptyBoard 3 4 (some midKing)) 3 7 (some midRook))
    2 7 (some { isWhite := false, type := QUEEN, row := 2, col := 7, hasMoved := true }))
    4 7 (some { isWhite := false, type := KNIGHT, row := 4, col := 7, hasMoved := true })

/-- The board `midBoard` after the flips of a black move to `(2, 7)`. -/
def midFlipped : Board :=
  ((flipOthello midBoard 2 7 false false).map (fun f => f.board)).getD emptyBoard

/-- No pawn stands on row 0 or row 7. -/
def noFarPawn (b : Board) : Prop := ∀ i j q, b i j = some q → q.type = PAWN → i ≠ 0 ∧ i ≠ 7

/-- Nothing is selected, or a piece of the side to move is rightly selected. -/
def selInv (s : State) : Prop := s.selectedRow = -1 ∨ ∃ p, selectionOk s p

/-- What holds in every reachable state: stored positions are right, no pawn
stands on row 0 or row 7, and the selection is right. -/
def goodState (s : State) : Prop := consistent s.board ∧ noFarPawn s.board ∧ selInv s


/-- The board `castleBoard` with the unmoved rook of the corner `(7, 7)` black:
the white king on `(7, 4)` has an unmoved rook of the other colour in its corner. -/
def mixedCornerBoard : Board := setCell castleBoard 7 7 (some { cornerRook with isWhite := false })
/-! ## The move generator -/

theorem mem_dir (d : Int × Int) :
    d ∈ dir ↔ (d.1 = -1 ∨ d.1 = 0 ∨ d.1 = 1) ∧ (d.2 = -1 ∨ d.2 = 0 ∨ d.2 = 1) ∧
      ¬ (d.1 = 0 ∧ d.2 = 0) := by
  obtain ⟨x, y⟩ := d
  simp only [dir, List.mem_cons, Prod.mk.injEq, List.mem_singleton, List.not_mem_nil, or_false]
  omega

theorem rayLeft_le (d : Int × Int) (nr nc : Int) : rayLeft d nr nc ≤ 8 := by
  simp only [rayLeft, inBounds, ROWS, COLS]
  split_ifs <;> omega

theorem rayLeft_step (d : Int × Int) (hd : d ∈ dir) (nr nc : Int) (h : inBounds nr nc) :
    rayLeft d (nr + d.1) (nc + d.2) < rayLeft d nr nc := by
  rw [mem_dir] at hd
  unfold rayLeft
  rw [if_pos h]
  simp only [inBounds, ROWS, COLS] at *
  split_ifs <;> omega

theorem slide_spec (b : Board) (p : Piece) (d : Int × Int) (hd : d ∈ dir) :
    ∀ (fuel : Nat) (nr nc : Int) (moves : List (Int × Int)),
      rayLeft d nr nc < fuel →
      ∃ res, slide b p d.1 d.2 fuel nr nc moves = some res ∧
        ∀ q, q ∈ res ↔ q ∈ moves ∨ rayReach b p d nr nc q := by
  intro fuel
  induction fuel with
  | zero =>
    intro nr nc moves h
    have : 0 ≤ rayLeft d nr nc := by
      rw [mem_dir] at hd
      simp only [rayLeft, inBounds, ROWS, COLS]
      split_ifs <;> omega
    omega
  | succ n ih =>
    intro nr nc moves h
    unfold slide
    by_cases hb : inBounds nr nc
    · rw [if_pos hb]
      cases hc : b nr nc with
      | none =>
        have hlt : rayLeft d (nr + d.1) (nc + d.2) < (n : Int) := by
          have := rayLeft_step d hd nr nc hb
          omega
        obtain ⟨res, hres, hmem⟩ := ih (nr + d.1) (nc + d.2) (moves ++ [(nr, nc)]) hlt
        refine ⟨res, hres, ?_⟩
        intro q
        rw [hmem q, List.mem_append, List.mem_singleton]
        constructor
        · rintro ((hq | hq) | ⟨k, hk, hkb, hkm, hkn⟩)
          · exact Or.inl hq
          · refine Or.inr ⟨0, by simp [hq], by simpa [hq] using hb, by simp, ?_⟩
            intro x hx
            simp [hq, hc] at hx
          · refine Or.inr ⟨k + 1, ?_, hkb, ?_, hkn⟩
            · rw [hk]; push_cast; ext <;> simp <;> ring
            · intro m hm
              cases m with
              | zero => simpa using ⟨hb, hc⟩
              | succ m =>
                have := hkm m (by omega)
                have e1 : nr + d.1 + (m : Int) * d.1 = nr + ((m + 1 : Nat) : Int) * d.1 := by
                  push_cast; ring
                have e2 : nc + d.2 + (m : Int) * d.2 = nc + ((m + 1 : Nat) : Int) * d.2 := by
                  push_cast; ring
                rw [e1, e2] at this
                exact this
        · rintro (hq | ⟨k, hk, hkb, hkm, hkn⟩)
          · exact Or.inl (Or.inl hq)
          · cases k with
            | zero => exact Or.inl (Or.inr (by simpa using hk))
            | succ k =>
              refine Or.inr ⟨k, ?_, hkb, ?_, hkn⟩
              · rw [hk]; push_cast; ext <;> simp <;> ring
              · intro m hm
                have := hkm (m + 1) (by omega)
                have e1 : nr + d.1 + (m : Int) * d.1 = nr + ((m + 1 : Nat) : Int) * d.1 := by
                  push_cast; ring
                have e2 : nc + d.2 + (m : Int) * d.2 = nc + ((m + 1 : Nat) : Int) * d.2 := by
                  push_cast; ring
                rw [e1, e2]
                exact this
      | some x =>
        have key : ∀ q, rayReach b p d nr nc q ↔ (q = (nr, nc) ∧ x.isWhite ≠ p.isWhite) := by
          intro q
          constructor
          · rintro ⟨k, hk, hkb, hkm, hkn⟩
            cases k with
            | zero =>
              have hq : q = (nr, nc) := by simpa using hk
              refine ⟨hq, ?_⟩
              apply hkn x
              rw [hq]; exact hc
            | succ k =>
              have := (hkm 0 (by omega)).2
              simp [hc] at this
          · rintro ⟨hq, hx⟩
            refine ⟨0, by simp [hq], by simpa [hq] using hb, by simp, ?_⟩
            intro y hy
            rw [hq] at hy
            simp only [hc, Option.some.injEq] at hy
            rw [← hy]; exact hx
        by_cases hx : x.isWhite ≠ p.isWhite
        · refine ⟨moves ++ [(nr, nc)], by simp [hx], ?_⟩
          intro q
          rw [key q, List.mem_append, List.mem_singleton]
          tauto
        · refine ⟨moves, by simp [hx], ?_⟩
          intro q
          rw [key q]
          tauto
    · rw [if_neg hb]
      refine ⟨moves, rfl, ?_⟩
      intro q
      constructor
      · exact Or.inl
      · rintro (hq | ⟨k, hk, hkb, hkm, hkn⟩)
        · exact hq
        · cases k with
          | zero =>
            have hq : q = (nr, nc) := by simpa using hk
            rw [hq] at hkb
            exact absurd hkb hb
          | succ k => exact absurd (hkm 0 (by omega)).1 (by simpa using hb)

theorem slideAll_spec (b : Board) (p : Piece) :
    ∀ (ds : List (Int × Int)) (moves : List (Int × Int)), (∀ d ∈ ds, d ∈ dir) →
      ∃ res, slideAll b p ds moves = some res ∧
        ∀ q, q ∈ res ↔ q ∈ moves ∨
          ∃ d ∈ ds, rayReach b p d (p.row + d.1) (p.col + d.2) q := by
  intro ds
  induction ds with
  | nil =>
    intro moves _
    exact ⟨moves, rfl, by simp⟩
  | cons d ds ih =>
    intro moves hds
    have hd : d ∈ dir := hds d (List.mem_cons_self _ _)
    have hfuel : rayLeft d (p.row + d.1) (p.col + d.2) < (rayFuel : Int) := by
      have := rayLeft_le d (p.row + d.1) (p.col + d.2)
      simp only [rayFuel]; omega
    obtain ⟨r1, h1, m1⟩ := slide_spec b p d hd rayFuel (p.row + d.1) (p.col + d.2) moves hfuel
    obtain ⟨res, h2, m2⟩ := ih r1 (fun e he => hds e (List.mem_cons_of_mem _ he))
    refine ⟨res, ?_, ?_⟩
    · unfold slideAll at h2 ⊢
      rw [List.foldlM_cons, h1]
      exact h2
    · intro q
      rw [m2 q, m1 q]
      simp only [List.mem_cons, exists_eq_or_imp]
      tauto

/-- A destination that `add` or a ray walk may push: on the grid and not held
by a piece of the colour of `p`. -/
theorem add_mem (b : Board) (p : Piece) (moves : List (Int × Int)) (rr cc : Int)
    (q : Int × Int) :
    q ∈ add b p moves rr cc ↔
      q ∈ moves ∨ (q = (rr, cc) ∧ inBounds rr cc ∧ notOwn b p rr cc) := by
  unfold add notOwn
  by_cases hb : inBounds rr cc
  · rw [if_pos hb]
    cases hc : b rr cc with
    | none => simp [hb]
    | some x =>
      by_cases hx : x.isWhite = p.isWhite
      · simp [hx, hb]
      · simp [hx, hb]
  · simp [hb]

theorem foldl_add_mem (b : Board) (p : Piece) (r c : Int) :
    ∀ (offs : List (Int × Int)) (moves : List (Int × Int)) (q : Int × Int),
      q ∈ offs.foldl (fun m d => add b p m (r + d.1) (c + d.2)) moves ↔
        q ∈ moves ∨ ∃ o ∈ offs, q = (r + o.1, c + o.2) ∧ inBounds q.1 q.2 ∧
          notOwn b p q.1 q.2 := by
  intro offs
  induction offs with
  | nil => intro moves q; simp
  | cons o offs ih =>
    intro moves q
    rw [List.foldl_cons, ih, add_mem]
    simp only [List.mem_cons, exists_eq_or_imp]
    constructor
    · rintro ((h | ⟨h1, h2, h3⟩) | h)
      · exact Or.inl h
      · exact Or.inr (Or.inl ⟨h1, by rw [h1]; exact h2, by rw [h1]; exact h3⟩)
      · exact Or.inr (Or.inr h)
    · rintro (h | ⟨h1, h2, h3⟩ | h)
      · exact Or.inl (Or.inl h)
      · exact Or.inl (Or.inr ⟨h1, by rw [h1] at h2; exact h2, by rw [h1] at h3; exact h3⟩)
      · exact Or.inr h

theorem castleOk_iff (b : Board) (r corner : Int) (between : List Int) :
    castleOk b r corner between = true ↔
      (∃ rk, b r corner = some rk ∧ rk.type = ROOK ∧ rk.hasMoved = false) ∧
        ∀ c ∈ between, b r c = none := by
  unfold castleOk
  cases hc : b r corner with
  | none => simp
  | some rk => simp [Option.isNone_iff_eq_none, and_assoc]

/-- The destinations of a king: the free neighbours and the two castling
cells. -/
theorem king_moves (b : Board) (p : Piece) (lm : Int × Int) (hk : p.type = KING)
    (ms : List (Int × Int)) (h : getLegalMoves b p lm = some ms) (q : Int × Int) :
    q ∈ ms ↔
      (∃ o ∈ dir, q = (p.row + o.1, p.col + o.2) ∧ inBounds q.1 q.2 ∧ notOwn b p q.1 q.2) ∨
      (p.hasMoved = false ∧ q = (p.row, 6) ∧ castleOk b p.row 7 [5, 6] = true) ∨
      (p.hasMoved = false ∧ q = (p.row, 2) ∧ castleOk b p.row 0 [1, 2, 3] = true) := by
  unfold getLegalMoves at h
  simp only [hk] at h
  by_cases hm : p.hasMoved = true
  · simp only [hm, Bool.not_true, Bool.false_eq_true, if_false, Option.some.injEq] at h
    rw [← h, foldl_add_mem]
    simp [hm]
  · have hm2 : p.hasMoved = false := by simpa using hm
    simp only [hm2, Bool.not_false, if_true] at h
    split_ifs at h with h1 h2 h3 h3
    all_goals
      simp only [Option.some.injEq] at h
      rw [← h]
      simp only [List.mem_append, List.mem_singleton, foldl_add_mem, hm2, h2, h3,
        List.not_mem_nil, false_or, true_and, and_true, and_false, or_false, or_assoc]
    all_goals simp_all

theorem king_total (b : Board) (p : Piece) (lm : Int × Int) (hk : p.type = KING)
    (hr : 0 ≤ p.row ∧ p.row < 8) : ∃ ms, getLegalMoves b p lm = some ms := by
  unfold getLegalMoves
  simp only [hk]
  split_ifs <;> exact ⟨_, rfl⟩

theorem readCell_eq_some (b : Board) (r c : Int) (x : Option Piece) :
    readCell b r c = some x ↔ inBounds r c ∧ b r c = x := by
  unfold readCell
  by_cases h : inBounds r c <;> simp [h]

/-- What one round of the diagonal loop of the PAWN case can push: the
forward-diagonal cell, and only when it holds a piece of the other colour. -/
theorem pawnDiag_sound (b : Board) (p : Piece) (lm : Int × Int) (nr dr : Int)
    (moves : List (Int × Int)) (dc : Int) (res : List (Int × Int))
    (hnr : nr = p.row + dr) (h : pawnDiag b p lm nr dr moves dc = some res) :
    ∀ q ∈ res, q ∈ moves ∨ (q = (nr, p.col + dc) ∧ inBounds nr (p.col + dc) ∧
      ∃ x, b nr (p.col + dc) = some x ∧ x.isWhite ≠ p.isWhite) := by
  unfold pawnDiag at h
  simp only [ite_self] at h
  split_ifs at h with h1 h2
  · simp only [Option.bind_eq_bind, Option.bind_eq_some, readCell_eq_some] at h
    obtain ⟨x, ⟨hx1, hx2⟩, y, ⟨hy1, hy2⟩, h⟩ := h
    have hl : lm = (nr, p.col + dc) := by
      rw [hnr]; exact Prod.ext h2.1 h2.2
    rw [hl] at hy2
    simp only at hy2
    rw [hx2] at hy2
    subst hy2
    cases x with
    | none =>
      simp only [Option.pure_def, Option.some.injEq] at h
      intro q hq
      rw [← h] at hq
      exact Or.inl hq
    | some x =>
      by_cases hc : x.isWhite = p.isWhite
      · simp only [hc, ne_eq, not_true_eq_false, if_false, and_false, Option.pure_def,
          Option.some.injEq] at h
        intro q hq
        rw [← h] at hq
        exact Or.inl hq
      · intro q hq
        have hgood : q = (nr, p.col + dc) → q ∈ moves ∨ (q = (nr, p.col + dc) ∧
            inBounds nr (p.col + dc) ∧
            ∃ x, b nr (p.col + dc) = some x ∧ x.isWhite ≠ p.isWhite) :=
          fun e => Or.inr ⟨e, hx1, x, hx2, hc⟩
        simp only [hc, ne_eq, not_false_eq_true, if_true, and_true, Option.pure_def] at h
        split_ifs at h
        all_goals
          simp only [Option.some.injEq] at h
          rw [← h] at hq
          simp only [List.mem_append, List.mem_singleton] at hq
          tauto
  · simp only [Option.bind_eq_bind, Option.bind_eq_some, readCell_eq_some, Option.pure_def,
      Option.some.injEq] at h
    obtain ⟨x, ⟨hx1, hx2⟩, h⟩ := h
    intro q hq
    rw [← h] at hq
    cases x with
    | none => exact Or.inl hq
    | some x =>
      simp only at hq
      split_ifs at hq with hc
      · simp only [List.mem_append, List.mem_singleton] at hq
        rcases hq with hq | hq
        · exact Or.inl hq
        · exact Or.inr ⟨hq, hx1, x, hx2, hc⟩
      · exact Or.inl hq
  · simp only [Option.pure_def, Option.some.injEq] at h
    intro q hq
    rw [← h] at hq
    exact Or.inl hq

theorem pawnDiag_total (b : Board) (p : Piece) (lm : Int × Int) (nr dr : Int)
    (moves : List (Int × Int)) (dc : Int) (hnr : nr = p.row + dr)
    (hr : 0 ≤ nr ∧ nr < 8) : ∃ res, pawnDiag b p lm nr dr moves dc = some res := by
  unfold pawnDiag
  simp only [ite_self]
  by_cases h1 : 0 ≤ p.col + dc ∧ p.col + dc < COLS
  · have hb : inBounds nr (p.col + dc) := ⟨hr.1, hr.2, h1.1, h1.2⟩
    rw [if_pos h1]
    simp only [readCell, hb, if_true, Option.bind_eq_bind, Option.some_bind]
    by_cases h2 : lm.1 = p.row + dr ∧ lm.2 = p.col + dc
    · have hb2 : inBounds lm.1 lm.2 := by rw [h2.1, h2.2, ← hnr]; exact hb
      rw [if_pos h2]
      simp only [hb2, if_true, Option.some_bind]
      split
      · split_ifs <;> exact ⟨_, rfl⟩
      · exact ⟨_, rfl⟩
    · rw [if_neg h2]
      exact ⟨_, rfl⟩
  · rw [if_neg h1]
    exact ⟨_, rfl⟩

/-- Every destination of a pawn is on the grid and is either an empty cell of
the pawn's own column or a cell holding a piece of the other colour. -/
theorem pawn_sound (b : Board) (p : Piece) (lm : Int × Int) (hk : p.type = PAWN)
    (ms : List (Int × Int)) (h : getLegalMoves b p lm = some ms) :
    ∀ q ∈ ms, inBounds q.1 q.2 ∧
      ((q.2 = p.col ∧ b q.1 q.2 = none) ∨
        (q.2 ≠ p.col ∧ ∃ x, b q.1 q.2 = some x ∧ x.isWhite ≠ p.isWhite)) := by
  unfold getLegalMoves at h
  simp only [hk, Option.bind_eq_bind, Option.bind_eq_some, List.foldlM_cons,
    List.foldlM_nil, Option.pure_def] at h
  obtain ⟨m1, h1, m2, h2, m3, h3, m4, h4, h5⟩ := h
  simp only [Option.some.injEq] at h5
  subst h5
  set dr : Int := if p.isWhite = true then -1 else 1 with hdr
  -- the single step
  have g1 : ∀ q ∈ m1, inBounds q.1 q.2 ∧ q.2 = p.col ∧ b q.1 q.2 = none := by
    unfold pawnSingle at h1
    split_ifs at h1 with c1
    · simp only [Option.bind_eq_some, readCell_eq_some, Option.some.injEq] at h1
      obtain ⟨x, ⟨hx1, hx2⟩, h1⟩ := h1
      intro q hq
      rw [← h1] at hq
      cases x with
      | none =>
        simp only [Option.isNone_none, if_true, List.mem_singleton] at hq
        subst hq
        exact ⟨hx1, rfl, hx2⟩
      | some x => simp at hq
    · simp only [Option.some.injEq] at h1
      intro q hq
      rw [← h1] at hq
      simp at hq
  -- the double step
  have g2 : ∀ q ∈ m2, inBounds q.1 q.2 ∧ q.2 = p.col ∧ b q.1 q.2 = none := by
    unfold pawnDouble at h2
    simp only at h2
    split_ifs at h2 with c1
    · simp only [Option.bind_eq_some, readCell_eq_some] at h2
      obtain ⟨x, ⟨hx1, hx2⟩, h2⟩ := h2
      cases x with
      | none =>
        simp only [Option.isNone_none, if_true, Option.bind_eq_some, readCell_eq_some,
          Option.some.injEq] at h2
        obtain ⟨y, ⟨_, _⟩, h2⟩ := h2
        intro q hq
        rw [← h2] at hq
        split_ifs at hq
        · simp only [List.mem_append, List.mem_singleton] at hq
          rcases hq with hq | hq
          · exact g1 q hq
          · subst hq
            exact ⟨hx1, rfl, hx2⟩
        · exact g1 q hq
      | some x =>
        simp only [Option.isNone_some, Bool.false_eq_true, if_false, Option.some.injEq] at h2
        rw [← h2]; exact g1
    · simp only [Option.some.injEq] at h2
      rw [← h2]; exact g1
  have step : ∀ (ma mb : List (Int × Int)) (dc : Int), (dc = -1 ∨ dc = 1) →
      pawnDiag b p lm (p.row + dr) dr ma dc = some mb →
      (∀ q ∈ ma, inBounds q.1 q.2 ∧
        ((q.2 = p.col ∧ b q.1 q.2 = none) ∨
          (q.2 ≠ p.col ∧ ∃ x, b q.1 q.2 = some x ∧ x.isWhite ≠ p.isWhite))) →
      ∀ q ∈ mb, inBounds q.1 q.2 ∧
        ((q.2 = p.col ∧ b q.1 q.2 = none) ∨
          (q.2 ≠ p.col ∧ ∃ x, b q.1 q.2 = some x ∧ x.isWhite ≠ p.isWhite)) := by
    intro ma mb dc hdc hpd hma q hq
    rcases pawnDiag_sound b p lm (p.row + dr) dr ma dc mb rfl hpd q hq with hq1 | ⟨e, hb, x, hx, hc⟩
    · exact hma q hq1
    · subst e
      refine ⟨hb, Or.inr ⟨?_, x, hx, hc⟩⟩
      simp only
      omega
  have g3 := step m2 m3 (-1) (Or.inl rfl) h3 (fun q hq => ⟨(g2 q hq).1, Or.inl (g2 q hq).2⟩)
  exact step m3 m4 1 (Or.inr rfl) h4 g3

/-- A pawn that is not on the last row in its direction of travel (row 0 for
white, row 7 for black) has its moves generated without a read off the grid. -/
theorem pawn_total (b : Board) (p : Piece) (lm : Int × Int) (hk : p.type = PAWN)
    (hp : inBounds p.row p.col)
    (hfar : ¬ ((p.isWhite = true ∧ p.row = 0) ∨ (p.isWhite = false ∧ p.row = 7))) :
    ∃ ms, getLegalMoves b p lm = some ms := by
  unfold getLegalMoves
  simp only [hk, Option.bind_eq_bind, List.foldlM_cons, List.foldlM_nil, Option.pure_def]
  set dr : Int := if p.isWhite = true then -1 else 1 with hdr
  simp only [inBounds, ROWS, COLS] at hp
  have hnr : 0 ≤ p.row + dr ∧ p.row + dr < 8 := by
    rw [hdr]
    cases hw : p.isWhite <;> simp [hw] at hfar ⊢ <;> omega
  have hb1 : inBounds (p.row + dr) p.col := ⟨hnr.1, hnr.2, hp.2.2.1, hp.2.2.2⟩
  have r1 : readCell b (p.row + dr) p.col = some (b (p.row + dr) p.col) := by
    rw [readCell_eq_some]; exact ⟨hb1, rfl⟩
  have e1 : ∃ m1, pawnSingle b p (p.row + dr) = some m1 := by
    unfold pawnSingle
    rw [if_pos hnr, r1, Option.some_bind]
    exact ⟨_, rfl⟩
  obtain ⟨m1, hm1⟩ := e1
  have e2 : ∃ m2, pawnDouble b p dr m1 = some m2 := by
    unfold pawnDouble
    simp only
    split_ifs with c1
    · have hb2 : inBounds (p.row + 2 * dr) p.col := by
        simp only [inBounds, ROWS, COLS]
        rw [hdr]
        rcases c1 with ⟨cw, cr⟩ | ⟨cw, cr⟩
        · simp [cw, cr]; omega
        · simp [cw, cr]; omega
      have r2 : readCell b (p.row + 2 * dr) p.col = some (b (p.row + 2 * dr) p.col) := by
        rw [readCell_eq_some]; exact ⟨hb2, rfl⟩
      rw [r2, r1, Option.some_bind]
      split_ifs
      · exact ⟨_, rfl⟩
      · exact ⟨_, rfl⟩
    · exact ⟨_, rfl⟩
  obtain ⟨m2, hm2⟩ := e2
  obtain ⟨m3, hm3⟩ := pawnDiag_total b p lm (p.row + dr) dr m2 (-1) rfl hnr
  obtain ⟨m4, hm4⟩ := pawnDiag_total b p lm (p.row + dr) dr m3 1 rfl hnr
  rw [hm1, Option.some_bind, hm2, Option.some_bind, hm3, Option.some_bind, hm4,
    Option.some_bind]
  exact ⟨_, rfl⟩

theorem codeDirs_sub (t : PieceType) : ∀ d ∈ codeDirs t, d ∈ dir := by
  cases t <;> decide

theorem mem_codeDirs (t : PieceType) (d : Int × Int) : d ∈ codeDirs t ↔ slideDirs t d := by
  obtain ⟨x, y⟩ := d
  cases t <;>
    simp only [codeDirs, slideDirs, dir, rookDirs, bishopDirs, List.map, List.getD_cons_zero,
      List.getD_cons_succ, List.mem_cons, Prod.mk.injEq, List.mem_singleton, List.not_mem_nil,
      or_false, and_true, and_false, ne_eq] <;>
    omega

theorem getLegalMoves_slider (b : Board) (p : Piece) (lm : Int × Int)
    (ht : p.type = QUEEN ∨ p.type = ROOK ∨ p.type = BISHOP) :
    getLegalMoves b p lm = slideAll b p (codeDirs p.type) [] := by
  unfold getLegalMoves
  rcases ht with h | h | h <;> simp only [h, codeDirs]

/-- The cells between two cells of the grid on a ray are on the grid. -/
theorem inBounds_between (d : Int × Int) (hd : d ∈ dir) (r c : Int) (k m : Nat)
    (hm : m ≤ k) (h0 : inBounds r c) (hk : inBounds (r + k * d.1) (c + k * d.2)) :
    inBounds (r + m * d.1) (c + m * d.2) := by
  obtain ⟨x, y⟩ := d
  rw [mem_dir] at hd
  simp only [inBounds, ROWS, COLS] at *
  have hmk : (m : Int) ≤ (k : Int) := by exact_mod_cast hm
  have hm0 : (0 : Int) ≤ (m : Int) := by positivity
  obtain ⟨hx, hy, _⟩ := hd
  rcases hx with hx | hx | hx <;> rcases hy with hy | hy | hy <;> subst hx <;> subst hy <;>
    simp only [mul_neg, mul_one, mul_zero, add_zero] at * <;> omega

/-- The walk from the cell next to `(r, c)`, told from `(r, c)`. -/
theorem rayReach_from (b : Board) (p : Piece) (d : Int × Int) (hd : d ∈ dir) (r c : Int)
    (h0 : inBounds r c) (q : Int × Int) :
    rayReach b p d (r + d.1) (c + d.2) q ↔
      ∃ k : Nat, 1 ≤ k ∧ q = (r + k * d.1, c + k * d.2) ∧ inBounds q.1 q.2 ∧
        (∀ m : Nat, 1 ≤ m → m < k → b (r + m * d.1) (c + m * d.2) = none) ∧
        notOwn b p q.1 q.2 := by
  have e1 : ∀ m : Nat, r + d.1 + (m : Int) * d.1 = r + ((m + 1 : Nat) : Int) * d.1 := by
    intro m; push_cast; ring
  have e2 : ∀ m : Nat, c + d.2 + (m : Int) * d.2 = c + ((m + 1 : Nat) : Int) * d.2 := by
    intro m; push_cast; ring
  constructor
  · rintro ⟨k, hk, hkb, hkm, hkn⟩
    refine ⟨k + 1, by omega, ?_, hkb, ?_, hkn⟩
    · rw [hk, e1, e2]
    · intro m hm1 hm2
      obtain ⟨m, rfl⟩ : ∃ j, m = j + 1 := ⟨m - 1, by omega⟩
      have := (hkm m (by omega)).2
      rw [e1, e2] at this
      exact this
  · rintro ⟨k, hk1, hk, hkb, hkm, hkn⟩
    obtain ⟨k, rfl⟩ : ∃ j, k = j + 1 := ⟨k - 1, by omega⟩
    refine ⟨k, ?_, hkb, ?_, hkn⟩
    · rw [hk, e1, e2]
    · intro m hm
      rw [e1, e2]
      refine ⟨?_, hkm (m + 1) (by omega) (by omega)⟩
      apply inBounds_between d hd r c (k + 1) (m + 1) (by omega) h0
      rw [hk] at hkb
      exact hkb

/-- The generator returns a list for every piece stored on a cell of the grid
but a pawn on the last row in its direction of travel, and every destination it
returns is on the grid and not held by a piece of the mover's colour. -/
theorem getLegalMoves_ok (b : Board) (p : Piece) (lm : Int × Int)
    (hp : inBounds p.row p.col) :
    (¬ farRankPawn p → ∃ ms, getLegalMoves b p lm = some ms) ∧
      ∀ ms, getLegalMoves b p lm = some ms →
        ∀ q ∈ ms, inBounds q.1 q.2 ∧ notOwn b p q.1 q.2 := by
  have hslide : (p.type = QUEEN ∨ p.type = ROOK ∨ p.type = BISHOP) →
      (∃ ms, getLegalMoves b p lm = some ms) ∧
      ∀ ms, getLegalMoves b p lm = some ms →
        ∀ q ∈ ms, inBounds q.1 q.2 ∧ notOwn b p q.1 q.2 := by
    intro ht
    obtain ⟨res, hres, hmem⟩ := slideAll_spec b p (codeDirs p.type) [] (codeDirs_sub p.type)
    rw [getLegalMoves_slider b p lm ht, hres]
    refine ⟨⟨res, rfl⟩, ?_⟩
    intro ms hms q hq
    simp only [Option.some.injEq] at hms
    subst hms
    rcases (hmem q).1 hq with h | ⟨d, _, k, _, hkb, _, hkn⟩
    · simp at h
    · exact ⟨hkb, hkn⟩
  cases ht : p.type with
  | KING =>
    refine ⟨fun _ => king_total b p lm ht ⟨hp.1, hp.2.1⟩, ?_⟩
    intro ms hms q hq
    rcases (king_moves b p lm ht ms hms q).1 hq with ⟨o, _, _, h1, h2⟩ | ⟨_, hq, hc⟩ | ⟨_, hq, hc⟩
    · exact ⟨h1, h2⟩
    · rw [castleOk_iff] at hc
      subst hq
      refine ⟨⟨hp.1, hp.2.1, by simp, by simp [COLS]⟩, ?_⟩
      intro x hx
      simp [hc.2 6 (by simp)] at hx
    · rw [castleOk_iff] at hc
      subst hq
      refine ⟨⟨hp.1, hp.2.1, by simp, by simp [COLS]⟩, ?_⟩
      intro x hx
      simp [hc.2 2 (by simp)] at hx
  | QUEEN => exact ⟨fun _ => (hslide (Or.inl ht)).1, (hslide (Or.inl ht)).2⟩
  | ROOK => exact ⟨fun _ => (hslide (Or.inr (Or.inl ht))).1, (hslide (Or.inr (Or.inl ht))).2⟩
  | BISHOP => exact ⟨fun _ => (hslide (Or.inr (Or.inr ht))).1, (hslide (Or.inr (Or.inr ht))).2⟩
  | KNIGHT =>
    have e : getLegalMoves b p lm =
        some (jmp.foldl (fun m jj => add b p m (p.row + jj.1) (p.col + jj.2)) []) := by
      unfold getLegalMoves; simp only [ht]
    rw [e]
    refine ⟨fun _ => ⟨_, rfl⟩, ?_⟩
    intro ms hms q hq
    simp only [Option.some.injEq] at hms
    subst hms
    rw [foldl_add_mem] at hq
    rcases hq with h | ⟨o, _, _, h1, h2⟩
    · simp at h
    · exact ⟨h1, h2⟩
  | PAWN =>
    refine ⟨fun hfar => pawn_total b p lm ht hp (fun h => hfar ⟨ht, h⟩), ?_⟩
    intro ms hms q hq
    obtain ⟨h1, h2⟩ := pawn_sound b p lm ht ms hms q hq
    refine ⟨h1, ?_⟩
    intro x hx
    rcases h2 with ⟨_, h2⟩ | ⟨_, y, hy, hc⟩
    · simp [h2] at hx
    · rw [hy] at hx
      simp only [Option.some.injEq] at hx
      rw [← hx]; exact hc

/-- Claim C1. Every destination returned by `getLegalMoves` is on the grid and
is not held by a piece of the colour of the moving piece, for every board, every
piece whose stored position is a cell of the grid and every `lastMove`; this
covers the castling cells, the double step of a pawn and the en passant branch.
The generator returns such a list for every piece but a pawn standing on the
last row in its direction of travel, where the source reads off the grid. -/
theorem getLegalMoves_destinations (b : Board) (p : Piece) (lm : Int × Int)
    (hp : inBounds p.row p.col) :
    (¬ farRankPawn p → ∃ ms, getLegalMoves b p lm = some ms) ∧
      ∀ ms, getLegalMoves b p lm = some ms →
        ∀ q ∈ ms, inBounds q.1 q.2 ∧ notOwn b p q.1 q.2 :=
  getLegalMoves_ok b p lm hp

/-- Claim C2. For a queen, rook or bishop standing on the grid, `getLegalMoves`
returns exactly the cells `(r + k*dr, c + k*dc)`, `k ≥ 1`, along a direction of
the piece's direction set that are on the grid, are reached over empty cells
only, and are empty or hold a piece of the other colour. -/
theorem getLegalMoves_sliding_exact (b : Board) (p : Piece) (lm : Int × Int)
    (ht : p.type = QUEEN ∨ p.type = ROOK ∨ p.type = BISHOP)
    (hp : inBounds p.row p.col) :
    ∃ ms, getLegalMoves b p lm = some ms ∧
      ∀ q : Int × Int, q ∈ ms ↔
        ∃ d : Int × Int, slideDirs p.type d ∧
          ∃ k : Nat, 1 ≤ k ∧ q = (p.row + k * d.1, p.col + k * d.2) ∧ inBounds q.1 q.2 ∧
            (∀ m : Nat, 1 ≤ m → m < k → b (p.row + m * d.1) (p.col + m * d.2) = none) ∧
            notOwn b p q.1 q.2 := by
  obtain ⟨res, hres, hmem⟩ := slideAll_spec b p (codeDirs p.type) [] (codeDirs_sub p.type)
  refine ⟨res, by rw [getLegalMoves_slider b p lm ht, hres], ?_⟩
  intro q
  rw [hmem q]
  simp only [List.not_mem_nil, false_or]
  constructor
  · rintro ⟨d, hd, hr⟩
    exact ⟨d, (mem_codeDirs _ d).1 hd,
      (rayReach_from b p d (codeDirs_sub _ d hd) p.row p.col hp q).1 hr⟩
  · rintro ⟨d, hd, hr⟩
    have hd2 := (mem_codeDirs _ d).2 hd
    exact ⟨d, hd2, (rayReach_from b p d (codeDirs_sub _ d hd2) p.row p.col hp q).2 hr⟩

theorem getLegalMoves_destinations_witness :
    inBounds whitePawnE.row whitePawnE.col ∧
      ((¬ farRankPawn whitePawnE → ∃ ms, getLegalMoves initialBoard whitePawnE (-1, -1) = some ms) ∧
        ∀ ms, getLegalMoves initialBoard whitePawnE (-1, -1) = some ms →
          ∀ q ∈ ms, inBounds q.1 q.2 ∧ notOwn initialBoard whitePawnE q.1 q.2) :=
  ⟨by decide, getLegalMoves_destinations initialBoard whitePawnE (-1, -1) (by decide)⟩

theorem getLegalMoves_sliding_exact_witness :
    (whiteQueenD.type = QUEEN ∨ whiteQueenD.type = ROOK ∨ whiteQueenD.type = BISHOP) ∧
      inBounds whiteQueenD.row whiteQueenD.col ∧
      ∃ ms, getLegalMoves queenBoard whiteQueenD (-1, -1) = some ms ∧
        ∀ q : Int × Int, q ∈ ms ↔
          ∃ d : Int × Int, slideDirs whiteQueenD.type d ∧
            ∃ k : Nat, 1 ≤ k ∧ q = (whiteQueenD.row + k * d.1, whiteQueenD.col + k * d.2) ∧
              inBounds q.1 q.2 ∧
              (∀ m : Nat, 1 ≤ m → m < k →
                queenBoard (whiteQueenD.row + m * d.1) (whiteQueenD.col + m * d.2) = none) ∧
              notOwn queenBoard whiteQueenD q.1 q.2 :=
  ⟨by decide, by decide,
    getLegalMoves_sliding_exact queenBoard whiteQueenD (-1, -1) (by decide) (by decide)⟩

/-- A destination of a king two columns from its stored column is a castling
cell: the king stands on column 4 of the row and the castling test of that side
succeeded. -/
theorem king_castle_dest (b : Board) (p : Piece) (lm : Int × Int)
    (hk : p.type = KING) (hp : inBounds p.row p.col) (hon : b p.row p.col = some p)
    (ms : List (Int × Int)) (hms : getLegalMoves b p lm = some ms)
    (q : Int × Int) (hq : q ∈ ms) (habs : |q.2 - p.col| = 2) :
    q.1 = p.row ∧ p.col = 4 ∧ p.hasMoved = false ∧
      ((q.2 = 6 ∧ castleOk b p.row 7 [5, 6] = true) ∨
        (q.2 = 2 ∧ castleOk b p.row 0 [1, 2, 3] = true)) := by
  have h2 : q.2 - p.col = 2 ∨ q.2 - p.col = -2 := (abs_eq (by norm_num)).1 habs
  simp only [inBounds, ROWS, COLS] at hp
  rcases (king_moves b p lm hk ms hms q).1 hq with ⟨o, ho, hq, _, _⟩ | ⟨hm, hq, hc⟩ | ⟨hm, hq, hc⟩
  · rw [mem_dir] at ho
    rw [hq] at h2
    simp only at h2
    omega
  · rw [hq] at h2 ⊢
    simp only at h2 ⊢
    exact ⟨trivial, by omega, hm, Or.inl ⟨trivial, hc⟩⟩
  · rw [hq] at h2 ⊢
    simp only at h2 ⊢
    have hcol : p.col = 4 ∨ p.col = 0 := by omega
    rcases hcol with hcol | hcol
    · exact ⟨trivial, hcol, hm, Or.inr ⟨trivial, hc⟩⟩
    · rw [castleOk_iff] at hc
      obtain ⟨rk, hrk, hty, _⟩ := hc.1
      rw [hcol] at hon
      rw [hon] at hrk
      simp only [Option.some.injEq] at hrk
      rw [← hrk, hk] at hty
      exact absurd hty (by decide)

/-- Claim C5. A king standing on its stored cell of the grid is offered a cell
of its own row two columns away only if it has not moved, the corner of that row
on that side (column 7 to the right, column 0 to the left) holds a rook that has
not moved, and all cells strictly between the king and that corner are empty. -/
theorem castling_only_when_allowed (b : Board) (p : Piece) (lm : Int × Int)
    (hk : p.type = KING) (hp : inBounds p.row p.col) (hon : b p.row p.col = some p) :
    (∃ ms, getLegalMoves b p lm = some ms) ∧
      ∀ ms, getLegalMoves b p lm = some ms →
        ∀ q ∈ ms, q.1 = p.row → |q.2 - p.col| = 2 →
          p.hasMoved = false ∧
          (∃ rk, b p.row (if p.col < q.2 then 7 else 0) = some rk ∧ rk.type = ROOK ∧
            rk.hasMoved = false) ∧
          ∀ c : Int, min p.col (if p.col < q.2 then 7 else 0) < c →
            c < max p.col (if p.col < q.2 then 7 else 0) → b p.row c = none := by
  refine ⟨king_total b p lm hk ⟨hp.1, hp.2.1⟩, ?_⟩
  intro ms hms q hq _ habs
  obtain ⟨_, hcol, hm, hside⟩ := king_castle_dest b p lm hk hp hon ms hms q hq habs
  rw [hcol]
  rcases hside with ⟨h6, hc⟩ | ⟨h2, hc⟩
  · rw [castleOk_iff] at hc
    rw [h6]
    refine ⟨hm, by simpa using hc.1, ?_⟩
    intro c h1 h3
    simp only [show (4 : Int) < 6 by norm_num, if_true] at h1 h3
    have : c = 5 ∨ c = 6 := by
      rw [lt_max_iff] at h3
      rw [min_lt_iff] at h1
      omega
    rcases this with rfl | rfl
    · exact hc.2 5 (by simp)
    · exact hc.2 6 (by simp)
  · rw [castleOk_iff] at hc
    rw [h2]
    refine ⟨hm, by simpa using hc.1, ?_⟩
    intro c h1 h3
    simp only [show ¬ (4 : Int) < 2 by norm_num, if_false] at h1 h3
    have : c = 1 ∨ c = 2 ∨ c = 3 := by
      rw [lt_max_iff] at h3
      rw [min_lt_iff] at h1
      omega
    rcases this with rfl | rfl | rfl
    · exact hc.2 1 (by simp)
    · exact hc.2 2 (by simp)
    · exact hc.2 3 (by simp)

theorem castling_only_when_allowed_witness :
    whiteKingE.type = KING ∧ inBounds whiteKingE.row whiteKingE.col ∧
      castleBoard whiteKingE.row whiteKingE.col = some whiteKingE ∧
      (∃ ms, getLegalMoves castleBoard whiteKingE (-1, -1) = some ms) ∧
      ∀ ms, getLegalMoves castleBoard whiteKingE (-1, -1) = some ms →
        ∀ q ∈ ms, q.1 = whiteKingE.row → |q.2 - whiteKingE.col| = 2 →
          whiteKingE.hasMoved = false ∧
          (∃ rk, castleBoard whiteKingE.row (if whiteKingE.col < q.2 then 7 else 0) = some rk ∧
            rk.type = ROOK ∧ rk.hasMoved = false) ∧
          ∀ c : Int, min whiteKingE.col (if whiteKingE.col < q.2 then 7 else 0) < c →
            c < max whiteKingE.col (if whiteKingE.col < q.2 then 7 else 0) →
            castleBoard whiteKingE.row c = none :=
  ⟨by decide, by decide, by decide,
    castling_only_when_allowed castleBoard whiteKingE (-1, -1) (by decide) (by decide)
      (by decide)⟩

/-- The king of `castleBoard` is offered the castling cell `(7, 6)`. -/
theorem castleBoard_moves :
    getLegalMoves castleBoard whiteKingE (-1, -1) = some [(7, 5), (7, 6)] := by
  decide

/-- Claim C8. The move generator never offers en passant.  In the position
after a black pawn went from `(1, 3)` to `(3, 3)` past the white pawn on
`(3, 4)`, with `lastMove = (1, 3)`, the white pawn is offered `(2, 4)` only and
not the empty cell `(2, 3)`; and for every board, pawn and `lastMove`, every
destination returned outside the pawn's own column holds a piece of the other
colour. -/
theorem enPassant_never_offered :
    getLegalMoves epBoard epWhitePawn (1, 3) = some [(2, 4)] ∧
      ∀ (b : Board) (p : Piece) (lm : Int × Int) (ms : List (Int × Int)),
        p.type = PAWN → getLegalMoves b p lm = some ms →
          ∀ q ∈ ms, q.2 ≠ p.col → ∃ x, b q.1 q.2 = some x ∧ x.isWhite ≠ p.isWhite := by
  refine ⟨by decide, ?_⟩
  intro b p lm ms hk hms q hq hcol
  rcases (pawn_sound b p lm hk ms hms q hq).2 with ⟨h, _⟩ | ⟨_, h⟩
  · exact absurd h hcol
  · exact h

/-! ## The history serializer -/

theorem foldl_push_data {α : Type} (f : α → Char) :
    ∀ (l : List α) (s : String),
      (l.foldl (fun ss c => ss.push (f c)) s).data = s.data ++ l.map f := by
  intro l
  induction l with
  | nil => intro s; simp
  | cons a l ih =>
    intro s
    rw [List.foldl_cons, ih]
    simp [String.data_push]

/-- The characters written by the two nested loops, row by row. -/
theorem foldl_rows_data (b : Board) :
    ∀ (rows : List Nat) (s : String),
      (rows.foldl (fun ss r => (List.range 8).foldl
        (fun ss c => ss.push (cellChar (b (r : Int) (c : Int)))) ss) s).data =
      s.data ++ (rows.map fun (r : Nat) => (List.range 8).map
        fun (c : Nat) => cellChar (b (r : Int) (c : Int))).flatten := by
  intro rows
  induction rows with
  | nil => intro s; simp
  | cons r rows ih =>
    intro s
    rw [List.foldl_cons, ih, foldl_push_data]
    simp

theorem serializeBoard_data (b : Board) (t : Bool) :
    (serializeBoard b t).data =
      ((List.range 8).map fun (r : Nat) => (List.range 8).map
        fun (c : Nat) => cellChar (b (r : Int) (c : Int))).flatten ++
        [if t then '1' else '0'] := by
  unfold serializeBoard
  simp only [String.data_push, foldl_rows_data]
  simp

theorem cellChar_eq_iff (x y : Option Piece) : cellChar x = cellChar y ↔ sameCell x y := by
  unfold sameCell
  cases x with
  | none =>
    cases y with
    | none => simp
    | some q =>
      obtain ⟨w, t, r, c, m⟩ := q
      cases w <;> cases t <;> simp [cellChar]
  | some p =>
    obtain ⟨w, t, r, c, m⟩ := p
    cases y with
    | none => cases w <;> cases t <;> simp [cellChar]
    | some q =>
      obtain ⟨w2, t2, r2, c2, m2⟩ := q
      cases w <;> cases t <;> cases w2 <;> cases t2 <;> simp [cellChar]

theorem join_rows_eq {α : Type} (n : Nat) :
    ∀ (rows : List Nat) (f g : Nat → List α),
      (∀ r, (f r).length = n) → (∀ r, (g r).length = n) →
      ((rows.map f).flatten = (rows.map g).flatten ↔ ∀ r ∈ rows, f r = g r) := by
  intro rows
  induction rows with
  | nil => intro f g _ _; simp
  | cons r rows ih =>
    intro f g hf hg
    simp only [List.map_cons, List.flatten_cons, List.mem_cons, forall_eq_or_imp]
    rw [← ih f g hf hg]
    constructor
    · intro h
      exact List.append_inj h (by rw [hf, hg])
    · rintro ⟨h1, h2⟩
      rw [h1, h2]

theorem forall_range_eight (P : Int → Prop) :
    (∀ r ∈ List.range 8, P (r : Int)) ↔ ∀ r : Int, 0 ≤ r → r < 8 → P r := by
  constructor
  · intro h r h0 h8
    have := h r.toNat (by rw [List.mem_range]; omega)
    rwa [Int.toNat_of_nonneg h0] at this
  · intro h r hr
    rw [List.mem_range] at hr
    exact h r (by omega) (by omega)

/-- Claim C4. `serializeBoard` is injective over placement, colour and side to
move: two serializations are equal exactly when the turns are equal and every
cell of the grid is empty in both boards or holds a piece of the same kind and
colour in both. -/
theorem serializeBoard_injective (b1 b2 : Board) (t1 t2 : Bool) :
    serializeBoard b1 t1 = serializeBoard b2 t2 ↔
      t1 = t2 ∧ ∀ r c : Int, inBounds r c → sameCell (b1 r c) (b2 r c) := by
  have hlen : ∀ (b : Board) (r : Nat),
      ((List.range 8).map fun c : Nat => cellChar (b (r : Int) (c : Int))).length = 8 := by
    intro b r; simp
  have hcells : ∀ b : Board, (((List.range 8).map fun r : Nat => (List.range 8).map
      fun c : Nat => cellChar (b (r : Int) (c : Int))).flatten).length = 64 := by
    intro b
    simp only [List.length_flatten, List.map_map, Function.comp_def, List.length_map,
      List.length_range, List.map_const', List.sum_replicate, smul_eq_mul]
  have hturn : ((if t1 = true then '1' else '0') = (if t2 = true then '1' else '0')) ↔ t1 = t2 := by
    cases t1 <;> cases t2 <;> decide
  rw [String.ext_iff, serializeBoard_data, serializeBoard_data]
  constructor
  · intro h
    obtain ⟨hc, ht⟩ := List.append_inj h (by rw [hcells, hcells])
    refine ⟨hturn.1 (by simpa using ht), ?_⟩
    rw [join_rows_eq 8 _ _ _ (hlen b1) (hlen b2)] at hc
    intro r c hb
    rw [← cellChar_eq_iff]
    have hrow := (forall_range_eight
      (fun r => (List.range 8).map (fun c : Nat => cellChar (b1 r (c : Int))) =
        (List.range 8).map (fun c : Nat => cellChar (b2 r (c : Int))))).1 hc r hb.1 hb.2.1
    rw [List.map_inj_left] at hrow
    exact (forall_range_eight (fun c => cellChar (b1 r c) = cellChar (b2 r c))).1 hrow c
      hb.2.2.1 hb.2.2.2
  · rintro ⟨ht, hc⟩
    rw [ht]
    congr 1
    rw [join_rows_eq 8 _ _ _ (hlen b1) (hlen b2)]
    intro r hr
    rw [List.map_inj_left]
    intro c hc2
    rw [cellChar_eq_iff]
    rw [List.mem_range] at hr hc2
    exact hc r c ⟨by omega, by simp only [ROWS]; omega, by omega, by simp only [COLS]; omega⟩

/-! ## The flip resolver -/

theorem isKingAt_setCell_recolour (b : Board) (r c : Int) (q : Piece) (X : Bool)
    (hq : b r c = some q) (i j : Int) :
    isKingAt (setCell b r c (some { q with isWhite := X })) i j ↔ isKingAt b i j := by
  unfold isKingAt setCell
  by_cases h : i = r ∧ j = c
  · rw [if_pos h, h.1, h.2, hq]
    simp
  · rw [if_neg h]

/-- The loop over `toFlip`: the listed cells get the colour `X`, and the flags
record a king among them. -/
theorem flipAll_spec (X : Bool) :
    ∀ (l : List (Int × Int)) (s : FlipState),
      (∀ i j, (flipAll X l s).board i j =
        if (i, j) ∈ l then (s.board i j).map (recolour X) else s.board i j) ∧
      ((flipAll X l s).gameOver = true ↔
        s.gameOver = true ∨ ∃ cell ∈ l, isKingAt s.board cell.1 cell.2) ∧
      ((∃ cell ∈ l, isKingAt s.board cell.1 cell.2) → (flipAll X l s).winnerIsWhite = X) ∧
      ((¬ ∃ cell ∈ l, isKingAt s.board cell.1 cell.2) →
        (flipAll X l s).winnerIsWhite = s.winnerIsWhite) := by
  intro l
  induction l with
  | nil => intro s; simp [flipAll]
  | cons a l ih =>
    intro s
    obtain ⟨r, c⟩ := a
    cases hq : s.board r c with
    | none =>
      have e : flipAll X ((r, c) :: l) s = flipAll X l s := by
        simp only [flipAll, hq]
      have hk : ¬ isKingAt s.board r c := by
        rintro ⟨q, h, _⟩
        rw [hq] at h; simp at h
      rw [e]
      obtain ⟨h1, h2, h3, h4⟩ := ih s
      refine ⟨?_, ?_, ?_, ?_⟩
      · intro i j
        rw [h1 i j]
        by_cases hm : (i, j) ∈ l
        · simp [hm]
        · by_cases he : (i, j) = (r, c)
          · simp only [Prod.mk.injEq] at he
            simp [hm, he.1, he.2, hq]
          · simp [hm, he]
      · rw [h2]; simp [hk]
      · intro hK
        apply h3
        simpa [hk] using hK
      · intro hK
        apply h4
        simpa [hk] using hK
    | some q =>
      have e : flipAll X ((r, c) :: l) s = flipAll X l
          { board := setCell s.board r c (some { q with isWhite := X }),
            gameOver := if q.type = KING then true else s.gameOver,
            winnerIsWhite := if q.type = KING then X else s.winnerIsWhite } := by
        simp only [flipAll, hq]
      rw [e]
      obtain ⟨h1, h2, h3, h4⟩ := ih
          { board := setCell s.board r c (some { q with isWhite := X }),
            gameOver := if q.type = KING then true else s.gameOver,
            winnerIsWhite := if q.type = KING then X else s.winnerIsWhite }
      simp only [isKingAt_setCell_recolour s.board r c q X hq] at h2 h3 h4
      have hk : isKingAt s.board r c ↔ q.type = KING := by
        unfold isKingAt
        rw [hq]; simp
      refine ⟨?_, ?_, ?_, ?_⟩
      · intro i j
        rw [h1 i j]
        by_cases he : i = r ∧ j = c
        · obtain ⟨rfl, rfl⟩ := he
          simp only [setCell, and_self, if_true, hq, List.mem_cons, true_or, Option.map_some']
          split_ifs <;> simp [recolour]
        · have he2 : ¬ (i, j) = (r, c) := by simpa using he
          simp only [setCell, he, if_false, List.mem_cons, he2, false_or]
      · rw [h2]
        simp only [List.mem_cons, exists_eq_or_imp, hk]
        by_cases hkq : q.type = KING <;> simp [hkq]
      · intro hK
        simp only [List.mem_cons, exists_eq_or_imp, hk] at hK
        by_cases hK2 : ∃ cell ∈ l, isKingAt s.board cell.1 cell.2
        · exact h3 hK2
        · rw [h4 hK2]
          rcases hK with hK | hK
          · simp [hK]
          · exact absurd hK hK2
      · intro hK
        simp only [List.mem_cons, exists_eq_or_imp, hk, not_or] at hK
        rw [h4 hK.2]
        simp [hK.1]

theorem flipsTo_of_empty (X : Bool) (P : Int → Int → Prop) (s : FlipState)
    (h : ∀ i j, ¬ P i j) : flipsTo X P s s := by
  have hK : ¬ ∃ i j, P i j ∧ isKingAt s.board i j := by
    rintro ⟨i, j, hp, _⟩
    exact h i j hp
  refine ⟨fun i j => ⟨fun hp => absurd hp (h i j), fun _ => rfl⟩, ?_, ?_, ?_⟩
  · simp [hK]
  · intro hk; exact absurd hk hK
  · intro _; rfl

theorem bool_eq_not (a b : Bool) (h : ¬ a = b) : a = !b := by
  cases a <;> cases b <;> simp_all

theorem holds_not_both (b : Board) (cell : Int × Int) (X : Bool)
    (h1 : holds b cell X) (h2 : holds b cell (!X)) : False := by
  obtain ⟨_, q, hq, hc⟩ := h1
  obtain ⟨_, q2, hq2, hc2⟩ := h2
  rw [hq] at hq2
  simp only [Option.some.injEq] at hq2
  rw [← hq2, hc] at hc2
  cases X <;> simp at hc2

/-- The `while` loop of `flipOthello` on one ray, taken up at distance `t`
with the cells at distances `1..t-1` collected: it ends, and it flips exactly the
cells bracketed on that ray. -/
theorem flipWalk_spec (X : Bool) (d : Int × Int) (hd : d ∈ dir) (row col : Int)
    (s : FlipState) :
    ∀ (fuel t : Nat) (r c : Int) (toFlip : List (Int × Int)),
      1 ≤ t → (r, c) = rayCell row col d t → rayLeft d r c < fuel →
      (∀ cell, cell ∈ toFlip ↔ ∃ m : Nat, 1 ≤ m ∧ m < t ∧ cell = rayCell row col d m) →
      (∀ m : Nat, 1 ≤ m → m < t → holds s.board (rayCell row col d m) (!X)) →
      ∃ s1, flipWalk X d fuel r c toFlip s = some s1 ∧
        flipsTo X (bracketedOn s.board row col X d) s s1 := by
  intro fuel
  induction fuel with
  | zero =>
    intro t r c toFlip _ _ h
    have : 0 ≤ rayLeft d r c := by
      rw [mem_dir] at hd
      simp only [rayLeft, inBounds, ROWS, COLS]
      split_ifs <;> omega
    omega
  | succ n ih =>
    intro t r c toFlip ht hrc hfuel hmem hopp
    -- a bracket on this ray ends at distance `t` or later
    have hge : ∀ k n : Nat, 1 ≤ k → k < n →
        (∀ m : Nat, 1 ≤ m → m < n → holds s.board (rayCell row col d m) (!X)) →
        holds s.board (rayCell row col d n) X → t ≤ n := by
      intro k n hk hkn _ hn
      by_contra hlt
      exact holds_not_both _ _ _ hn (hopp n (by omega) (by omega))
    -- if the cell at distance `t` holds no piece of either colour, nothing is bracketed
    have hstop : ¬ holds s.board (r, c) X → ¬ holds s.board (r, c) (!X) →
        ∀ i j, ¬ bracketedOn s.board row col X d i j := by
      rintro h1 h2 i j ⟨k, n, hk, hkn, _, hall, hn⟩
      have htn := hge k n hk hkn hall hn
      rcases Nat.lt_or_ge t n with h | h
      · exact h2 (by rw [hrc]; exact hall t ht h)
      · have : n = t := by omega
        rw [this, ← hrc] at hn
        exact h1 hn
    unfold flipWalk
    by_cases hb : inBounds r c
    · rw [if_pos hb]
      cases hc : s.board r c with
      | none =>
        refine ⟨s, rfl, flipsTo_of_empty X _ s (hstop ?_ ?_)⟩
        · rintro ⟨_, q, hq, _⟩
          simp only at hq
          rw [hc] at hq; simp at hq
        · rintro ⟨_, q, hq, _⟩
          simp only at hq
          rw [hc] at hq; simp at hq
      | some q =>
        by_cases hcol : q.isWhite = X
        · -- the anchor: the collected cells are the bracketed ones
          have hown : holds s.board (r, c) X := ⟨hb, q, hc, hcol⟩
          have hP : ∀ i j, bracketedOn s.board row col X d i j ↔ (i, j) ∈ toFlip := by
            intro i j
            rw [hmem]
            constructor
            · rintro ⟨k, n, hk, hkn, hij, hall, hn⟩
              have htn := hge k n hk hkn hall hn
              rcases Nat.lt_or_ge t n with h | h
              · exact absurd (by rw [hrc]; exact hall t ht h) (fun h2 => holds_not_both _ _ _ hown h2)
              · exact ⟨k, hk, by omega, hij⟩
            · rintro ⟨m, hm1, hm2, hij⟩
              exact ⟨m, t, hm1, hm2, hij, hopp, by rw [← hrc]; exact hown⟩
          by_cases hnil : toFlip = []
          · refine ⟨s, by simp [hcol, hnil], flipsTo_of_empty X _ s ?_⟩
            intro i j
            rw [hP, hnil]
            simp
          · refine ⟨flipAll X toFlip s, by simp [hcol, hnil], ?_⟩
            obtain ⟨h1, h2, h3, h4⟩ := flipAll_spec X toFlip s
            have hK : (∃ cell ∈ toFlip, isKingAt s.board cell.1 cell.2) ↔
                ∃ i j, bracketedOn s.board row col X d i j ∧ isKingAt s.board i j := by
              constructor
              · rintro ⟨⟨i, j⟩, hm, hk⟩
                exact ⟨i, j, (hP i j).2 hm, hk⟩
              · rintro ⟨i, j, hm, hk⟩
                exact ⟨(i, j), (hP i j).1 hm, hk⟩
            refine ⟨?_, ?_, ?_, ?_⟩
            · intro i j
              rw [h1 i j, hP]
              constructor
              · intro hm; rw [if_pos hm]
              · intro hm; rw [if_neg hm]
            · rw [h2, hK]
            · intro hk; exact h3 (hK.2 hk)
            · intro hk; exact h4 (fun h => hk (hK.1 h))
        · -- a piece of the other colour: collect it and go on
          have hcol2 : q.isWhite = !X := bool_eq_not _ _ hcol
          have hlt : rayLeft d (r + d.1) (c + d.2) < (n : Int) := by
            have := rayLeft_step d hd r c hb
            omega
          have hrc2 : (r + d.1, c + d.2) = rayCell row col d (t + 1) := by
            simp only [rayCell, Prod.mk.injEq] at hrc ⊢
            rw [hrc.1, hrc.2]
            push_cast
            constructor <;> ring
          have hmem2 : ∀ cell, cell ∈ toFlip ++ [(r, c)] ↔
              ∃ m : Nat, 1 ≤ m ∧ m < t + 1 ∧ cell = rayCell row col d m := by
            intro cell
            rw [List.mem_append, hmem, List.mem_singleton]
            constructor
            · rintro (⟨m, h1, h2, h3⟩ | h)
              · exact ⟨m, h1, by omega, h3⟩
              · exact ⟨t, ht, by omega, by rw [h, hrc]⟩
            · rintro ⟨m, h1, h2, h3⟩
              rcases Nat.lt_or_ge m t with h | h
              · exact Or.inl ⟨m, h1, h, h3⟩
              · have : m = t := by omega
                rw [this, ← hrc] at h3
                exact Or.inr h3
          have hopp2 : ∀ m : Nat, 1 ≤ m → m < t + 1 →
              holds s.board (rayCell row col d m) (!X) := by
            intro m h1 h2
            rcases Nat.lt_or_ge m t with h | h
            · exact hopp m h1 h
            · have : m = t := by omega
              rw [this, ← hrc]
              exact ⟨hb, q, hc, hcol2⟩
          obtain ⟨s1, hs1, hspec⟩ := ih (t + 1) (r + d.1) (c + d.2) (toFlip ++ [(r, c)])
            (by omega) hrc2 hlt hmem2 hopp2
          exact ⟨s1, by simp [hcol, hs1], hspec⟩
    · rw [if_neg hb]
      refine ⟨s, rfl, flipsTo_of_empty X _ s (hstop ?_ ?_)⟩
      · rintro ⟨h, _⟩; exact hb h
      · rintro ⟨h, _⟩; exact hb h

/-- Two different rays from the same origin share no cell. -/
theorem ray_disjoint (row col : Int) (d e : Int × Int) (hd : d ∈ dir) (he : e ∈ dir)
    (hne : d ≠ e) (k m : Nat) (hk : 1 ≤ k) (hm : 1 ≤ m) :
    rayCell row col d k ≠ rayCell row col e m := by
  obtain ⟨x, y⟩ := d
  obtain ⟨u, v⟩ := e
  rw [mem_dir] at hd he
  intro heq
  simp only [rayCell, Prod.mk.injEq] at heq
  obtain ⟨h1, h2⟩ := heq
  have hk0 : (1 : Int) ≤ (k : Int) := by exact_mod_cast hk
  have hm0 : (1 : Int) ≤ (m : Int) := by exact_mod_cast hm
  obtain ⟨hx, hy, _⟩ := hd
  obtain ⟨hu, hv, _⟩ := he
  simp only at hx hy hu hv
  rcases hx with hx | hx | hx <;> rcases hy with hy | hy | hy <;>
    rcases hu with hu | hu | hu <;> rcases hv with hv | hv | hv <;>
    subst hx <;> subst hy <;> subst hu <;> subst hv <;>
    first
    | exact absurd rfl hne
    | (simp only [mul_neg, mul_one, mul_zero, add_zero] at h1 h2; omega)

theorem bracketedOn_congr (b b1 : Board) (row col : Int) (X : Bool) (d : Int × Int)
    (h : ∀ m : Nat, 1 ≤ m →
      b1 (rayCell row col d m).1 (rayCell row col d m).2 =
        b (rayCell row col d m).1 (rayCell row col d m).2)
    (i j : Int) :
    bracketedOn b1 row col X d i j ↔ bracketedOn b row col X d i j := by
  have hh : ∀ (m : Nat) (w : Bool), 1 ≤ m →
      (holds b1 (rayCell row col d m) w ↔ holds b (rayCell row col d m) w) := by
    intro m w hm
    unfold holds
    rw [h m hm]
  constructor
  · rintro ⟨k, n, hk, hkn, hij, hall, hn⟩
    exact ⟨k, n, hk, hkn, hij, fun m h1 h2 => (hh m _ h1).1 (hall m h1 h2),
      (hh n _ (by omega)).1 hn⟩
  · rintro ⟨k, n, hk, hkn, hij, hall, hn⟩
    exact ⟨k, n, hk, hkn, hij, fun m h1 h2 => (hh m _ h1).2 (hall m h1 h2),
      (hh n _ (by omega)).2 hn⟩

theorem isKingAt_of_flipsTo (X : Bool) (P : Int → Int → Prop) (s s1 : FlipState)
    (h : flipsTo X P s s1) (i j : Int) : isKingAt s1.board i j ↔ isKingAt s.board i j := by
  unfold isKingAt
  by_cases hp : P i j
  · rw [(h.1 i j).1 hp]
    cases s.board i j <;> simp [recolour]
  · rw [(h.1 i j).2 hp]

/-- The flips of one ray followed by the flips of other rays. -/
theorem flipsTo_cons (X : Bool) (row col : Int) (d : Int × Int) (ds : List (Int × Int))
    (hd : d ∈ dir) (hds : ∀ e ∈ ds, e ∈ dir) (hnot : d ∉ ds) (s s1 s2 : FlipState)
    (h1 : flipsTo X (bracketedOn s.board row col X d) s s1)
    (h2 : flipsTo X (fun i j => ∃ e ∈ ds, bracketedOn s1.board row col X e i j) s1 s2) :
    flipsTo X (fun i j => ∃ e ∈ d :: ds, bracketedOn s.board row col X e i j) s s2 := by
  -- the rays of `ds` are untouched by the flips on the ray of `d`
  have hsame : ∀ e ∈ ds, ∀ i j,
      bracketedOn s1.board row col X e i j ↔ bracketedOn s.board row col X e i j := by
    intro e he i j
    apply bracketedOn_congr
    intro m hm
    apply (h1.1 _ _).2
    rintro ⟨k, n, hk, _, hij, _, _⟩
    have hne : d ≠ e := fun h => hnot (h ▸ he)
    exact ray_disjoint row col d e hd (hds e he) hne k m hk hm hij.symm
  have hP2 : ∀ i j, (∃ e ∈ ds, bracketedOn s1.board row col X e i j) ↔
      ∃ e ∈ ds, bracketedOn s.board row col X e i j := by
    intro i j
    constructor
    · rintro ⟨e, he, h⟩; exact ⟨e, he, (hsame e he i j).1 h⟩
    · rintro ⟨e, he, h⟩; exact ⟨e, he, (hsame e he i j).2 h⟩
  have hdisj : ∀ i j, bracketedOn s.board row col X d i j →
      ¬ ∃ e ∈ ds, bracketedOn s1.board row col X e i j := by
    rintro i j ⟨k, n, hk, _, hij, _, _⟩ ⟨e, he, k2, n2, hk2, _, hij2, _, _⟩
    have hne : d ≠ e := fun h => hnot (h ▸ he)
    exact ray_disjoint row col d e hd (hds e he) hne k k2 hk hk2 (hij.symm.trans hij2)
  have hK2 : (∃ i j, (∃ e ∈ ds, bracketedOn s1.board row col X e i j) ∧ isKingAt s1.board i j) ↔
      ∃ i j, (∃ e ∈ ds, bracketedOn s.board row col X e i j) ∧ isKingAt s.board i j := by
    constructor
    · rintro ⟨i, j, hp, hk⟩
      exact ⟨i, j, (hP2 i j).1 hp, (isKingAt_of_flipsTo X _ s s1 h1 i j).1 hk⟩
    · rintro ⟨i, j, hp, hk⟩
      exact ⟨i, j, (hP2 i j).2 hp, (isKingAt_of_flipsTo X _ s s1 h1 i j).2 hk⟩
  have hK : (∃ i j, (∃ e ∈ d :: ds, bracketedOn s.board row col X e i j) ∧ isKingAt s.board i j) ↔
      (∃ i j, bracketedOn s.board row col X d i j ∧ isKingAt s.board i j) ∨
      ∃ i j, (∃ e ∈ ds, bracketedOn s.board row col X e i j) ∧ isKingAt s.board i j := by
    simp only [List.mem_cons, exists_eq_or_imp]
    constructor
    · rintro ⟨i, j, hp | hp, hk⟩
      · exact Or.inl ⟨i, j, hp, hk⟩
      · exact Or.inr ⟨i, j, hp, hk⟩
    · rintro (⟨i, j, hp, hk⟩ | ⟨i, j, hp, hk⟩)
      · exact ⟨i, j, Or.inl hp, hk⟩
      · exact ⟨i, j, Or.inr hp, hk⟩
  obtain ⟨a1, a2, a3, a4⟩ := h1
  obtain ⟨b1, b2, b3, b4⟩ := h2
  rw [hK2] at b2 b3 b4
  refine ⟨?_, ?_, ?_, ?_⟩
  · intro i j
    simp only [List.mem_cons, exists_eq_or_imp]
    constructor
    · rintro (hp | hp)
      · rw [(b1 i j).2 (hdisj i j hp), (a1 i j).1 hp]
      · by_cases hp1 : bracketedOn s.board row col X d i j
        · exact absurd ((hP2 i j).2 hp) (hdisj i j hp1)
        · rw [(b1 i j).1 ((hP2 i j).2 hp), (a1 i j).2 hp1]
    · intro hp
      rw [not_or] at hp
      rw [(b1 i j).2 (fun h => hp.2 ((hP2 i j).1 h)), (a1 i j).2 hp.1]
  · rw [hK, b2, a2, or_assoc]
  · intro hk
    by_cases hk2 : ∃ i j, (∃ e ∈ ds, bracketedOn s.board row col X e i j) ∧ isKingAt s.board i j
    · exact b3 hk2
    · rw [b4 hk2]
      rcases hK.1 hk with h | h
      · exact a3 h
      · exact absurd h hk2
  · intro hk
    rw [hK, not_or] at hk
    rw [b4 hk.2, a4 hk.1]

/-- The loop over the directions: every ray walk ends, and together they flip
the cells bracketed on one of the rays. -/
theorem flipFold_spec (X : Bool) (row col : Int) :
    ∀ (ds : List (Int × Int)) (s : FlipState), (∀ e ∈ ds, e ∈ dir) → ds.Nodup →
      ∃ s2, ds.foldlM
          (fun s d => flipWalk X d rayFuel (row + d.1) (col + d.2) [] s) s = some s2 ∧
        flipsTo X (fun i j => ∃ e ∈ ds, bracketedOn s.board row col X e i j) s s2 := by
  intro ds
  induction ds with
  | nil =>
    intro s _ _
    exact ⟨s, rfl, flipsTo_of_empty X _ s (by simp)⟩
  | cons d ds ih =>
    intro s hds hnd
    have hd : d ∈ dir := hds d (List.mem_cons_self _ _)
    have hfuel : rayLeft d (row + d.1) (col + d.2) < (rayFuel : Int) := by
      have := rayLeft_le d (row + d.1) (col + d.2)
      simp only [rayFuel]; omega
    obtain ⟨s1, hs1, hspec1⟩ := flipWalk_spec X d hd row col s rayFuel 1 (row + d.1) (col + d.2) []
      (le_refl 1) (by simp [rayCell]) hfuel
      (by intro cell; simp; intro m h1 h2; omega) (by intro m h1 h2; omega)
    rw [List.nodup_cons] at hnd
    obtain ⟨s2, hs2, hspec2⟩ := ih s1 (fun e he => hds e (List.mem_cons_of_mem _ he)) hnd.2
    refine ⟨s2, ?_, flipsTo_cons X row col d ds hd
      (fun e he => hds e (List.mem_cons_of_mem _ he)) hnd.1 s s1 s2 hspec1 hspec2⟩
    rw [List.foldlM_cons, hs1]
    exact hs2

/-- What `flipOthello` does, for an origin on the grid that holds a piece `p`:
it returns, having flipped to the colour of `p` exactly the bracketed cells. -/
theorem flipOthello_spec (b : Board) (row col : Int) (go w : Bool) (p : Piece)
    (hb : inBounds row col) (hp : b row col = some p) :
    ∃ f, flipOthello b row col go w = some f ∧
      flipsTo p.isWhite (bracketed b row col p.isWhite)
        { board := b, gameOver := go, winnerIsWhite := w } f := by
  obtain ⟨f, hf, hspec⟩ := flipFold_spec p.isWhite row col dir
    { board := b, gameOver := go, winnerIsWhite := w } (fun e he => he) (by decide)
  refine ⟨f, ?_, ?_⟩
  · unfold flipOthello
    simp only [readCell, hb, if_true, Option.bind_eq_bind, Option.some_bind, hp]
    exact hf
  · have e : (fun i j => ∃ e ∈ dir, bracketedOn b row col p.isWhite e i j) =
        bracketed b row col p.isWhite := by
      funext i j
      unfold bracketed
      apply propext
      constructor
      · rintro ⟨d, hd, h⟩; exact ⟨d, (mem_dir d).1 hd, h⟩
      · rintro ⟨d, hd, h⟩; exact ⟨d, (mem_dir d).2 hd, h⟩
    rw [← e]
    exact hspec

/-- A king changed colour exactly when a bracketed cell held a king. -/
theorem kingFlipped_iff (X : Bool) (b : Board) (row col : Int) (go w : Bool) (f : FlipState)
    (h : flipsTo X (bracketed b row col X) { board := b, gameOver := go, winnerIsWhite := w } f) :
    kingFlipped b f.board ↔ ∃ i j, bracketed b row col X i j ∧ isKingAt b i j := by
  constructor
  · rintro ⟨i, j, q, q1, hq, hk, hq1, hne⟩
    refine ⟨i, j, ?_, q, hq, hk⟩
    by_contra hnb
    have := (h.1 i j).2 hnb
    simp only at this
    rw [hq1, hq] at this
    simp only [Option.some.injEq] at this
    exact hne (by rw [this])
  · rintro ⟨i, j, hbr, q, hq, hk⟩
    have h1 := (h.1 i j).1 hbr
    simp only at h1
    rw [hq] at h1
    refine ⟨i, j, q, recolour X q, hq, hk, h1, ?_⟩
    obtain ⟨d, _, k, n, hk1, hkn, hij, hall, _⟩ := hbr
    obtain ⟨_, q0, hq0, hc0⟩ := hall k hk1 hkn
    rw [← hij] at hq0
    simp only at hq0
    rw [hq] at hq0
    simp only [Option.some.injEq] at hq0
    rw [← hq0] at hc0
    rw [hc0]
    cases X <;> simp [recolour]

/-- Claim C3. For an origin on the grid holding a piece of colour `X`,
`flipOthello` returns a board that equals the board before except that exactly
the bracketed pieces have their colour set to `X`: the pieces at distance
`k ≥ 1` on one of the eight rays for which some `n > k` exists with pieces of
the other colour on all cells at distances `1..n-1` and a piece of colour `X` at
distance `n`.  No cell changes its occupancy and no piece its kind, stored
position or `hasMoved` flag. -/
theorem flipOthello_flips_exactly (b : Board) (row col : Int) (go w : Bool) (p : Piece)
    (hb : inBounds row col) (hp : b row col = some p) :
    ∃ f, flipOthello b row col go w = some f ∧
      ∀ i j,
        (bracketed b row col p.isWhite i j →
          f.board i j = (b i j).map (recolour p.isWhite)) ∧
        (¬ bracketed b row col p.isWhite i j → f.board i j = b i j) ∧
        (f.board i j).map pieceFrame = (b i j).map pieceFrame := by
  obtain ⟨f, hf, hspec⟩ := flipOthello_spec b row col go w p hb hp
  refine ⟨f, hf, ?_⟩
  intro i j
  refine ⟨(hspec.1 i j).1, (hspec.1 i j).2, ?_⟩
  by_cases h : bracketed b row col p.isWhite i j
  · rw [(hspec.1 i j).1 h]
    simp only
    cases b i j with
    | none => rfl
    | some q => rfl
  · rw [(hspec.1 i j).2 h]

theorem flipOthello_flips_exactly_witness :
    inBounds 4 4 ∧ flipBoard 4 4 = some flipMover ∧
      ∃ f, flipOthello flipBoard 4 4 false false = some f ∧
        ∀ i j,
          (bracketed flipBoard 4 4 flipMover.isWhite i j →
            f.board i j = (flipBoard i j).map (recolour flipMover.isWhite)) ∧
          (¬ bracketed flipBoard 4 4 flipMover.isWhite i j → f.board i j = flipBoard i j) ∧
          (f.board i j).map pieceFrame = (flipBoard i j).map pieceFrame :=
  ⟨by decide, by decide,
    flipOthello_flips_exactly flipBoard 4 4 false false flipMover (by decide) (by decide)⟩

/-- On `flipBoard` the pawn on `(4, 5)` and the king on `(4, 6)` turn white,
and the flipped king ends the game with white as the winner. -/
theorem flipBoard_result :
    (flipOthello flipBoard 4 4 false false).map
        (fun f => (serializeBoard f.board false, f.gameOver, f.winnerIsWhite)) =
      some ("000000000000000000000000000000000000RPKR0000000000000000000000000", true, true) := by
  decide

/-- Claim C10. For an origin on the grid holding a piece, `flipOthello` leaves
the game-over flag set if it was set, sets it if a king is among the pieces it
flips, and leaves it as it was otherwise; when a king is flipped the winner
becomes the colour of the piece on the origin, and when none is flipped the
winner is unchanged. -/
theorem flipOthello_gameOver (b : Board) (row col : Int) (go w : Bool) (p : Piece)
    (hb : inBounds row col) (hp : b row col = some p) :
    ∃ f, flipOthello b row col go w = some f ∧
      (go = true → f.gameOver = true) ∧
      (kingFlipped b f.board → f.gameOver = true ∧ f.winnerIsWhite = p.isWhite) ∧
      (¬ kingFlipped b f.board → f.gameOver = go ∧ f.winnerIsWhite = w) := by
  obtain ⟨f, hf, hspec⟩ := flipOthello_spec b row col go w p hb hp
  have hK := kingFlipped_iff p.isWhite b row col go w f hspec
  obtain ⟨_, h2, h3, h4⟩ := hspec
  simp only at h2 h3 h4
  rw [← hK] at h2 h3 h4
  refine ⟨f, hf, ?_, ?_, ?_⟩
  · intro hgo
    exact h2.2 (Or.inl hgo)
  · intro hk
    exact ⟨h2.2 (Or.inr hk), h3 hk⟩
  · intro hk
    refine ⟨?_, h4 hk⟩
    rw [Bool.eq_iff_iff, h2]
    simp [hk]

theorem flipOthello_gameOver_witness :
    inBounds 4 4 ∧ flipBoard 4 4 = some flipMover ∧
      ∃ f, flipOthello flipBoard 4 4 false false = some f ∧
        (false = true → f.gameOver = true) ∧
        (kingFlipped flipBoard f.board → f.gameOver = true ∧ f.winnerIsWhite = flipMover.isWhite) ∧
        (¬ kingFlipped flipBoard f.board → f.gameOver = false ∧ f.winnerIsWhite = false) :=
  ⟨by decide, by decide,
    flipOthello_gameOver flipBoard 4 4 false false flipMover (by decide) (by decide)⟩

/-! ## The move executor -/

/-- A destination of the legal set is a cell of the grid other than the selected
one, not held by a piece of the mover's colour. -/
theorem legal_dest (s : State) (p : Piece) (row col : Int) (hsel : selectionOk s p)
    (hmv : (row, col) ∈ s.legalMoves) :
    inBounds row col ∧ notOwn s.board p row col ∧
      ¬ (row = s.selectedRow ∧ col = s.selectedCol) := by
  obtain ⟨hb, hon, hr, hc, _, hlm⟩ := hsel
  have hp : inBounds p.row p.col := by rw [hr, hc]; exact hb
  obtain ⟨h1, h2⟩ := (getLegalMoves_ok s.board p s.lastMove hp).2 _ hlm _ hmv
  refine ⟨h1, h2, ?_⟩
  rintro ⟨e1, e2⟩
  simp only at h2
  rw [e1, e2] at h2
  exact h2 p hon rfl

/-- The en passant block does nothing on a move of the legal set: the move
generator offers a pawn no empty cell outside its own column. -/
theorem enPassantRemove_legal (s : State) (p : Piece) (row col : Int)
    (hsel : selectionOk s p) (hmv : (row, col) ∈ s.legalMoves) :
    enPassantRemove s.board p (s.board row col) s.selectedCol row col = some s.board := by
  obtain ⟨_, _, _, hc, _, hlm⟩ := hsel
  unfold enPassantRemove
  rw [if_neg]
  rintro ⟨hk, hnone, hcol⟩
  rcases (pawn_sound s.board p s.lastMove hk _ hlm _ hmv).2 with ⟨h, _⟩ | ⟨_, x, hx, _⟩
  · simp only at h
    rw [hc] at h
    exact hcol h.symm
  · simp only at hx
    rw [hnone] at hx
    simp at hx

theorem relocate_dest (b : Board) (p : Piece) (selRow selCol row col : Int)
    (hne : ¬ (row = selRow ∧ col = selCol)) :
    relocate b p selRow selCol row col row col = some { p with row := row, col := col } := by
  simp [relocate, setCell, hne]

/-- The castling block on a move of the legal set: the rook is there when it is
needed, and the moved piece stays on the destination. -/
theorem castleRook_legal (s : State) (p : Piece) (row col : Int)
    (hsel : selectionOk s p) (hmv : (row, col) ∈ s.legalMoves) :
    ∃ b3, castleRook (relocate s.board p s.selectedRow s.selectedCol row col) p row col
        p.col = some b3 ∧
      b3 row col = some { p with row := row, col := col } := by
  obtain ⟨hin, _, hne⟩ := legal_dest s p row col hsel hmv
  have hdest := relocate_dest s.board p s.selectedRow s.selectedCol row col hne
  obtain ⟨hb, hon, hr, hc, _, hlm⟩ := hsel
  unfold castleRook
  by_cases hcast : p.type = KING ∧ |col - p.col| = 2
  · rw [if_pos hcast]
    have hp : inBounds p.row p.col := by rw [hr, hc]; exact hb
    have hon2 : s.board p.row p.col = some p := by rw [hr, hc]; exact hon
    obtain ⟨hrow, hcol, _, hside⟩ :=
      king_castle_dest s.board p s.lastMove hcast.1 hp hon2 _ hlm (row, col) hmv hcast.2
    simp only at hrow hside
    have hsr : s.selectedRow = row := by rw [← hr, hrow]
    have hsc : s.selectedCol = 4 := by rw [← hc, hcol]
    have hrow8 : 0 ≤ row ∧ row < 8 := ⟨hin.1, hin.2.1⟩
    rcases hside with ⟨h6, hok⟩ | ⟨h2, hok⟩
    · rw [castleOk_iff] at hok
      obtain ⟨⟨rk, hrk, _⟩, _⟩ := hok
      rw [hrow.symm] at hrk
      have hread : readCell (relocate s.board p s.selectedRow s.selectedCol row col) row 7 =
          some (some rk) := by
        rw [readCell_eq_some]
        refine ⟨⟨hrow8.1, hrow8.2, by norm_num, by norm_num⟩, ?_⟩
        simp [relocate, setCell, h6, hsc, hrk]
      rw [hcol, h6, if_pos (by norm_num)]
      rw [h6] at hread hdest
      rw [hread]
      refine ⟨_, rfl, ?_⟩
      simp only [modifyCell, setCell]
      simp [relocate, setCell, hsc]
    · rw [castleOk_iff] at hok
      obtain ⟨⟨rk, hrk, _⟩, _⟩ := hok
      rw [hrow.symm] at hrk
      have hread : readCell (relocate s.board p s.selectedRow s.selectedCol row col) row 0 =
          some (some rk) := by
        rw [readCell_eq_some]
        refine ⟨⟨hrow8.1, hrow8.2, by norm_num, by norm_num⟩, ?_⟩
        simp [relocate, setCell, h2, hsc, hrk]
      rw [hcol, h2, if_neg (by norm_num)]
      rw [h2] at hread hdest
      rw [hread]
      refine ⟨_, rfl, ?_⟩
      simp only [modifyCell, setCell]
      simp [relocate, setCell, hsc]
  · rw [if_neg hcast]
    exact ⟨_, rfl, hdest⟩

/-- The board handed to `flipOthello` on a move of the legal set: it exists,
and its destination cell holds a piece of the colour of the side to move. -/
theorem boardBeforeFlips_legal (s : State) (p : Piece) (row col : Int)
    (hsel : selectionOk s p) (hmv : (row, col) ∈ s.legalMoves) :
    ∃ b5 q5, boardBeforeFlips s p (s.board row col) row col = some b5 ∧
      b5 row col = some q5 ∧ q5.isWhite = s.isWhiteTurn := by
  obtain ⟨b3, hb3, hd3⟩ := castleRook_legal s p row col hsel hmv
  unfold boardBeforeFlips
  rw [enPassantRemove_legal s p row col hsel hmv, Option.some_bind, hb3, Option.some_bind]
  obtain ⟨_, _, _, _, hcolour, _⟩ := hsel
  by_cases hpr : promotes p row = true
  · refine ⟨_, { newQueen s.isWhiteTurn row col with hasMoved := true }, rfl, ?_, rfl⟩
    simp [modifyCell, promote, hpr, setCell]
  · refine ⟨_, { p with row := row, col := col, hasMoved := true }, rfl, ?_, hcolour⟩
    simp [modifyCell, promote, hpr, hd3]

theorem kingTaken_iff (b : Board) (row col : Int) :
    kingTaken (b row col) = true ↔ isKingAt b row col := by
  unfold kingTaken isKingAt
  cases b row col <;> simp

/-- Claim C9. When a piece of the side to move is selected, a destination of
its legal set is clicked and the game is not over, the move is executed and it
sets game-over exactly when the piece captured on the destination is a king or
flip resolution (run on the board as the move left it) flips a king; and when it
sets game-over, the winner is the colour of the side that moved. -/
theorem move_sets_gameOver (s : State) (p : Piece) (row col : Int)
    (hsel : selectionOk s p) (hmv : (row, col) ∈ s.legalMoves)
    (hgo : s.gameOver = false) (hclk : s.halfMoveClock < INT_MAX) :
    ∃ b5 s1, boardBeforeFlips s p (s.board row col) row col = some b5 ∧
      handleClick s row col = some s1 ∧
      (s1.gameOver = true ↔ isKingAt s.board row col ∨ kingFlipped b5 s1.board) ∧
      (s1.gameOver = true → s1.winnerIsWhite = s.isWhiteTurn) := by
  obtain ⟨hin, _, hne⟩ := legal_dest s p row col hsel hmv
  obtain ⟨b5, q5, hb5, hq5, hcol5⟩ := boardBeforeFlips_legal s p row col hsel hmv
  obtain ⟨f, hf, hspec⟩ := flipOthello_spec b5 row col
    (if kingTaken (s.board row col) then true else s.gameOver)
    (if kingTaken (s.board row col) then p.isWhite else s.winnerIsWhite) q5 hin hq5
  have hK := kingFlipped_iff q5.isWhite b5 row col _ _ f hspec
  obtain ⟨hb, hon, _, _, hpw, _⟩ := hsel
  obtain ⟨clock, hclock⟩ : ∃ clock, clockAfter s.halfMoveClock (s.board row col)
      (typeAfterPromotion p row) = some clock := by
    unfold clockAfter
    split_ifs with h1 h2
    · exact ⟨_, rfl⟩
    · omega
    · exact ⟨_, rfl⟩
  have hsr : s.selectedRow ≠ -1 := by
    have := hb.1
    omega
  have hexec : executeMove s row col = some { s with
      board := f.board, lastMove := (p.row, p.col), gameOver := f.gameOver,
      winnerIsWhite := f.winnerIsWhite, halfMoveClock := clock } := by
    unfold executeMove
    simp only [readCell, hb, hin, if_true, Option.some_bind, hon, if_neg hne, hb5, hclock, hf]
  refine ⟨b5,
    { board := f.board, selectedRow := -1, selectedCol := -1, legalMoves := [],
      isWhiteTurn := !s.isWhiteTurn, lastMove := (p.row, p.col), gameOver := f.gameOver,
      winnerIsWhite := f.winnerIsWhite, halfMoveClock := clock,
      boardHistory := s.boardHistory ++ [serializeBoard f.board (!s.isWhiteTurn)] },
    hb5, ?_, ?_, ?_⟩
  · unfold handleClick
    rw [if_neg hsr, if_pos hmv, hexec, Option.some_bind]
  · obtain ⟨_, h2, _, _⟩ := hspec
    simp only at h2 ⊢
    rw [h2, ← hK, hgo, ← kingTaken_iff]
    cases kingTaken (s.board row col) <;> simp
  · obtain ⟨_, h2, h3, h4⟩ := hspec
    simp only at h2 h3 h4 ⊢
    rw [← hK] at h2 h3 h4
    intro hover
    by_cases hk : kingFlipped b5 f.board
    · rw [h3 hk, hcol5]
    · rw [h4 hk]
      rcases h2.1 hover with h | h
      · cases hkt : kingTaken (s.board row col)
        · simp [hkt, hgo] at h
        · simp [hpw]
      · exact absurd h hk

theorem move_sets_gameOver_witness :
    selectionOk bracketState bracketRook ∧ ((4 : Int), (4 : Int)) ∈ bracketState.legalMoves ∧
      bracketState.gameOver = false ∧ bracketState.halfMoveClock < INT_MAX ∧
      ∃ b5 s1, boardBeforeFlips bracketState bracketRook (bracketState.board 4 4) 4 4 = some b5 ∧
        handleClick bracketState 4 4 = some s1 ∧
        (s1.gameOver = true ↔ isKingAt bracketState.board 4 4 ∨ kingFlipped b5 s1.board) ∧
        (s1.gameOver = true → s1.winnerIsWhite = bracketState.isWhiteTurn) :=
  ⟨by decide, by decide, by decide, by decide,
    move_sets_gameOver bracketState bracketRook 4 4 (by decide) (by decide) (by decide)
      (by decide)⟩

/-- The move of `bracketState` brackets the black pawn and the black king, which
ends the game with white as the winner. -/
theorem bracketState_result :
    (handleClick bracketState 4 4).map summary =
      some ⟨false, (-1, -1), [], true, true, 4,
        "000000000000000000000000000000000000RPKR0000000000000000000000000"⟩ := by
  decide

theorem typeAfterPromotion_pawn (p : Piece) (row : Int) :
    typeAfterPromotion p row = PAWN ↔ p.type = PAWN ∧ ¬ (row = 0 ∨ row = 7) := by
  unfold typeAfterPromotion promotes
  by_cases h : p.type = PAWN ∧ (row = 0 ∨ row = 7)
  · simp [h]
  · simp only [h, decide_False, Bool.false_eq_true, if_false]
    constructor
    · intro hp
      exact ⟨hp, fun hr => h ⟨hp, hr⟩⟩
    · exact fun hp => hp.1

/-- The half-move clock after a move: 0 after a capture on the destination and
after a move of a pawn that does not promote, one more than before otherwise. -/
theorem executeMove_clock (s : State) (row col : Int) (s1 : State)
    (h : executeMove s row col = some s1) :
    ∃ p, s.board s.selectedRow s.selectedCol = some p ∧
      s1.halfMoveClock =
        if (s.board row col).isSome ∨ (p.type = PAWN ∧ ¬ (row = 0 ∨ row = 7)) then 0
        else s.halfMoveClock + 1 := by
  unfold executeMove at h
  simp only [Option.bind_eq_some, readCell_eq_some] at h
  obtain ⟨selCell, ⟨_, hsel⟩, p, hp, backup, ⟨_, hbk⟩, h⟩ := h
  by_cases hg : row = s.selectedRow ∧ col = s.selectedCol
  · rw [if_pos hg] at h
    simp at h
  · rw [if_neg hg] at h
    simp only [Option.bind_eq_some, Option.some.injEq] at h
    obtain ⟨b5, _, clock, hclock, f, _, hs1⟩ := h
    refine ⟨p, by rw [hsel, hp], ?_⟩
    rw [← hs1, hbk]
    simp only
    unfold clockAfter at hclock
    simp only [typeAfterPromotion_pawn] at hclock
    by_cases h1 : backup.isSome = true ∨ (p.type = PAWN ∧ ¬ (row = 0 ∨ row = 7))
    · rw [if_pos h1] at hclock
      simp only [Option.some.injEq] at hclock
      rw [if_pos h1, hclock]
    · rw [if_neg h1] at hclock
      by_cases h2 : s.halfMoveClock = INT_MAX
      · rw [if_pos h2] at hclock
        simp at hclock
      · rw [if_neg h2] at hclock
        simp only [Option.some.injEq] at hclock
        rw [if_neg h1, hclock]

/-- Claim C6. A pawn that promotes without capturing does not leave the
half-move clock at 0.  From `promoStart` (clock 5) the white pawn on `(1, 0)` is
selected and moved to the empty cell `(0, 0)`: a queen stands there afterwards
and the clock is 6, since the clock statement tests the kind of the promoted
piece.  In general the clock after a move is 0 after a capture on the
destination or a move of a pawn that does not promote, and one more than before
otherwise. -/
theorem promotion_keeps_clock_running :
    ((handleClick promoStart 1 0).bind fun s => handleClick s 0 0).map
        (fun s => (s.halfMoveClock, cellChar (s.board 0 0), cellChar (s.board 1 0))) =
      some (6, 'Q', '0') ∧
    ∀ (s : State) (row col : Int) (s1 : State), executeMove s row col = some s1 →
      ∃ p, s.board s.selectedRow s.selectedCol = some p ∧
        s1.halfMoveClock =
          if (s.board row col).isSome ∨ (p.type = PAWN ∧ ¬ (row = 0 ∨ row = 7)) then 0
          else s.halfMoveClock + 1 :=
  ⟨by decide, executeMove_clock⟩

/-- Claim C7 fails as stated: in `terminalSelected` the game-over flag is set,
and the click on `(4, 4)` moves the white pawn there, passes the turn to black
and clears the selection and the legal set. -/
theorem terminal_click_moves :
    terminalSelected.gameOver = true ∧
      summary terminalSelected =
        ⟨true, (6, 4), [(5, 4), (4, 4)], true, false, 0,
          "rnbqkbnrpppppppp00000000000000000000000000000000PPPPPPPPRNBQKBNR1"⟩ ∧
      (handleClick terminalSelected 4 4).map summary =
        some ⟨false, (-1, -1), [], true, false, 0,
          "rnbqkbnrpppppppp00000000000000000000P00000000000PPPP0PPPRNBQKBNR0"⟩ ∧
      (handleClick terminalSelected 4 4).map (fun s => s.boardHistory.length) = some 1 := by
  decide

/-! ## The game-over flag and the click handler -/

theorem flipAll_board_indep (X : Bool) :
    ∀ (l : List (Int × Int)) (s s2 : FlipState), s.board = s2.board →
      (flipAll X l s).board = (flipAll X l s2).board := by
  intro l s s2 h
  funext i j
  rw [(flipAll_spec X l s).1 i j, (flipAll_spec X l s2).1 i j, h]

/-- The board a ray walk leaves does not depend on the two flags. -/
theorem flipWalk_board_indep (X : Bool) (d : Int × Int) :
    ∀ (fuel : Nat) (r c : Int) (toFlip : List (Int × Int)) (s s2 : FlipState),
      s.board = s2.board →
      (flipWalk X d fuel r c toFlip s).map (fun f => f.board) =
        (flipWalk X d fuel r c toFlip s2).map (fun f => f.board) := by
  intro fuel
  induction fuel with
  | zero => intro r c toFlip s s2 _; rfl
  | succ n ih =>
    intro r c toFlip s s2 h
    unfold flipWalk
    by_cases hb : inBounds r c
    · rw [if_pos hb, if_pos hb, ← h]
      cases hc : s.board r c with
      | none => simp [h]
      | some q =>
        simp only
        split_ifs
        · simp [flipAll_board_indep X toFlip s s2 h]
        · simp [h]
        · exact ih _ _ _ s s2 h
    · rw [if_neg hb, if_neg hb]
      simp [h]

theorem flipFold_board_indep (X : Bool) (row col : Int) :
    ∀ (ds : List (Int × Int)) (s s2 : FlipState), s.board = s2.board →
      (ds.foldlM (fun s d => flipWalk X d rayFuel (row + d.1) (col + d.2) [] s) s).map
          (fun f => f.board) =
        (ds.foldlM (fun s d => flipWalk X d rayFuel (row + d.1) (col + d.2) [] s) s2).map
          (fun f => f.board) := by
  intro ds
  induction ds with
  | nil => intro s s2 h; simp [h]
  | cons d ds ih =>
    intro s s2 h
    have hw := flipWalk_board_indep X d rayFuel (row + d.1) (col + d.2) [] s s2 h
    rw [List.foldlM_cons, List.foldlM_cons]
    cases h1 : flipWalk X d rayFuel (row + d.1) (col + d.2) [] s with
    | none =>
      cases h2 : flipWalk X d rayFuel (row + d.1) (col + d.2) [] s2 with
      | none => rfl
      | some t2 => rw [h1, h2] at hw; simp at hw
    | some t1 =>
      cases h2 : flipWalk X d rayFuel (row + d.1) (col + d.2) [] s2 with
      | none => rw [h1, h2] at hw; simp at hw
      | some t2 =>
        rw [h1, h2] at hw
        simp only [Option.map_some', Option.some.injEq] at hw
        simp only [Option.bind_eq_bind, Option.some_bind]
        exact ih t1 t2 hw

/-- The board `flipOthello` leaves does not depend on the two flags it is
given. -/
theorem flipOthello_board_indep (b : Board) (row col : Int) (go w go2 w2 : Bool) :
    (flipOthello b row col go w).map (fun f => f.board) =
      (flipOthello b row col go2 w2).map (fun f => f.board) := by
  unfold flipOthello
  cases h1 : readCell b row col with
  | none => simp
  | some cell =>
    cases cell with
    | none => simp
    | some p =>
      simp only [Option.bind_eq_bind, Option.some_bind]
      exact flipFold_board_indep p.isWhite row col dir _ _ rfl

/-- The function `flipOthello` never clears the game-over flag. -/
theorem flipOthello_keeps_gameOver (b : Board) (row col : Int) (w : Bool) (f : FlipState)
    (h : flipOthello b row col true w = some f) : f.gameOver = true := by
  have hread : ∃ p, inBounds row col ∧ b row col = some p := by
    unfold flipOthello at h
    simp only [Option.bind_eq_bind, Option.bind_eq_some, readCell_eq_some] at h
    obtain ⟨cell, ⟨hb, hc⟩, p, hp, _⟩ := h
    exact ⟨p, hb, by rw [hc, hp]⟩
  obtain ⟨p, hb, hp⟩ := hread
  obtain ⟨f2, hf2, hspec⟩ := flipOthello_spec b row col true w p hb hp
  rw [h] at hf2
  simp only [Option.some.injEq] at hf2
  rw [hf2]
  exact hspec.2.1.2 (Or.inl rfl)

/-- A move never clears the game-over flag, and but for the two flags its
outcome does not depend on them. -/
theorem executeMove_flags (s : State) (row col : Int) :
    (s.gameOver = true → ∀ s1, executeMove s row col = some s1 → s1.gameOver = true) ∧
      (executeMove s row col).map forgetFlags =
        (executeMove (forgetFlags s) row col).map forgetFlags := by
  unfold executeMove
  simp only [forgetFlags]
  cases h1 : readCell s.board s.selectedRow s.selectedCol with
  | none => simp
  | some selCell =>
    cases selCell with
    | none => simp
    | some p =>
      cases h2 : readCell s.board row col with
      | none => simp
      | some backup =>
        simp only [Option.some_bind]
        by_cases hg : row = s.selectedRow ∧ col = s.selectedCol
        · simp [hg]
        · simp only [if_neg hg]
          have e : boardBeforeFlips
              { board := s.board, selectedRow := s.selectedRow, selectedCol := s.selectedCol,
                legalMoves := s.legalMoves, isWhiteTurn := s.isWhiteTurn,
                lastMove := s.lastMove, gameOver := false, winnerIsWhite := false,
                halfMoveClock := s.halfMoveClock, boardHistory := s.boardHistory }
              p backup row col = boardBeforeFlips s p backup row col := rfl
          rw [e]
          cases h3 : boardBeforeFlips s p backup row col with
          | none => simp
          | some b5 =>
            cases h4 : clockAfter s.halfMoveClock backup (typeAfterPromotion p row) with
            | none => simp
            | some clock =>
              simp only [Option.some_bind]
              have hind := flipOthello_board_indep b5 row col
                (if kingTaken backup = true then true else s.gameOver)
                (if kingTaken backup = true then p.isWhite else s.winnerIsWhite)
                (if kingTaken backup = true then true else false)
                (if kingTaken backup = true then p.isWhite else false)
              constructor
              · intro hgo s1 hs1
                rw [hgo] at hs1
                simp only [ite_self, Option.bind_eq_some] at hs1
                obtain ⟨f, hf, hs1⟩ := hs1
                simp only [Option.some.injEq] at hs1
                rw [← hs1]
                exact flipOthello_keeps_gameOver b5 row col _ f hf
              · cases h5 : flipOthello b5 row col
                    (if kingTaken backup = true then true else s.gameOver)
                    (if kingTaken backup = true then p.isWhite else s.winnerIsWhite) with
                | none =>
                  cases h6 : flipOthello b5 row col
                      (if kingTaken backup = true then true else false)
                      (if kingTaken backup = true then p.isWhite else false) with
                  | none => rfl
                  | some f2 => rw [h5, h6] at hind; simp at hind
                | some f1 =>
                  cases h6 : flipOthello b5 row col
                      (if kingTaken backup = true then true else false)
                      (if kingTaken backup = true then p.isWhite else false) with
                  | none => rw [h5, h6] at hind; simp at hind
                  | some f2 =>
                    rw [h5, h6] at hind
                    simp only [Option.map_some', Option.some.injEq] at hind
                    simp [hind, forgetFlags]

theorem selectAt_flags (s other : State) (row col : Int) :
    (s.gameOver = true → other.gameOver = true →
        ∀ s1, selectAt s row col other = some s1 → s1.gameOver = true) ∧
      (selectAt s row col other).map forgetFlags =
        (selectAt (forgetFlags s) row col (forgetFlags other)).map forgetFlags := by
  unfold selectAt
  simp only [forgetFlags]
  cases h1 : readCell s.board row col with
  | none => simp
  | some cell =>
    cases cell with
    | none =>
      simp only [Option.some_bind, Option.map_some', Option.some.injEq]
      exact ⟨fun _ ho s1 hs1 => by rw [← hs1]; exact ho, rfl⟩
    | some q =>
      simp only [Option.some_bind]
      by_cases hq : q.isWhite = s.isWhiteTurn
      · simp only [if_pos hq]
        cases h2 : getLegalMoves s.board q s.lastMove with
        | none => simp
        | some moves =>
          simp only [Option.some_bind, Option.map_some', Option.some.injEq]
          exact ⟨fun hs _ s1 hs1 => by rw [← hs1]; exact hs, rfl⟩
      · simp only [if_neg hq, Option.map_some', Option.some.injEq]
        exact ⟨fun _ ho s1 hs1 => by rw [← hs1]; exact ho, rfl⟩

/-- Claim C7, amended. The click handler never reads the game-over flag: in
every state in which the flag is set, a click leaves the flag set, and the
board, the side to move, the selection, the legal set, `lastMove`, the half-move
clock and the history come out as they do from the same state with the flags
cleared. -/
theorem gameOver_only_sticks (s : State) (row col : Int) (hgo : s.gameOver = true) :
    (∀ s1, handleClick s row col = some s1 → s1.gameOver = true) ∧
      (handleClick s row col).map forgetFlags =
        (handleClick (forgetFlags s) row col).map forgetFlags := by
  unfold handleClick
  have e1 : (forgetFlags s).selectedRow = s.selectedRow := rfl
  have e2 : (forgetFlags s).legalMoves = s.legalMoves := rfl
  rw [e1, e2]
  by_cases h1 : s.selectedRow = -1
  · rw [if_pos h1, if_pos h1]
    obtain ⟨a, b⟩ := selectAt_flags s s row col
    exact ⟨a hgo hgo, b⟩
  · rw [if_neg h1, if_neg h1]
    by_cases h2 : (row, col) ∈ s.legalMoves
    · rw [if_pos h2, if_pos h2]
      obtain ⟨a, b⟩ := executeMove_flags s row col
      cases h3 : executeMove s row col with
      | none =>
        rw [h3] at b
        cases h4 : executeMove (forgetFlags s) row col with
        | none => simp
        | some t2 => rw [h4] at b; simp at b
      | some t1 =>
        cases h4 : executeMove (forgetFlags s) row col with
        | none => rw [h3, h4] at b; simp at b
        | some t2 =>
          rw [h3, h4] at b
          simp only [Option.map_some', Option.some.injEq, forgetFlags, State.mk.injEq] at b
          obtain ⟨b1, b2, b3, b4, b5, b6, _, _, b9, b10⟩ := b
          have hg1 := a hgo t1 h3
          constructor
          · intro s1 hs1
            simp only [Option.some_bind, Option.some.injEq] at hs1
            rw [← hs1]
            exact hg1
          · simp only [Option.some_bind, Option.map_some', Option.some.injEq, forgetFlags,
              State.mk.injEq]
            simp [b1, b5, b6, b9, b10]
    · rw [if_neg h2, if_neg h2]
      obtain ⟨a, b⟩ := selectAt_flags s
        { s with selectedRow := -1, selectedCol := -1, legalMoves := [] } row col
      exact ⟨a hgo hgo, b⟩

theorem gameOver_only_sticks_witness :
    terminalSelected.gameOver = true ∧
      (∀ s1, handleClick terminalSelected 4 4 = some s1 → s1.gameOver = true) ∧
      (handleClick terminalSelected 4 4).map forgetFlags =
        (handleClick (forgetFlags terminalSelected) 4 4).map forgetFlags :=
  ⟨by decide, gameOver_only_sticks terminalSelected 4 4 (by decide)⟩

/-! ## The format of a serialized position -/

theorem cellChar_eq_spec (x : Option Piece) : cellChar x = specCellChar x := by
  cases x with
  | none => rfl
  | some p =>
    obtain ⟨w, t, r, c, m⟩ := p
    cases w <;> cases t <;> rfl

/-- Claim C13. `serializeBoard` returns a string of exactly 65 characters:
character `i < 64` encodes the cell `(i / 8, i mod 8)` as `0` when it is empty,
as one of `K Q R B N P` when it holds a white piece and as the lower-case letter
when it holds a black piece, and character 64 is `1` when white is to move and
`0` when black is. -/
theorem serializeBoard_format (b : Board) (t : Bool) :
    (serializeBoard b t).length = 65 ∧
      (∀ i : Nat, i < 64 →
        (serializeBoard b t).data[i]? =
          some (specCellChar (b ((i / 8 : Nat) : Int) ((i % 8 : Nat) : Int)))) ∧
      (serializeBoard b t).data[64]? = some (if t then '1' else '0') := by
  have hd := serializeBoard_data b t
  have h8 : List.range 8 = [0, 1, 2, 3, 4, 5, 6, 7] := by decide
  rw [h8] at hd
  simp only [List.map, List.flatten, List.cons_append, List.nil_append, List.append_nil,
    cellChar_eq_spec] at hd
  refine ⟨?_, ?_, ?_⟩
  · rw [String.length, hd]
    rfl
  · intro i hi
    rw [hd]
    interval_cases i <;> rfl
  · rw [hd]
    rfl

/-! ## Clicks that execute no move -/

theorem selectAt_notToMove (s other : State) (row col : Int) (hin : inBounds row col)
    (h : notToMove s row col) : selectAt s row col other = some other := by
  unfold selectAt
  simp only [readCell, hin, if_true, Option.some_bind]
  rcases h with h | ⟨q, hq, hc⟩
  · rw [h]
  · rw [hq]
    simp only [if_neg hc]

theorem selectAt_own (s other : State) (row col : Int) (hin : inBounds row col) (q : Piece)
    (hq : s.board row col = some q) (hc : q.isWhite = s.isWhiteTurn) :
    selectAt s row col other =
      (getLegalMoves s.board q s.lastMove).map (selectCell s row col) := by
  unfold selectAt
  simp only [readCell, hin, if_true, Option.some_bind, hq, if_pos hc]
  cases getLegalMoves s.board q s.lastMove <;> rfl

/-- Claim C15. A click on a cell of the grid that executes no move changes
nothing but the selection.  With nothing selected, a click on an empty cell or on
a piece of the side not to move leaves the whole state as it is.  With a piece
selected, a click outside the legal set clears the selection and the legal set
when the cell holds no piece of the side to move, and selects the clicked cell,
with the legal set the generator computes for its piece, when it does; in both
cases the board, the side to move, `lastMove`, the half-move clock, the two
game-over flags and the history stay as they are. -/
theorem click_without_move (s : State) (row col : Int) (hin : inBounds row col) :
    (s.selectedRow = -1 → notToMove s row col → handleClick s row col = some s) ∧
      (s.selectedRow ≠ -1 → (row, col) ∉ s.legalMoves →
        (notToMove s row col → handleClick s row col = some (deselect s)) ∧
        (∀ q, s.board row col = some q → q.isWhite = s.isWhiteTurn →
          handleClick s row col =
            (getLegalMoves s.board q s.lastMove).map (selectCell s row col))) := by
  unfold handleClick
  refine ⟨?_, ?_⟩
  · intro h1 h2
    rw [if_pos h1]
    exact selectAt_notToMove s s row col hin h2
  · intro h1 h2
    rw [if_neg h1, if_neg h2]
    exact ⟨fun h3 => selectAt_notToMove s _ row col hin h3,
      fun q hq hc => selectAt_own s _ row col hin q hq hc⟩

theorem click_without_move_witness :
    inBounds 3 3 ∧
      (terminalSelected.selectedRow = -1 → notToMove terminalSelected 3 3 →
        handleClick terminalSelected 3 3 = some terminalSelected) ∧
      (terminalSelected.selectedRow ≠ -1 → ((3 : Int), (3 : Int)) ∉ terminalSelected.legalMoves →
        (notToMove terminalSelected 3 3 →
          handleClick terminalSelected 3 3 = some (deselect terminalSelected)) ∧
        (∀ q, terminalSelected.board 3 3 = some q → q.isWhite = terminalSelected.isWhiteTurn →
          handleClick terminalSelected 3 3 =
            (getLegalMoves terminalSelected.board q terminalSelected.lastMove).map
              (selectCell terminalSelected 3 3))) :=
  ⟨by decide, click_without_move terminalSelected 3 3 (by decide)⟩

/-! ## The forward steps of a pawn -/

theorem pawnDiag_keeps (b : Board) (p : Piece) (lm : Int × Int) (nr dr : Int)
    (moves : List (Int × Int)) (dc : Int) (res : List (Int × Int))
    (h : pawnDiag b p lm nr dr moves dc = some res) : ∀ q ∈ moves, q ∈ res := by
  unfold pawnDiag at h
  simp only [ite_self] at h
  intro q hq
  split_ifs at h with h1 h2
  · simp only [Option.bind_eq_bind, Option.bind_eq_some] at h
    obtain ⟨x, _, y, _, h⟩ := h
    have hm1 : q ∈ (match x with
        | some z => if z.isWhite ≠ p.isWhite then moves ++ [(nr, p.col + dc)] else moves
        | none => moves) := by
      cases x with
      | none => exact hq
      | some z =>
        simp only
        split_ifs
        · exact List.mem_append_left _ hq
        · exact hq
    cases y with
    | none =>
      simp only [Option.pure_def, Option.some.injEq] at h
      rw [← h]; exact hm1
    | some z =>
      simp only at h
      split_ifs at h
      · simp only [Option.pure_def, Option.some.injEq] at h
        rw [← h]; exact List.mem_append_left _ hm1
      · simp only [Option.pure_def, Option.some.injEq] at h
        rw [← h]; exact hm1
  · simp only [Option.bind_eq_bind, Option.bind_eq_some, Option.pure_def,
      Option.some.injEq] at h
    obtain ⟨x, _, h⟩ := h
    rw [← h]
    cases x with
    | none => exact hq
    | some z =>
      simp only
      split_ifs
      · exact List.mem_append_left _ hq
      · exact hq
  · simp only [Option.pure_def, Option.some.injEq] at h
    rw [← h]; exact hq

/-- The destinations of a pawn in its own column: the cell ahead when it is
empty, and the cell two ahead when the pawn is on its starting rank and both
cells are empty. -/
theorem pawn_forward (b : Board) (p : Piece) (lm : Int × Int) (hk : p.type = PAWN)
    (hp : inBounds p.row p.col) (hrow : p.row ≠ 0 ∧ p.row ≠ 7)
    (ms : List (Int × Int)) (h : getLegalMoves b p lm = some ms) (q : Int × Int) :
    (q ∈ ms ∧ q.2 = p.col) ↔
      (q = (p.row + pawnDir p, p.col) ∧ b (p.row + pawnDir p) p.col = none) ∨
      (q = (p.row + 2 * pawnDir p, p.col) ∧ onStartRank p ∧
        b (p.row + pawnDir p) p.col = none ∧ b (p.row + 2 * pawnDir p) p.col = none) := by
  unfold getLegalMoves at h
  simp only [hk, Option.bind_eq_bind, Option.bind_eq_some, List.foldlM_cons,
    List.foldlM_nil, Option.pure_def] at h
  obtain ⟨m1, h1, m2, h2, m3, h3, m4, h4, h5⟩ := h
  simp only [Option.some.injEq] at h5
  subst h5
  have hdr : (if p.isWhite = true then (-1 : Int) else 1) = pawnDir p := rfl
  rw [hdr] at h1 h2 h3 h4
  have hd1 : pawnDir p = -1 ∨ pawnDir p = 1 := by
    unfold pawnDir; split_ifs <;> simp
  simp only [inBounds, ROWS, COLS] at hp
  have hnr : 0 ≤ p.row + pawnDir p ∧ p.row + pawnDir p < ROWS := by
    simp only [ROWS]; omega
  have hb1 : inBounds (p.row + pawnDir p) p.col := ⟨hnr.1, hnr.2, hp.2.2.1, hp.2.2.2⟩
  -- the single step
  have g1 : m1 = if b (p.row + pawnDir p) p.col = none then [(p.row + pawnDir p, p.col)]
      else [] := by
    unfold pawnSingle at h1
    rw [if_pos hnr] at h1
    simp only [readCell, hb1, if_true, Option.some_bind, Option.some.injEq] at h1
    rw [← h1]
    cases b (p.row + pawnDir p) p.col <;> simp
  -- the double step
  have g2 : m2 = if onStartRank p ∧ b (p.row + pawnDir p) p.col = none ∧
      b (p.row + 2 * pawnDir p) p.col = none then m1 ++ [(p.row + 2 * pawnDir p, p.col)]
      else m1 := by
    unfold pawnDouble at h2
    simp only at h2
    by_cases hs : onStartRank p
    · have hs2 : (p.isWhite = true ∧ p.row = 6) ∨ (¬ p.isWhite = true ∧ p.row = 1) := by
        rcases hs with hs | hs
        · exact Or.inl hs
        · exact Or.inr ⟨by simp [hs.1], hs.2⟩
      have hb2 : inBounds (p.row + 2 * pawnDir p) p.col := by
        simp only [inBounds, ROWS, COLS]
        unfold pawnDir
        rcases hs with ⟨cw, cr⟩ | ⟨cw, cr⟩
        · simp [cw, cr]; omega
        · simp [cw, cr]; omega
      rw [if_pos hs2] at h2
      simp only [readCell, hb1, hb2, if_true, Option.some_bind] at h2
      cases hx : b (p.row + 2 * pawnDir p) p.col with
      | none =>
        rw [hx] at h2
        simp only [Option.isNone_none, if_true, Option.some_bind, Option.some.injEq] at h2
        rw [← h2]
        cases hy : b (p.row + pawnDir p) p.col <;> simp [hs]
      | some x =>
        rw [hx] at h2
        simp only [Option.isNone_some, Bool.false_eq_true, if_false, Option.some.injEq] at h2
        rw [← h2]
        simp
    · have hs2 : ¬ ((p.isWhite = true ∧ p.row = 6) ∨ (¬ p.isWhite = true ∧ p.row = 1)) := by
        rintro (hs3 | hs3)
        · exact hs (Or.inl hs3)
        · exact hs (Or.inr ⟨by simpa using hs3.1, hs3.2⟩)
      rw [if_neg hs2] at h2
      simp only [Option.some.injEq] at h2
      rw [← h2]
      simp [hs]
  -- the diagonal loop adds no cell of the pawn's column
  have g4 : (q ∈ m4 ∧ q.2 = p.col) ↔ (q ∈ m2 ∧ q.2 = p.col) := by
    constructor
    · rintro ⟨hq, hc⟩
      refine ⟨?_, hc⟩
      rcases pawnDiag_sound b p lm _ _ m3 1 m4 rfl h4 q hq with hq3 | ⟨e, _⟩
      · rcases pawnDiag_sound b p lm _ _ m2 (-1) m3 rfl h3 q hq3 with hq2 | ⟨e, _⟩
        · exact hq2
        · rw [e] at hc; simp only at hc; omega
      · rw [e] at hc; simp only at hc; omega
    · rintro ⟨hq, hc⟩
      exact ⟨pawnDiag_keeps b p lm _ _ m3 1 m4 h4 q
        (pawnDiag_keeps b p lm _ _ m2 (-1) m3 h3 q hq), hc⟩
  rw [g4, g2, g1]
  by_cases e1 : b (p.row + pawnDir p) p.col = none
  · by_cases e2 : onStartRank p ∧ b (p.row + 2 * pawnDir p) p.col = none
    · simp only [e1, e2, and_self, if_true, List.mem_append, List.mem_singleton, true_and,
        and_true, List.singleton_append, List.mem_cons, List.not_mem_nil, or_false]
      constructor
      · rintro ⟨hq | hq, _⟩
        · exact Or.inl hq
        · exact Or.inr hq
      · rintro (hq | hq)
        · exact ⟨Or.inl hq, by rw [hq]⟩
        · exact ⟨Or.inr hq, by rw [hq]⟩
    · have e3 : ¬ (onStartRank p ∧ b (p.row + pawnDir p) p.col = none ∧
          b (p.row + 2 * pawnDir p) p.col = none) := fun h => e2 ⟨h.1, h.2.2⟩
      rw [if_neg e3]
      simp only [e1, if_true, List.mem_singleton, and_true, true_and]
      constructor
      · rintro ⟨hq, _⟩
        exact Or.inl hq
      · rintro (hq | ⟨_, hq⟩)
        · exact ⟨hq, by rw [hq]⟩
        · exact absurd hq e2
  · have e3 : ¬ (onStartRank p ∧ b (p.row + pawnDir p) p.col = none ∧
        b (p.row + 2 * pawnDir p) p.col = none) := fun h => e1 h.2.1
    rw [if_neg e3]
    simp [e1]

/-- Claim C17. For a pawn on the grid that stands neither on row 0 nor on
row 7, `getLegalMoves` returns a list in which the cell one step straight ahead
(row - 1 for white, row + 1 for black) occurs exactly when it is empty, the cell
two steps straight ahead occurs exactly when the pawn stands on the starting rank
of its colour (row 6 for white, row 1 for black) and both that cell and the cell
between are empty, and no other cell of the pawn's column occurs. -/
theorem pawn_forward_steps (b : Board) (p : Piece) (lm : Int × Int) (hk : p.type = PAWN)
    (hp : inBounds p.row p.col) (hrow : p.row ≠ 0 ∧ p.row ≠ 7) :
    ∃ ms, getLegalMoves b p lm = some ms ∧
      ((p.row + pawnDir p, p.col) ∈ ms ↔ b (p.row + pawnDir p) p.col = none) ∧
      ((p.row + 2 * pawnDir p, p.col) ∈ ms ↔
        onStartRank p ∧ b (p.row + pawnDir p) p.col = none ∧
          b (p.row + 2 * pawnDir p) p.col = none) ∧
      ∀ q ∈ ms, q.2 = p.col →
        q = (p.row + pawnDir p, p.col) ∨ q = (p.row + 2 * pawnDir p, p.col) := by
  obtain ⟨ms, hms⟩ := pawn_total b p lm hk hp (by
    rintro (⟨_, h⟩ | ⟨_, h⟩)
    · exact hrow.1 h
    · exact hrow.2 h)
  have hd1 : pawnDir p = -1 ∨ pawnDir p = 1 := by
    unfold pawnDir; split_ifs <;> simp
  refine ⟨ms, hms, ?_, ?_, ?_⟩
  · have := pawn_forward b p lm hk hp hrow ms hms (p.row + pawnDir p, p.col)
    simp only [and_true, true_and, Prod.mk.injEq] at this
    rw [this]
    constructor
    · rintro (h | ⟨h, _⟩)
      · exact h
      · omega
    · exact Or.inl
  · have := pawn_forward b p lm hk hp hrow ms hms (p.row + 2 * pawnDir p, p.col)
    simp only [and_true, true_and, Prod.mk.injEq] at this
    rw [this]
    constructor
    · rintro (⟨h, _⟩ | h)
      · omega
      · exact h
    · exact Or.inr
  · intro q hq hc
    rcases (pawn_forward b p lm hk hp hrow ms hms q).1 ⟨hq, hc⟩ with ⟨h, _⟩ | ⟨h, _⟩
    · exact Or.inl h
    · exact Or.inr h

theorem pawn_forward_steps_witness :
    whitePawnE.type = PAWN ∧ inBounds whitePawnE.row whitePawnE.col ∧
      (whitePawnE.row ≠ 0 ∧ whitePawnE.row ≠ 7) ∧
      ∃ ms, getLegalMoves initialBoard whitePawnE (-1, -1) = some ms ∧
        ((whitePawnE.row + pawnDir whitePawnE, whitePawnE.col) ∈ ms ↔
          initialBoard (whitePawnE.row + pawnDir whitePawnE) whitePawnE.col = none) ∧
        ((whitePawnE.row + 2 * pawnDir whitePawnE, whitePawnE.col) ∈ ms ↔
          onStartRank whitePawnE ∧
            initialBoard (whitePawnE.row + pawnDir whitePawnE) whitePawnE.col = none ∧
            initialBoard (whitePawnE.row + 2 * pawnDir whitePawnE) whitePawnE.col = none) ∧
        ∀ q ∈ ms, q.2 = whitePawnE.col →
          q = (whitePawnE.row + pawnDir whitePawnE, whitePawnE.col) ∨
            q = (whitePawnE.row + 2 * pawnDir whitePawnE, whitePawnE.col) :=
  ⟨by decide, by decide, by decide,
    pawn_forward_steps initialBoard whitePawnE (-1, -1) (by decide) (by decide) (by decide)⟩

/-! ## Flipping twice -/

theorem rayCell_ne_origin (row col : Int) (d : Int × Int) (hd : d ∈ dir) (k : Nat)
    (hk : 1 ≤ k) : rayCell row col d k ≠ (row, col) := by
  obtain ⟨x, y⟩ := d
  rw [mem_dir] at hd
  intro heq
  simp only [rayCell, Prod.mk.injEq] at heq
  obtain ⟨h1, h2⟩ := heq
  have hk0 : (1 : Int) ≤ (k : Int) := by exact_mod_cast hk
  obtain ⟨hx, hy, hz⟩ := hd
  simp only at hx hy hz
  rcases hx with hx | hx | hx <;> rcases hy with hy | hy | hy <;> subst hx <;> subst hy <;>
    simp only [mul_neg, mul_one, mul_zero, add_zero] at h1 h2 <;> omega

/-- The origin of the flips is not bracketed. -/
theorem origin_not_bracketed (b : Board) (row col : Int) (X : Bool) :
    ¬ bracketed b row col X row col := by
  rintro ⟨d, hd, k, n, hk, _, hij, _, _⟩
  exact rayCell_ne_origin row col d ((mem_dir d).2 hd) k hk hij.symm

/-- After the flips nothing is bracketed any more. -/
theorem no_bracket_after (b : Board) (row col : Int) (X : Bool) (go w : Bool) (f : FlipState)
    (h : flipsTo X (bracketed b row col X) { board := b, gameOver := go, winnerIsWhite := w } f) :
    ∀ i j, ¬ bracketed f.board row col X i j := by
  rintro i j ⟨d, hd, k, n, hk, hkn, _, hall, hn⟩
  -- the cells before the anchor are not bracketed on the old board
  have hA : ∀ m : Nat, 1 ≤ m → m < n →
      ¬ bracketed b row col X (rayCell row col d m).1 (rayCell row col d m).2 := by
    intro m h1 h2 hbr
    obtain ⟨_, q, hq, hc⟩ := hall m h1 h2
    have := (h.1 _ _).1 hbr
    simp only at this
    rw [this] at hq
    cases hb : b (rayCell row col d m).1 (rayCell row col d m).2 with
    | none => rw [hb] at hq; simp at hq
    | some q0 =>
      rw [hb] at hq
      simp only [Option.map_some', Option.some.injEq] at hq
      rw [← hq] at hc
      simp only [recolour] at hc
      cases X <;> simp at hc
  have hA1 := hA 1 (le_refl 1) (by omega)
  have hold : ∀ m : Nat, 1 ≤ m → m < n → holds b (rayCell row col d m) (!X) := by
    intro m h1 h2
    have e := (h.1 _ _).2 (hA m h1 h2)
    simp only at e
    obtain ⟨hin, q, hq, hc⟩ := hall m h1 h2
    exact ⟨hin, q, by rw [← e]; exact hq, hc⟩
  by_cases hbn : bracketed b row col X (rayCell row col d n).1 (rayCell row col d n).2
  · obtain ⟨e, he, k2, n2, hk2, hkn2, hij2, hall2, hn2⟩ := hbn
    by_cases hde : d = e
    · subst hde
      exact hA1 ⟨d, hd, 1, n2, le_refl 1, by omega, rfl, hall2, hn2⟩
    · exact ray_disjoint row col d e ((mem_dir d).2 hd) ((mem_dir e).2 he) hde n k2
        (by omega) hk2 hij2
  · have e := (h.1 _ _).2 hbn
    simp only at e
    obtain ⟨hin, q, hq, hc⟩ := hn
    exact hA1 ⟨d, hd, 1, n, le_refl 1, by omega, rfl, hold,
      ⟨hin, q, by rw [← e]; exact hq, hc⟩⟩

/-- Claim C20. Flip resolution is idempotent: for an origin on the grid that
holds a piece, `flipOthello` returns a state, and `flipOthello` run again at the
same origin on that state returns it unchanged: the same board, the same
game-over flag and the same winner. -/
theorem flipOthello_idempotent (b : Board) (row col : Int) (go w : Bool) (p : Piece)
    (hb : inBounds row col) (hp : b row col = some p) :
    ∃ f, flipOthello b row col go w = some f ∧
      flipOthello f.board row col f.gameOver f.winnerIsWhite = some f := by
  obtain ⟨f, hf, hspec⟩ := flipOthello_spec b row col go w p hb hp
  refine ⟨f, hf, ?_⟩
  have hnone := no_bracket_after b row col p.isWhite go w f hspec
  have horig : f.board row col = some p := by
    have := (hspec.1 row col).2 (origin_not_bracketed b row col p.isWhite)
    simp only at this
    rw [this, hp]
  obtain ⟨f2, hf2, hspec2⟩ :=
    flipOthello_spec f.board row col f.gameOver f.winnerIsWhite p hb horig
  rw [hf2]
  have hK : ¬ ∃ i j, bracketed f.board row col p.isWhite i j ∧ isKingAt f.board i j := by
    rintro ⟨i, j, hbr, _⟩
    exact hnone i j hbr
  obtain ⟨h1, h2, _, h4⟩ := hspec2
  simp only at h1 h2 h4
  have e1 : f2.board = f.board := by
    funext i j
    exact (h1 i j).2 (hnone i j)
  have e2 : f2.gameOver = f.gameOver := by
    rw [Bool.eq_iff_iff, h2]
    simp [hK]
  have e3 : f2.winnerIsWhite = f.winnerIsWhite := h4 hK
  obtain ⟨fb, fg, fw⟩ := f
  obtain ⟨f2b, f2g, f2w⟩ := f2
  simp only at e1 e2 e3
  rw [e1, e2, e3]

theorem flipOthello_idempotent_witness :
    inBounds 4 4 ∧ flipBoard 4 4 = some flipMover ∧
      ∃ f, flipOthello flipBoard 4 4 false false = some f ∧
        flipOthello f.board 4 4 f.gameOver f.winnerIsWhite = some f :=
  ⟨by decide, by decide,
    flipOthello_idempotent flipBoard 4 4 false false flipMover (by decide) (by decide)⟩

/-! ## The steps of the move executor -/

/-- What a successful `executeMove` went through. -/
theorem executeMove_eq_some (s : State) (row col : Int) (s1 : State)
    (h : executeMove s row col = some s1) :
    ∃ p b5 clock f, inBounds s.selectedRow s.selectedCol ∧
      s.board s.selectedRow s.selectedCol = some p ∧ inBounds row col ∧
      ¬ (row = s.selectedRow ∧ col = s.selectedCol) ∧
      boardBeforeFlips s p (s.board row col) row col = some b5 ∧
      clockAfter s.halfMoveClock (s.board row col) (typeAfterPromotion p row) = some clock ∧
      flipOthello b5 row col
        (if kingTaken (s.board row col) then true else s.gameOver)
        (if kingTaken (s.board row col) then p.isWhite else s.winnerIsWhite) = some f ∧
      s1 = { s with
        board := f.board, lastMove := (p.row, p.col), gameOver := f.gameOver,
        winnerIsWhite := f.winnerIsWhite, halfMoveClock := clock } := by
  unfold executeMove at h
  simp only [Option.bind_eq_some, readCell_eq_some] at h
  obtain ⟨selCell, ⟨hsb, hsel⟩, p, hp, backup, ⟨hin, hbk⟩, h⟩ := h
  by_cases hg : row = s.selectedRow ∧ col = s.selectedCol
  · rw [if_pos hg] at h
    simp at h
  · rw [if_neg hg] at h
    simp only [Option.bind_eq_some, Option.some.injEq] at h
    obtain ⟨b5, hb5, clock, hclock, f, hf, hs1⟩ := h
    subst hbk
    exact ⟨p, b5, clock, f, hsb, by rw [hsel, hp], hin, hg, hb5, hclock, hf, hs1.symm⟩

/-- A successful `flipOthello` had its origin on the grid and a piece there,
which it left alone, and it changed the kind, the stored position and the
`hasMoved` flag of no piece. -/
theorem flipOthello_frame (b : Board) (row col : Int) (go w : Bool) (f : FlipState)
    (h : flipOthello b row col go w = some f) :
    inBounds row col ∧ (∃ p, b row col = some p ∧ f.board row col = some p) ∧
      ∀ i j, (f.board i j).map pieceFrame = (b i j).map pieceFrame := by
  have hread : ∃ p, inBounds row col ∧ b row col = some p := by
    unfold flipOthello at h
    simp only [Option.bind_eq_bind, Option.bind_eq_some, readCell_eq_some] at h
    obtain ⟨cell, ⟨hb, hc⟩, p, hp, _⟩ := h
    exact ⟨p, hb, by rw [hc, hp]⟩
  obtain ⟨p, hb, hp⟩ := hread
  obtain ⟨f2, hf2, hspec⟩ := flipOthello_spec b row col go w p hb hp
  rw [h] at hf2
  simp only [Option.some.injEq] at hf2
  subst hf2
  refine ⟨hb, ⟨p, hp, ?_⟩, ?_⟩
  · have := (hspec.1 row col).2 (origin_not_bracketed b row col p.isWhite)
    simp only at this
    rw [this, hp]
  · intro i j
    by_cases hbr : bracketed b row col p.isWhite i j
    · rw [(hspec.1 i j).1 hbr]
      simp only
      cases b i j with
      | none => rfl
      | some q => rfl
    · rw [(hspec.1 i j).2 hbr]

theorem map_frame_some (x y : Option Piece) (q : Piece)
    (h : x.map pieceFrame = y.map pieceFrame) (hx : x = some q) :
    ∃ q0, y = some q0 ∧ q0.type = q.type ∧ q0.row = q.row ∧ q0.col = q.col ∧
      q0.hasMoved = q.hasMoved := by
  subst hx
  cases y with
  | none => simp at h
  | some q0 =>
    simp only [Option.map_some', Option.some.injEq, pieceFrame, Prod.mk.injEq] at h
    exact ⟨q0, rfl, h.1.symm, h.2.1.symm, h.2.2.1.symm, h.2.2.2.symm⟩

/-- The en passant block leaves the board alone or empties one cell of the
destination column. -/
theorem enPassantRemove_eq (b : Board) (p : Piece) (backup : Option Piece)
    (selectedCol row col : Int) (b1 : Board)
    (h : enPassantRemove b p backup selectedCol row col = some b1) :
    b1 = b ∨ ∃ capRow, (p.type = PAWN ∧ backup = none ∧ selectedCol ≠ col) ∧
      b1 = setCell b capRow col none := by
  unfold enPassantRemove at h
  by_cases hc : p.type = PAWN ∧ backup = none ∧ selectedCol ≠ col
  · rw [if_pos hc] at h
    simp only [Option.bind_eq_some, Option.some.injEq] at h
    obtain ⟨_, _, h⟩ := h
    exact Or.inr ⟨_, hc, h.symm⟩
  · rw [if_neg hc] at h
    simp only [Option.some.injEq] at h
    exact Or.inl h.symm

/-! ## Stored positions -/

theorem consistent_setCell_none (b : Board) (r c : Int) (h : consistent b) :
    consistent (setCell b r c none) := by
  intro i j q hq
  unfold setCell at hq
  split_ifs at hq
  exact h i j q hq

theorem consistent_setCell_some (b : Board) (r c : Int) (x : Piece) (h : consistent b)
    (hx : x.row = r ∧ x.col = c) : consistent (setCell b r c (some x)) := by
  intro i j q hq
  unfold setCell at hq
  split_ifs at hq with he
  · simp only [Option.some.injEq] at hq
    rw [← hq, he.1, he.2]
    exact hx
  · exact h i j q hq

theorem consistent_modifyCell (b : Board) (r c : Int) (g : Piece → Piece) (h : consistent b)
    (hg : ∀ q, (g q).row = q.row ∧ (g q).col = q.col) : consistent (modifyCell b r c g) := by
  intro i j q hq
  unfold modifyCell at hq
  split_ifs at hq with he
  · cases hb : b r c with
    | none => rw [hb] at hq; simp at hq
    | some q0 =>
      rw [hb] at hq
      simp only [Option.map_some', Option.some.injEq] at hq
      rw [← hq, (hg q0).1, (hg q0).2, he.1, he.2]
      exact h r c q0 hb
  · exact h i j q hq

theorem consistent_castleRook (b b3 : Board) (p : Piece) (row col oldCol : Int)
    (h : consistent b) (hc : castleRook b p row col oldCol = some b3) : consistent b3 := by
  unfold castleRook at hc
  have key : ∀ (corner dest : Int) (rook : Piece), b row corner = some rook → corner ≠ dest →
      consistent (modifyCell (setCell (setCell b row dest (some rook)) row corner none) row dest
        (fun q => { q with col := dest, hasMoved := true })) := by
    intro corner dest rook hrook hne
    have hr := (h row corner rook hrook).1
    intro i j q hq
    unfold modifyCell setCell at hq
    by_cases h1 : i = row ∧ j = dest
    · have hne2 : ¬ dest = corner := fun e => hne e.symm
      simp only [h1, and_self, if_true, true_and, hne2, if_false, Option.map_some',
        Option.some.injEq] at hq
      rw [← hq, h1.1, h1.2]
      exact ⟨hr, rfl⟩
    · simp only [h1, if_false] at hq
      split_ifs at hq
      exact h i j q hq
  split_ifs at hc with h1 h2
  · simp only [Option.bind_eq_some, readCell_eq_some, Option.some.injEq] at hc
    obtain ⟨cell, ⟨_, hcell⟩, rook, hrook, hb3⟩ := hc
    rw [← hb3]
    exact key 7 5 rook (by rw [hcell, hrook]) (by norm_num)
  · simp only [Option.bind_eq_some, readCell_eq_some, Option.some.injEq] at hc
    obtain ⟨cell, ⟨_, hcell⟩, rook, hrook, hb3⟩ := hc
    rw [← hb3]
    exact key 0 3 rook (by rw [hcell, hrook]) (by norm_num)
  · simp only [Option.some.injEq] at hc
    rw [← hc]; exact h

/-- The board handed to `flipOthello` stores the position of every piece
rightly if the board before the move did. -/
theorem consistent_boardBeforeFlips (s : State) (p : Piece) (backup : Option Piece)
    (row col : Int) (b5 : Board) (h : consistent s.board)
    (hb : boardBeforeFlips s p backup row col = some b5) : consistent b5 := by
  unfold boardBeforeFlips at hb
  simp only [Option.bind_eq_some, Option.some.injEq] at hb
  obtain ⟨b1, hb1, b3, hb3, hb5⟩ := hb
  have c1 : consistent b1 := by
    rcases enPassantRemove_eq _ _ _ _ _ _ _ hb1 with e | ⟨capRow, _, e⟩
    · rw [e]; exact h
    · rw [e]; exact consistent_setCell_none _ _ _ h
  have c2 : consistent (relocate b1 p s.selectedRow s.selectedCol row col) :=
    consistent_setCell_none _ _ _ (consistent_setCell_some _ _ _ _ c1 ⟨rfl, rfl⟩)
  have c3 : consistent b3 := consistent_castleRook _ _ _ _ _ _ c2 hb3
  have c4 : consistent (promote b3 p s.isWhiteTurn row col) := by
    unfold promote
    split_ifs
    · exact consistent_setCell_some _ _ _ _ c3 ⟨rfl, rfl⟩
    · exact c3
  rw [← hb5]
  exact consistent_modifyCell _ _ _ _ c4 (fun q => ⟨rfl, rfl⟩)

theorem selectAt_board (s other s1 : State) (row col : Int)
    (h : selectAt s row col other = some s1) (ho : other.board = s.board) :
    s1.board = s.board := by
  unfold selectAt at h
  simp only [Option.bind_eq_some] at h
  obtain ⟨cell, _, h⟩ := h
  cases cell with
  | none =>
    simp only [Option.some.injEq] at h
    rw [← h, ho]
  | some q =>
    simp only at h
    split_ifs at h
    · simp only [Option.bind_eq_some, Option.some.injEq] at h
      obtain ⟨moves, _, h⟩ := h
      rw [← h]
    · simp only [Option.some.injEq] at h
      rw [← h, ho]

/-- A click keeps the stored positions right. -/
theorem consistent_handleClick (s s1 : State) (row col : Int) (h : consistent s.board)
    (hc : handleClick s row col = some s1) : consistent s1.board := by
  unfold handleClick at hc
  split_ifs at hc with h1 h2
  · rw [selectAt_board s s s1 row col hc rfl]; exact h
  · simp only [Option.bind_eq_some, Option.some.injEq] at hc
    obtain ⟨s2, hs2, hs1⟩ := hc
    obtain ⟨p, b5, clock, f, _, _, _, _, hb5, _, hf, hs2eq⟩ :=
      executeMove_eq_some s row col s2 hs2
    have c5 := consistent_boardBeforeFlips s p _ row col b5 h hb5
    obtain ⟨_, _, hframe⟩ := flipOthello_frame b5 row col _ _ f hf
    rw [← hs1, hs2eq]
    intro i j q hq
    simp only at hq
    obtain ⟨q0, hq0, _, hr, hcq, _⟩ := map_frame_some _ _ q (hframe i j) hq
    rw [← hr, ← hcq]
    exact c5 i j q0 hq0
  · rw [selectAt_board s _ s1 row col hc rfl]; exact h

theorem consistent_place (b : Board) (r c : Int) (w : Bool) (t : PieceType)
    (h : consistent b) : consistent (place b r c w t) :=
  consistent_setCell_some _ _ _ _ h ⟨rfl, rfl⟩

theorem consistent_foldl_place (r : Int) (w : Bool) (t : PieceType) :
    ∀ (l : List Nat) (b : Board), consistent b →
      consistent (l.foldl (fun b i => place b r (i : Int) w t) b) := by
  intro l
  induction l with
  | nil => intro b h; exact h
  | cons a l ih =>
    intro b h
    exact ih _ (consistent_place b r a w t h)

theorem consistent_initialBoard : consistent initialBoard := by
  unfold initialBoard
  simp only
  repeat (first | apply consistent_place | apply consistent_foldl_place)
  intro i j q hq
  simp [emptyBoard] at hq

theorem reachable_consistent (s : State) (h : Reachable s) : consistent s.board := by
  induction h with
  | init => exact consistent_initialBoard
  | click s s1 row col _ _ hc ih => exact consistent_handleClick s s1 row col ih hc

theorem reachable_runClicks :
    ∀ (clicks : List (Int × Int)) (s s1 : State), Reachable s →
      (∀ c ∈ clicks, inBounds c.1 c.2) → runClicks s clicks = some s1 → Reachable s1 := by
  intro clicks
  induction clicks with
  | nil =>
    intro s s1 hs _ h
    simp only [runClicks, List.foldlM_nil, Option.pure_def, Option.some.injEq] at h
    rw [← h]; exact hs
  | cons c clicks ih =>
    intro s s1 hs hin h
    simp only [runClicks, List.foldlM_cons, Option.bind_eq_bind, Option.bind_eq_some] at h
    obtain ⟨s2, hs2, h⟩ := h
    exact ih s2 s1 (Reachable.click s s2 c.1 c.2 hs (hin c (List.mem_cons_self _ _)) hs2)
      (fun e he => hin e (List.mem_cons_of_mem _ he)) h

theorem getD_of_isSome {α : Type} (o : Option α) (d : α) (h : o.isSome = true) :
    o = some (o.getD d) := by
  cases o with
  | none => simp at h
  | some a => rfl

theorem reachable_afterOpening : Reachable afterOpening :=
  reachable_runClicks [(6, 4), (4, 4)] initialState afterOpening Reachable.init (by decide)
    (getD_of_isSome _ _ (by decide))

/-- Claim C14. In every state reachable from the initial position by clicks
on cells of the grid, every piece stores the coordinates of the cell that holds
it. -/
theorem stored_position_invariant (s : State) (h : Reachable s) : consistent s.board :=
  reachable_consistent s h

theorem stored_position_invariant_witness :
    Reachable afterOpening ∧ consistent afterOpening.board :=
  ⟨reachable_afterOpening, stored_position_invariant afterOpening reachable_afterOpening⟩

/-! ## Executed moves -/

theorem handleClick_move (s : State) (row col : Int) (hsel : s.selectedRow ≠ -1)
    (hmv : (row, col) ∈ s.legalMoves) :
    handleClick s row col = (executeMove s row col).map finishMove := by
  unfold handleClick
  rw [if_neg hsel, if_pos hmv]
  cases executeMove s row col <;> rfl

/-- A move of the legal set of a rightly selected piece is executed: no read
leaves the grid, no null cell is dereferenced and the flips end. -/
theorem executeMove_legal (s : State) (p : Piece) (row col : Int)
    (hsel : selectionOk s p) (hmv : (row, col) ∈ s.legalMoves)
    (hclk : s.halfMoveClock < INT_MAX) :
    ∃ b5 clock f, boardBeforeFlips s p (s.board row col) row col = some b5 ∧
      flipOthello b5 row col
        (if kingTaken (s.board row col) then true else s.gameOver)
        (if kingTaken (s.board row col) then p.isWhite else s.winnerIsWhite) = some f ∧
      executeMove s row col = some { s with
        board := f.board, lastMove := (p.row, p.col), gameOver := f.gameOver,
        winnerIsWhite := f.winnerIsWhite, halfMoveClock := clock } := by
  obtain ⟨hin, _, hne⟩ := legal_dest s p row col hsel hmv
  obtain ⟨b5, q5, hb5, hq5, _⟩ := boardBeforeFlips_legal s p row col hsel hmv
  obtain ⟨f, hf, _⟩ := flipOthello_spec b5 row col
    (if kingTaken (s.board row col) then true else s.gameOver)
    (if kingTaken (s.board row col) then p.isWhite else s.winnerIsWhite) q5 hin hq5
  obtain ⟨hb, hon, _, _, _, _⟩ := hsel
  obtain ⟨clock, hclock⟩ : ∃ clock, clockAfter s.halfMoveClock (s.board row col)
      (typeAfterPromotion p row) = some clock := by
    unfold clockAfter
    split_ifs with h1 h2
    · exact ⟨_, rfl⟩
    · omega
    · exact ⟨_, rfl⟩
  refine ⟨b5, clock, f, hb5, hf, ?_⟩
  unfold executeMove
  simp only [readCell, hb, hin, if_true, Option.some_bind, hon, if_neg hne, hb5, hclock, hf]

/-- Claim C18. Every executed move flips the side to move, clears the
selection and the legal set, and appends to the history exactly one entry, the
serialization of the board as the move and its flips left it together with the
new side to move; the earlier entries stay.  A destination of the legal set of a
rightly selected piece is always executed. -/
theorem executed_move_bookkeeping (s : State) (row col : Int) (hsel : s.selectedRow ≠ -1)
    (hmv : (row, col) ∈ s.legalMoves) :
    (∀ s1, handleClick s row col = some s1 →
      s1.isWhiteTurn = (!s.isWhiteTurn) ∧ s1.selectedRow = -1 ∧ s1.selectedCol = -1 ∧
        s1.legalMoves = [] ∧
        s1.boardHistory = s.boardHistory ++ [serializeBoard s1.board s1.isWhiteTurn]) ∧
      (∀ p, selectionOk s p → s.halfMoveClock < INT_MAX →
        ∃ s1, handleClick s row col = some s1) := by
  rw [handleClick_move s row col hsel hmv]
  refine ⟨?_, ?_⟩
  · intro s1 hs1
    simp only [Option.map_eq_some'] at hs1
    obtain ⟨s2, hs2, hfin⟩ := hs1
    obtain ⟨p, b5, clock, f, _, _, _, _, _, _, _, hs2eq⟩ := executeMove_eq_some s row col s2 hs2
    rw [← hfin, hs2eq]
    exact ⟨rfl, rfl, rfl, rfl, rfl⟩
  · intro p hp hclk
    obtain ⟨b5, clock, f, _, _, hex⟩ := executeMove_legal s p row col hp hmv hclk
    rw [hex]
    exact ⟨_, rfl⟩

theorem executed_move_bookkeeping_witness :
    bracketState.selectedRow ≠ -1 ∧ ((4 : Int), (4 : Int)) ∈ bracketState.legalMoves ∧
      (∀ s1, handleClick bracketState 4 4 = some s1 →
        s1.isWhiteTurn = (!bracketState.isWhiteTurn) ∧ s1.selectedRow = -1 ∧
          s1.selectedCol = -1 ∧ s1.legalMoves = [] ∧
          s1.boardHistory =
            bracketState.boardHistory ++ [serializeBoard s1.board s1.isWhiteTurn]) ∧
      (∀ p, selectionOk bracketState p → bracketState.halfMoveClock < INT_MAX →
        ∃ s1, handleClick bracketState 4 4 = some s1) :=
  ⟨by decide, by decide, executed_move_bookkeeping bracketState 4 4 (by decide) (by decide)⟩

/-- The history after the move of `bracketState` has one entry, the position
with black to move. -/
theorem bracketState_history :
    (handleClick bracketState 4 4).map (fun s => s.boardHistory) =
      some ["000000000000000000000000000000000000RPKR0000000000000000000000000"] := by
  decide

/-! ## Promotion -/

/-- On a promoting move of the legal set the board handed to `flipOthello`
holds the new queen on the destination. -/
theorem boardBeforeFlips_promote (s : State) (p : Piece) (row col : Int)
    (hsel : selectionOk s p) (hmv : (row, col) ∈ s.legalMoves)
    (hpr : promotes p row = true) :
    ∃ b5, boardBeforeFlips s p (s.board row col) row col = some b5 ∧
      b5 row col = some (newQueen s.isWhiteTurn row col) := by
  obtain ⟨b3, hb3, _⟩ := castleRook_legal s p row col hsel hmv
  unfold boardBeforeFlips
  rw [enPassantRemove_legal s p row col hsel hmv, Option.some_bind, hb3, Option.some_bind]
  refine ⟨_, rfl, ?_⟩
  simp [modifyCell, promote, hpr, setCell, newQueen]

/-- Claim C11. When a pawn of the side to move is rightly selected and a
destination of its legal set on row 0 or row 7 is clicked, the move is executed
and afterwards the destination holds a queen of the mover's colour whose stored
position is the destination and whose `hasMoved` flag is set; no pawn is left on
that cell. -/
theorem promotion_yields_queen (s : State) (p : Piece) (row col : Int)
    (hsel : selectionOk s p) (hk : p.type = PAWN) (hmv : (row, col) ∈ s.legalMoves)
    (hrow : row = 0 ∨ row = 7) (hclk : s.halfMoveClock < INT_MAX) :
    ∃ s1 q, handleClick s row col = some s1 ∧ s1.board row col = some q ∧
      q.type = QUEEN ∧ q.isWhite = p.isWhite ∧ q.row = row ∧ q.col = col ∧
      q.hasMoved = true := by
  have hpr : promotes p row = true := by
    unfold promotes
    simp [hk, hrow]
  obtain ⟨b5, hb5, hq5⟩ := boardBeforeFlips_promote s p row col hsel hmv hpr
  obtain ⟨b5', clock, f, hb5', hf, hex⟩ := executeMove_legal s p row col hsel hmv hclk
  rw [hb5] at hb5'
  simp only [Option.some.injEq] at hb5'
  subst hb5'
  obtain ⟨_, ⟨q, hq, hfq⟩, _⟩ := flipOthello_frame b5 row col _ _ f hf
  rw [hq5] at hq
  simp only [Option.some.injEq] at hq
  have hsr : s.selectedRow ≠ -1 := by
    have := hsel.1.1
    omega
  rw [handleClick_move s row col hsr hmv, hex]
  refine ⟨_, q, rfl, hfq, ?_⟩
  rw [← hq]
  exact ⟨rfl, hsel.2.2.2.2.1.symm, rfl, rfl, rfl⟩

theorem promotion_yields_queen_witness :
    selectionOk promoSelected promoPawn ∧ promoPawn.type = PAWN ∧
      ((0 : Int), (0 : Int)) ∈ promoSelected.legalMoves ∧ ((0 : Int) = 0 ∨ (0 : Int) = 7) ∧
      promoSelected.halfMoveClock < INT_MAX ∧
      ∃ s1 q, handleClick promoSelected 0 0 = some s1 ∧ s1.board 0 0 = some q ∧
        q.type = QUEEN ∧ q.isWhite = promoPawn.isWhite ∧ q.row = 0 ∧ q.col = 0 ∧
        q.hasMoved = true :=
  ⟨by decide, by decide, by decide, by decide, by decide,
    promotion_yields_queen promoSelected promoPawn 0 0 (by decide) (by decide) (by decide)
      (by decide) (by decide)⟩

/-! ## Castling -/

/-- The board handed to `flipOthello` after the king `k` went from column 4 to
`(row, kingTo)` and the rook `rk` from the corner to `(row, rookTo)`. -/
theorem castled_cells (b : Board) (k rk : Piece) (row corner rookTo kingTo : Int)
    (h1 : corner ≠ rookTo) (h2 : corner ≠ kingTo) (h3 : rookTo ≠ kingTo) (h4 : corner ≠ 4)
    (h5 : rookTo ≠ 4) (h6 : kingTo ≠ 4) :
    let b3 := modifyCell (setCell (setCell (relocate b k row 4 row kingTo) row rookTo (some rk))
      row corner none) row rookTo (fun q => { q with col := rookTo, hasMoved := true })
    let b5 := modifyCell b3 row kingTo (fun q => { q with hasMoved := true })
    b5 row kingTo = some { k with row := row, col := kingTo, hasMoved := true } ∧
      b5 row rookTo = some { rk with col := rookTo, hasMoved := true } ∧
      b5 row 4 = none ∧ b5 row corner = none := by
  have e1 : ¬ rookTo = corner := fun e => h1 e.symm
  have e2 : ¬ kingTo = corner := fun e => h2 e.symm
  have e3 : ¬ kingTo = rookTo := fun e => h3 e.symm
  have e4 : ¬ (4 : Int) = corner := fun e => h4 e.symm
  have e5 : ¬ (4 : Int) = rookTo := fun e => h5 e.symm
  have e6 : ¬ (4 : Int) = kingTo := fun e => h6 e.symm
  simp only [modifyCell, setCell, relocate, true_and, and_self, if_true, if_false, e1, e2, e3,
    e4, e5, e6, h1, h2, h3, h4, h5, h6, Option.map_some', Option.map_none', and_true]

/-- Claim C12. When an unmoved king of the side to move stands on column 4 of
its row and is rightly selected: if the corner on column 7 holds an unmoved rook
and the cells on columns 5 and 6 are empty, the legal set contains the cell on
column 6, and the click on it puts the king on column 6 and the rook on column 5
(stored column 5), leaves columns 4 and 7 empty and both pieces marked as moved;
and if the corner on column 0 holds an unmoved rook and the cells on columns 1,
2 and 3 are empty, the same holds with the king going to column 2 and the rook to
column 3. -/
theorem castling_executes (s : State) (k rk : Piece) (hsel : selectionOk s k)
    (hk : k.type = KING) (hm : k.hasMoved = false) (hc : s.selectedCol = 4)
    (hclk : s.halfMoveClock < INT_MAX) (hrt : rk.type = ROOK) (hrm : rk.hasMoved = false) :
    (s.board s.selectedRow 7 = some rk → s.board s.selectedRow 5 = none →
      s.board s.selectedRow 6 = none →
      (s.selectedRow, (6 : Int)) ∈ s.legalMoves ∧
      ∃ s1 q r, handleClick s s.selectedRow 6 = some s1 ∧
        s1.board s.selectedRow 6 = some q ∧ q.type = KING ∧ q.row = s.selectedRow ∧
          q.col = 6 ∧ q.hasMoved = true ∧
        s1.board s.selectedRow 5 = some r ∧ r.type = ROOK ∧ r.col = 5 ∧ r.hasMoved = true ∧
        s1.board s.selectedRow 4 = none ∧ s1.board s.selectedRow 7 = none) ∧
    (s.board s.selectedRow 0 = some rk → s.board s.selectedRow 1 = none →
      s.board s.selectedRow 2 = none → s.board s.selectedRow 3 = none →
      (s.selectedRow, (2 : Int)) ∈ s.legalMoves ∧
      ∃ s1 q r, handleClick s s.selectedRow 2 = some s1 ∧
        s1.board s.selectedRow 2 = some q ∧ q.type = KING ∧ q.row = s.selectedRow ∧
          q.col = 2 ∧ q.hasMoved = true ∧
        s1.board s.selectedRow 3 = some r ∧ r.type = ROOK ∧ r.col = 3 ∧ r.hasMoved = true ∧
        s1.board s.selectedRow 4 = none ∧ s1.board s.selectedRow 0 = none) := by
  have hsr : s.selectedRow ≠ -1 := by
    have := hsel.1.1
    omega
  obtain ⟨hb, hon, hkr, hkc, _, hlm⟩ := id hsel
  have hkc4 : k.col = 4 := by rw [hkc, hc]
  -- what a castling click does, for either side
  have main : ∀ (corner rookTo kingTo : Int),
      corner ≠ rookTo → corner ≠ kingTo → rookTo ≠ kingTo → corner ≠ 4 → rookTo ≠ 4 →
      kingTo ≠ 4 → ((s.selectedRow, kingTo) ∈ s.legalMoves) →
      (castleRook (relocate s.board k s.selectedRow 4 s.selectedRow kingTo) k s.selectedRow
        kingTo 4 = some (modifyCell (setCell (setCell
          (relocate s.board k s.selectedRow 4 s.selectedRow kingTo) s.selectedRow rookTo
            (some rk)) s.selectedRow corner none) s.selectedRow rookTo
          (fun q => { q with col := rookTo, hasMoved := true }))) →
      ∃ s1 q r, handleClick s s.selectedRow kingTo = some s1 ∧
        s1.board s.selectedRow kingTo = some q ∧ q.type = KING ∧ q.row = s.selectedRow ∧
          q.col = kingTo ∧ q.hasMoved = true ∧
        s1.board s.selectedRow rookTo = some r ∧ r.type = ROOK ∧ r.col = rookTo ∧
          r.hasMoved = true ∧
        s1.board s.selectedRow 4 = none ∧ s1.board s.selectedRow corner = none := by
    intro corner rookTo kingTo h1 h2 h3 h4 h5 h6 hmv hcastle
    obtain ⟨c1, c2, c3, c4⟩ := castled_cells s.board k rk s.selectedRow corner rookTo kingTo
      h1 h2 h3 h4 h5 h6
    obtain ⟨b5, clock, f, hb5, hf, hex⟩ :=
      executeMove_legal s k s.selectedRow kingTo hsel hmv hclk
    have hb5' : b5 = modifyCell (modifyCell (setCell (setCell
        (relocate s.board k s.selectedRow 4 s.selectedRow kingTo) s.selectedRow rookTo
          (some rk)) s.selectedRow corner none) s.selectedRow rookTo
        (fun q => { q with col := rookTo, hasMoved := true })) s.selectedRow kingTo
        (fun q => { q with hasMoved := true }) := by
      unfold boardBeforeFlips at hb5
      rw [enPassantRemove_legal s k s.selectedRow kingTo hsel hmv, Option.some_bind, hc, hkc4,
        hcastle, Option.some_bind] at hb5
      have hnp : promotes k s.selectedRow = false := by
        unfold promotes; simp [hk]
      simp only [promote, hnp, Bool.false_eq_true, if_false, Option.some.injEq] at hb5
      exact hb5.symm
    obtain ⟨_, _, hframe⟩ := flipOthello_frame b5 s.selectedRow kingTo _ _ f hf
    rw [handleClick_move s s.selectedRow kingTo hsr hmv, hex]
    rw [hb5'] at hframe
    have f1 := hframe s.selectedRow kingTo
    have f2 := hframe s.selectedRow rookTo
    have f3 := hframe s.selectedRow 4
    have f4 := hframe s.selectedRow corner
    rw [c1] at f1
    rw [c2] at f2
    rw [c3] at f3
    rw [c4] at f4
    cases hq : f.board s.selectedRow kingTo with
    | none => rw [hq] at f1; simp at f1
    | some q =>
      cases hr : f.board s.selectedRow rookTo with
      | none => rw [hr] at f2; simp at f2
      | some r =>
        rw [hq] at f1
        rw [hr] at f2
        simp only [Option.map_some', Option.some.injEq, pieceFrame, Prod.mk.injEq] at f1 f2
        refine ⟨_, q, r, rfl, hq, ?_, ?_, ?_, ?_, hr, ?_, ?_, ?_, ?_, ?_⟩
        · rw [f1.1, hk]
        · exact f1.2.1
        · exact f1.2.2.1
        · exact f1.2.2.2
        · rw [f2.1, hrt]
        · exact f2.2.2.1
        · exact f2.2.2.2
        · show f.board s.selectedRow 4 = none
          cases h0 : f.board s.selectedRow 4 with
          | none => rfl
          | some x => rw [h0] at f3; simp at f3
        · show f.board s.selectedRow corner = none
          cases h0 : f.board s.selectedRow corner with
          | none => rfl
          | some x => rw [h0] at f4; simp at f4
  have hrow8 : 0 ≤ s.selectedRow ∧ s.selectedRow < 8 := ⟨hb.1, hb.2.1⟩
  refine ⟨?_, ?_⟩
  · intro h7 h5 h6
    have hok : castleOk s.board k.row 7 [5, 6] = true := by
      rw [castleOk_iff, hkr]
      exact ⟨⟨rk, h7, hrt, hrm⟩, by simp [h5, h6]⟩
    have hmv : (s.selectedRow, (6 : Int)) ∈ s.legalMoves := by
      rw [king_moves s.board k s.lastMove hk _ hlm]
      exact Or.inr (Or.inl ⟨hm, by rw [hkr], hok⟩)
    refine ⟨hmv, main 7 5 6 (by norm_num) (by norm_num) (by norm_num) (by norm_num)
      (by norm_num) (by norm_num) hmv ?_⟩
    unfold castleRook
    rw [if_pos ⟨hk, by norm_num⟩, if_pos (by norm_num)]
    have hread : readCell (relocate s.board k s.selectedRow 4 s.selectedRow 6) s.selectedRow 7 =
        some (some rk) := by
      rw [readCell_eq_some]
      refine ⟨⟨hrow8.1, hrow8.2, by norm_num, by norm_num⟩, ?_⟩
      simp [relocate, setCell, h7]
    rw [hread]
    rfl
  · intro h0 h1 h2 h3
    have hok : castleOk s.board k.row 0 [1, 2, 3] = true := by
      rw [castleOk_iff, hkr]
      exact ⟨⟨rk, h0, hrt, hrm⟩, by simp [h1, h2, h3]⟩
    have hmv : (s.selectedRow, (2 : Int)) ∈ s.legalMoves := by
      rw [king_moves s.board k s.lastMove hk _ hlm]
      exact Or.inr (Or.inr ⟨hm, by rw [hkr], hok⟩)
    refine ⟨hmv, main 0 3 2 (by norm_num) (by norm_num) (by norm_num) (by norm_num)
      (by norm_num) (by norm_num) hmv ?_⟩
    unfold castleRook
    rw [if_pos ⟨hk, by norm_num⟩, if_neg (by norm_num)]
    have hread : readCell (relocate s.board k s.selectedRow 4 s.selectedRow 2) s.selectedRow 0 =
        some (some rk) := by
      rw [readCell_eq_some]
      refine ⟨⟨hrow8.1, hrow8.2, by norm_num, by norm_num⟩, ?_⟩
      simp [relocate, setCell, h0]
    rw [hread]
    rfl


theorem castling_executes_witness :
    selectionOk castleState whiteKingE ∧ whiteKingE.type = KING ∧
      whiteKingE.hasMoved = false ∧ castleState.selectedCol = 4 ∧
      castleState.halfMoveClock < INT_MAX ∧ cornerRook.type = ROOK ∧
      cornerRook.hasMoved = false ∧
      (castleState.board castleState.selectedRow 7 = some cornerRook →
        castleState.board castleState.selectedRow 5 = none →
        castleState.board castleState.selectedRow 6 = none →
        (castleState.selectedRow, (6 : Int)) ∈ castleState.legalMoves ∧
        ∃ s1 q r, handleClick castleState castleState.selectedRow 6 = some s1 ∧
          s1.board castleState.selectedRow 6 = some q ∧ q.type = KING ∧
            q.row = castleState.selectedRow ∧ q.col = 6 ∧ q.hasMoved = true ∧
          s1.board castleState.selectedRow 5 = some r ∧ r.type = ROOK ∧ r.col = 5 ∧
            r.hasMoved = true ∧
          s1.board castleState.selectedRow 4 = none ∧
          s1.board castleState.selectedRow 7 = none) ∧
      (castleState.board castleState.selectedRow 0 = some cornerRook →
        castleState.board castleState.selectedRow 1 = none →
        castleState.board castleState.selectedRow 2 = none →
        castleState.board castleState.selectedRow 3 = none →
        (castleState.selectedRow, (2 : Int)) ∈ castleState.legalMoves ∧
        ∃ s1 q r, handleClick castleState castleState.selectedRow 2 = some s1 ∧
          s1.board castleState.selectedRow 2 = some q ∧ q.type = KING ∧
            q.row = castleState.selectedRow ∧ q.col = 2 ∧ q.hasMoved = true ∧
          s1.board castleState.selectedRow 3 = some r ∧ r.type = ROOK ∧ r.col = 3 ∧
            r.hasMoved = true ∧
          s1.board castleState.selectedRow 4 = none ∧
          s1.board castleState.selectedRow 0 = none) :=
  ⟨by decide, by decide, by decide, by decide, by decide, by decide, by decide,
    castling_executes castleState whiteKingE cornerRook (by decide) (by decide) (by decide)
      (by decide) (by decide) (by decide) (by decide)⟩

/-- Castling on the king side of `castleBoard`: the king ends on `(7, 6)` and
the rook on `(7, 5)`. -/
theorem castleState_result :
    castleState.board 7 7 = some cornerRook ∧
      (handleClick castleState 7 6).map
          (fun s => (s.board 7 4, s.board 7 5, s.board 7 6, s.board 7 7)) =
        some (none,
          some { isWhite := true, type := ROOK, row := 7, col := 5, hasMoved := true },
          some { isWhite := true, type := KING, row := 7, col := 6, hasMoved := true },
          none) := by
  decide

/-- Castling on the queen side of `longCastleBoard`: the king ends on `(7, 2)`
and the rook on `(7, 3)`. -/
theorem longCastleState_result :
    ((7 : Int), (2 : Int)) ∈ longCastleState.legalMoves ∧
      (handleClick longCastleState 7 2).map
          (fun s => (s.board 7 0, s.board 7 2, s.board 7 3, s.board 7 4)) =
        some (none,
          some { isWhite := true, type := KING, row := 7, col := 2, hasMoved := true },
          some { isWhite := true, type := ROOK, row := 7, col := 3, hasMoved := true },
          none) := by
  decide

/-! ## The en passant block of the executor -/

/-- Claim C16. When the executor moves a pawn from `(r0, c0)` to an empty
cell `(r1, c1)` of another column, one step forward of `r0`, the move is
executed, the cell `(r0, c1)` (the pawn's origin row, the destination column) is
empty afterwards, and every cell other than it, the origin and the destination
holds what it held before, up to the colour a flip may change: no piece is
removed from any other cell.  The origin is empty and the destination holds the
moved piece. -/
theorem enPassant_removes_origin_row (s : State) (p : Piece) (r1 c1 : Int)
    (hsb : inBounds s.selectedRow s.selectedCol)
    (hon : s.board s.selectedRow s.selectedCol = some p) (hk : p.type = PAWN)
    (hin : inBounds r1 c1) (hempty : s.board r1 c1 = none) (hcol : c1 ≠ s.selectedCol)
    (hfwd : r1 = s.selectedRow + pawnDir p) (hclk : s.halfMoveClock < INT_MAX) :
    ∃ s1, executeMove s r1 c1 = some s1 ∧
      s1.board s.selectedRow c1 = none ∧
      s1.board s.selectedRow s.selectedCol = none ∧
      (∃ q, s1.board r1 c1 = some q ∧ q.row = r1 ∧ q.col = c1) ∧
      ∀ i j, ¬ (i = s.selectedRow ∧ j = c1) → ¬ (i = s.selectedRow ∧ j = s.selectedCol) →
        ¬ (i = r1 ∧ j = c1) → (s1.board i j).map pieceFrame = (s.board i j).map pieceFrame := by
  have hd1 : pawnDir p = -1 ∨ pawnDir p = 1 := by
    unfold pawnDir; split_ifs <;> simp
  have hne : ¬ (r1 = s.selectedRow ∧ c1 = s.selectedCol) := fun e => hcol e.2
  have hrne : ¬ s.selectedRow = r1 := by omega
  have hcap : (if p.isWhite = true then r1 + 1 else r1 - 1) = s.selectedRow := by
    rw [hfwd]; unfold pawnDir
    split_ifs <;> omega
  have hinc : inBounds s.selectedRow c1 := ⟨hsb.1, hsb.2.1, hin.2.2.1, hin.2.2.2⟩
  -- the board handed to `flipOthello`
  have hb5 : boardBeforeFlips s p none r1 c1 =
      some (modifyCell (promote (relocate (setCell s.board s.selectedRow c1 none) p
        s.selectedRow s.selectedCol r1 c1) p s.isWhiteTurn r1 c1) r1 c1
        (fun q => { q with hasMoved := true })) := by
    unfold boardBeforeFlips enPassantRemove castleRook
    simp only [hk, true_and, ne_eq, hcol.symm, not_false_eq_true, and_self, if_true, hcap,
      readCell, hinc, Option.some_bind, false_and, if_false, reduceCtorEq]
  set b5 := modifyCell (promote (relocate (setCell s.board s.selectedRow c1 none) p
    s.selectedRow s.selectedCol r1 c1) p s.isWhiteTurn r1 c1) r1 c1
    (fun q => { q with hasMoved := true }) with hb5def
  have cdest : ∃ q, b5 r1 c1 = some q ∧ q.row = r1 ∧ q.col = c1 := by
    by_cases hpr : promotes p r1 = true
    · exact ⟨{ newQueen s.isWhiteTurn r1 c1 with hasMoved := true },
        by simp [hb5def, modifyCell, promote, hpr, setCell], rfl, rfl⟩
    · exact ⟨{ p with row := r1, col := c1, hasMoved := true },
        by simp [hb5def, modifyCell, promote, hpr, setCell, relocate, hne], rfl, rfl⟩
  have cfar : ∀ i j, ¬ (i = r1 ∧ j = c1) → b5 i j =
      if i = s.selectedRow ∧ j = s.selectedCol then none
      else if i = s.selectedRow ∧ j = c1 then none else s.board i j := by
    intro i j h1
    by_cases hpr : promotes p r1 = true
    · simp [hb5def, modifyCell, promote, hpr, setCell, relocate, h1]
    · simp [hb5def, modifyCell, promote, hpr, setCell, relocate, h1]
  obtain ⟨q5, hq5, hq5r, hq5c⟩ := cdest
  obtain ⟨f, hf, _⟩ := flipOthello_spec b5 r1 c1
    (if kingTaken (s.board r1 c1) then true else s.gameOver)
    (if kingTaken (s.board r1 c1) then p.isWhite else s.winnerIsWhite) q5 hin hq5
  obtain ⟨_, ⟨q, hq, hfq⟩, hframe⟩ := flipOthello_frame b5 r1 c1 _ _ f hf
  obtain ⟨clock, hclock⟩ : ∃ clock, clockAfter s.halfMoveClock (s.board r1 c1)
      (typeAfterPromotion p r1) = some clock := by
    unfold clockAfter
    split_ifs with h1 h2
    · exact ⟨_, rfl⟩
    · omega
    · exact ⟨_, rfl⟩
  have hex : executeMove s r1 c1 = some { s with
      board := f.board, lastMove := (p.row, p.col), gameOver := f.gameOver,
      winnerIsWhite := f.winnerIsWhite, halfMoveClock := clock } := by
    unfold executeMove
    rw [hempty] at hclock hf
    simp only [readCell, hsb, hin, if_true, Option.some_bind, hon, if_neg hne, hempty, hb5,
      hclock, hf]
  have hnone : ∀ i j, b5 i j = none → f.board i j = none := by
    intro i j h0
    have := hframe i j
    rw [h0] at this
    cases hx : f.board i j with
    | none => rfl
    | some x => rw [hx] at this; simp at this
  refine ⟨_, hex, ?_, ?_, ⟨q, hfq, ?_⟩, ?_⟩
  · apply hnone
    rw [cfar _ _ (fun e => hrne e.1)]
    simp [hcol]
  · apply hnone
    rw [cfar _ _ (fun e => hrne e.1)]
    simp
  · rw [hq5] at hq
    simp only [Option.some.injEq] at hq
    rw [← hq]
    exact ⟨hq5r, hq5c⟩
  · intro i j h1 h2 h3
    show (f.board i j).map pieceFrame = (s.board i j).map pieceFrame
    rw [hframe i j, cfar i j h3, if_neg h2, if_neg h1]

theorem enPassant_removes_origin_row_witness :
    inBounds epState.selectedRow epState.selectedCol ∧
      epState.board epState.selectedRow epState.selectedCol = some epWhitePawn ∧
      epWhitePawn.type = PAWN ∧ inBounds 2 3 ∧ epState.board 2 3 = none ∧
      (3 : Int) ≠ epState.selectedCol ∧ (2 : Int) = epState.selectedRow + pawnDir epWhitePawn ∧
      epState.halfMoveClock < INT_MAX ∧
      ∃ s1, executeMove epState 2 3 = some s1 ∧
        s1.board epState.selectedRow 3 = none ∧
        s1.board epState.selectedRow epState.selectedCol = none ∧
        (∃ q, s1.board 2 3 = some q ∧ q.row = 2 ∧ q.col = 3) ∧
        ∀ i j, ¬ (i = epState.selectedRow ∧ j = 3) →
          ¬ (i = epState.selectedRow ∧ j = epState.selectedCol) →
          ¬ (i = 2 ∧ j = 3) →
          (s1.board i j).map pieceFrame = (epState.board i j).map pieceFrame :=
  ⟨by decide, by decide, by decide, by decide, by decide, by decide, by decide, by decide,
    enPassant_removes_origin_row epState epWhitePawn 2 3 (by decide) (by decide) (by decide)
      (by decide) (by decide) (by decide) (by decide) (by decide)⟩

/-- On `epState` the click on `(2, 3)` takes the black pawn off `(3, 3)` and
puts the white pawn on `(2, 3)`. -/
theorem epState_result :
    (handleClick epState 2 3).map (fun s => serializeBoard s.board s.isWhiteTurn) =
      some "0000000000000000000P000000000000000000000000000000000000000000000" := by
  decide

/-! ## The `hasMoved` flag -/

theorem staysUnmoved_refl (b : Board) : staysUnmoved b b :=
  fun _ _ q hq _ => ⟨q, hq, rfl⟩

theorem staysUnmoved_trans (b b1 b2 : Board) (h1 : staysUnmoved b b1)
    (h2 : staysUnmoved b1 b2) : staysUnmoved b b2 := by
  intro i j q hq hm
  obtain ⟨q1, hq1, hf1⟩ := h2 i j q hq hm
  have hm1 : q1.hasMoved = false := by
    simp only [pieceFrame, Prod.mk.injEq] at hf1
    rw [hf1.2.2.2, hm]
  obtain ⟨q0, hq0, hf0⟩ := h1 i j q1 hq1 hm1
  exact ⟨q0, hq0, hf0.trans hf1⟩

/-- The castling block marks the rook it relocates as moved and leaves every
other piece where it is. -/
theorem unmoved_castleRook (b b3 : Board) (p : Piece) (row col oldCol : Int)
    (hc : castleRook b p row col oldCol = some b3) :
    ∀ i j q, b3 i j = some q → q.hasMoved = false → b i j = some q := by
  unfold castleRook at hc
  have key : ∀ (corner dest : Int) (rook : Piece) (i j : Int) (q : Piece),
      modifyCell (setCell (setCell b row dest (some rook)) row corner none) row dest
        (fun q => { q with col := dest, hasMoved := true }) i j = some q →
      q.hasMoved = false → b i j = some q := by
    intro corner dest rook i j q hq hm
    unfold modifyCell at hq
    by_cases h1 : i = row ∧ j = dest
    · rw [if_pos h1] at hq
      cases hx : setCell (setCell b row dest (some rook)) row corner none row dest with
      | none => rw [hx] at hq; simp at hq
      | some x =>
        rw [hx] at hq
        simp only [Option.map_some', Option.some.injEq] at hq
        rw [← hq] at hm
        simp at hm
    · rw [if_neg h1] at hq
      unfold setCell at hq
      split_ifs at hq
      exact hq
  split_ifs at hc with h1 h2
  · simp only [Option.bind_eq_some, Option.some.injEq] at hc
    obtain ⟨cell, _, rook, _, hb3⟩ := hc
    rw [← hb3]
    exact key 7 5 rook
  · simp only [Option.bind_eq_some, Option.some.injEq] at hc
    obtain ⟨cell, _, rook, _, hb3⟩ := hc
    rw [← hb3]
    exact key 0 3 rook
  · simp only [Option.some.injEq] at hc
    rw [← hc]
    exact fun _ _ _ hq _ => hq

/-- On the board handed to `flipOthello`, the destination holds nothing or a
piece marked as moved, and every piece not marked as moved stands where it stood
before the move. -/
theorem unmoved_boardBeforeFlips (s : State) (p : Piece) (backup : Option Piece)
    (row col : Int) (b5 : Board) (hb : boardBeforeFlips s p backup row col = some b5) :
    (∀ q, b5 row col = some q → q.hasMoved = true) ∧
      ∀ i j q, b5 i j = some q → q.hasMoved = false → s.board i j = some q := by
  unfold boardBeforeFlips at hb
  simp only [Option.bind_eq_some, Option.some.injEq] at hb
  obtain ⟨b1, hb1, b3, hb3, hb5⟩ := hb
  have hdest : ∀ q, b5 row col = some q → q.hasMoved = true := by
    intro q hq
    rw [← hb5] at hq
    simp only [modifyCell, and_self, if_true] at hq
    cases hx : promote b3 p s.isWhiteTurn row col row col with
    | none => rw [hx] at hq; simp at hq
    | some x =>
      rw [hx] at hq
      simp only [Option.map_some', Option.some.injEq] at hq
      rw [← hq]
  refine ⟨hdest, ?_⟩
  intro i j q hq hm
  have hnd : ¬ (i = row ∧ j = col) := by
    rintro ⟨rfl, rfl⟩
    rw [hdest q hq] at hm
    simp at hm
  -- back through the last write and the promotion
  have h4 : b3 i j = some q := by
    rw [← hb5] at hq
    simp only [modifyCell, hnd, if_false] at hq
    unfold promote at hq
    split_ifs at hq
    · simp only [setCell, hnd, if_false] at hq
      exact hq
    · exact hq
  -- back through the castling block and the relocation
  have h2 := unmoved_castleRook _ _ _ _ _ _ hb3 i j q h4 hm
  have h1 : b1 i j = some q := by
    simp only [relocate, setCell, hnd, if_false] at h2
    split_ifs at h2
    exact h2
  -- back through the en passant block
  rcases enPassantRemove_eq _ _ _ _ _ _ _ hb1 with e | ⟨capRow, _, e⟩
  · rw [e] at h1; exact h1
  · rw [e] at h1
    unfold setCell at h1
    split_ifs at h1
    exact h1

/-- A move leaves a piece marked as moved on its destination and marks no
piece as unmoved. -/
theorem unmoved_executeMove (s : State) (row col : Int) (s1 : State)
    (h : executeMove s row col = some s1) :
    (∃ q, s1.board row col = some q ∧ q.hasMoved = true) ∧ staysUnmoved s.board s1.board := by
  obtain ⟨p, b5, clock, f, _, _, _, _, hb5, _, hf, hs1⟩ := executeMove_eq_some s row col s1 h
  obtain ⟨hdest, hkeep⟩ := unmoved_boardBeforeFlips s p _ row col b5 hb5
  obtain ⟨_, ⟨q, hq, hfq⟩, hframe⟩ := flipOthello_frame b5 row col _ _ f hf
  rw [hs1]
  refine ⟨⟨q, hfq, hdest q hq⟩, ?_⟩
  intro i j x hx hm
  simp only at hx
  obtain ⟨x0, hx0, ht, hr, hc, hmv⟩ := map_frame_some _ _ x (hframe i j) hx
  refine ⟨x0, hkeep i j x0 hx0 (by rw [hmv, hm]), ?_⟩
  simp only [pieceFrame, ht, hr, hc, hmv]

theorem unmoved_handleClick (s : State) (row col : Int) (s1 : State)
    (h : handleClick s row col = some s1) : staysUnmoved s.board s1.board := by
  unfold handleClick at h
  split_ifs at h with h1 h2
  · rw [selectAt_board s s s1 row col h rfl]; exact staysUnmoved_refl _
  · simp only [Option.bind_eq_some, Option.some.injEq] at h
    obtain ⟨s2, hs2, hs1⟩ := h
    rw [← hs1]
    exact (unmoved_executeMove s row col s2 hs2).2
  · rw [selectAt_board s _ s1 row col h rfl]; exact staysUnmoved_refl _

theorem unmoved_runClicks :
    ∀ (clicks : List (Int × Int)) (s s1 : State), runClicks s clicks = some s1 →
      staysUnmoved s.board s1.board := by
  intro clicks
  induction clicks with
  | nil =>
    intro s s1 h
    simp only [runClicks, List.foldlM_nil, Option.pure_def, Option.some.injEq] at h
    rw [← h]; exact staysUnmoved_refl _
  | cons c clicks ih =>
    intro s s1 h
    simp only [runClicks, List.foldlM_cons, Option.bind_eq_bind, Option.bind_eq_some] at h
    obtain ⟨s2, hs2, h⟩ := h
    exact staysUnmoved_trans _ _ _ (unmoved_handleClick s c.1 c.2 s2 hs2) (ih s2 s1 h)

/-- A king marked as moved is offered neighbouring cells only. -/
theorem moved_king_moves (b : Board) (p : Piece) (lm : Int × Int) (ms : List (Int × Int))
    (hk : p.type = KING) (hm : p.hasMoved = true) (h : getLegalMoves b p lm = some ms) :
    ∀ q ∈ ms, |q.2 - p.col| ≤ 1 := by
  intro q hq
  rcases (king_moves b p lm hk ms h q).1 hq with ⟨o, ho, hqo, _, _⟩ | ⟨hf, _⟩ | ⟨hf, _⟩
  · rw [mem_dir] at ho
    rw [hqo]
    simp only [add_sub_cancel_left]
    rw [abs_le]
    omega
  · rw [hm] at hf; simp at hf
  · rw [hm] at hf; simp at hf

/-- Claim C19. Moving a piece marks it as moved for good.  After every
executed move the piece on the destination is marked as moved.  No sequence of
clicks (moves with their castling relocation, promotion and flips) turns a piece
marked as moved into one that is not: a piece that is not marked as moved stood
on its cell, unmoved, all along.  A king marked as moved is offered no cell two
columns away; so after any clicks a king on a cell that held no unmoved king
before them is offered none. -/
theorem moved_flag_is_permanent :
    (∀ (s : State) (row col : Int) (s1 : State), s.selectedRow ≠ -1 →
      (row, col) ∈ s.legalMoves → handleClick s row col = some s1 →
      ∃ q, s1.board row col = some q ∧ q.hasMoved = true) ∧
    (∀ (s : State) (clicks : List (Int × Int)) (s1 : State),
      runClicks s clicks = some s1 → staysUnmoved s.board s1.board) ∧
    (∀ (b : Board) (p : Piece) (lm : Int × Int) (ms : List (Int × Int)),
      p.type = KING → p.hasMoved = true → getLegalMoves b p lm = some ms →
      ∀ q ∈ ms, |q.2 - p.col| ≤ 1) ∧
    (∀ (s : State) (clicks : List (Int × Int)) (s1 : State) (i j : Int) (k : Piece),
      runClicks s clicks = some s1 →
      (¬ ∃ k0, s.board i j = some k0 ∧ k0.type = KING ∧ k0.hasMoved = false) →
      s1.board i j = some k → k.type = KING →
      ∀ (lm : Int × Int) (ms : List (Int × Int)), getLegalMoves s1.board k lm = some ms →
        ∀ q ∈ ms, |q.2 - k.col| ≤ 1) := by
  refine ⟨?_, ?_, ?_, ?_⟩
  · intro s row col s1 hsel hmv h
    rw [handleClick_move s row col hsel hmv] at h
    simp only [Option.map_eq_some'] at h
    obtain ⟨s2, hs2, hfin⟩ := h
    rw [← hfin]
    exact (unmoved_executeMove s row col s2 hs2).1
  · intro s clicks s1 h
    exact unmoved_runClicks clicks s s1 h
  · intro b p lm ms hk hm h
    exact moved_king_moves b p lm ms hk hm h
  · intro s clicks s1 i j k hrun hno hk1 hkt lm ms hms
    have hmoved : k.hasMoved = true := by
      by_contra hm
      have hm2 : k.hasMoved = false := by simpa using hm
      obtain ⟨k0, hk0, hf⟩ := unmoved_runClicks clicks s s1 hrun i j k hk1 hm2
      simp only [pieceFrame, Prod.mk.injEq] at hf
      exact hno ⟨k0, hk0, by rw [hf.1, hkt], by rw [hf.2.2.2, hm2]⟩
    exact moved_king_moves s1.board k lm ms hkt hmoved hms

/-- On `castleBoard` the white king steps to `(7, 5)` and, after a black pawn
move, back to `(7, 4)`; selected again after another black move, it is offered
`(7, 5)` only, although the rook on `(7, 7)` never moved and the cells between
are empty. -/
theorem king_back_home_no_castling :
    (runClicks castleState
        [(7, 5), (1, 0), (2, 0), (7, 5), (7, 4), (2, 0), (3, 0), (7, 4)]).map
        (fun s => (s.board 7 4, s.board 7 7, s.legalMoves)) =
      some (some { isWhite := true, type := KING, row := 7, col := 4, hasMoved := true },
        some cornerRook, [(7, 5)]) := by
  decide

/-! ## Castling and the colour of the rook -/

/-- An unmoved king on column 4 whose corner on column 7 holds an unmoved rook,
with columns 5 and 6 empty, is offered the cell on column 6, whatever the colours
of the two pieces. -/
theorem castling_any_colour (b : Board) (k rk : Piece) (lm : Int × Int) (hk : k.type = KING)
    (hm : k.hasMoved = false) (hr : 0 ≤ k.row ∧ k.row < 8) (h7 : b k.row 7 = some rk)
    (hrt : rk.type = ROOK) (hrm : rk.hasMoved = false) (h5 : b k.row 5 = none)
    (h6 : b k.row 6 = none) :
    ∃ ms, getLegalMoves b k lm = some ms ∧ (k.row, (6 : Int)) ∈ ms := by
  obtain ⟨ms, hms⟩ := king_total b k lm hk hr
  refine ⟨ms, hms, ?_⟩
  rw [king_moves b k lm hk ms hms]
  refine Or.inr (Or.inl ⟨hm, rfl, ?_⟩)
  rw [castleOk_iff]
  exact ⟨⟨rk, h7, hrt, hrm⟩, by simp [h5, h6]⟩

/-- Claim C22. Castling does not depend on the colour of the rook.  On
`mixedCornerBoard` the white king on `(7, 4)` is offered the cell `(7, 6)`, two
columns away, although the unmoved rook in the corner `(7, 7)` is black.  On
`midFlipped`, the board that `flipOthello` leaves after a black move to `(2, 7)`
bracketed the white rook on `(3, 7)`, that rook is black and still unmoved, and
the unmoved white king on `(3, 4)` is offered the cell `(3, 6)`.  In general an
unmoved king with an unmoved rook on column 7 of its row and columns 5 and 6
empty is offered column 6, whatever the colours of the two pieces. -/
theorem castling_ignores_rook_colour :
    (mixedCornerBoard 7 4 = some whiteKingE ∧
        mixedCornerBoard 7 7 = some { cornerRook with isWhite := false } ∧
        getLegalMoves mixedCornerBoard whiteKingE (-1, -1) = some [(7, 5), (7, 6)]) ∧
      (midBoard 3 7 = some midRook ∧
        midFlipped 3 7 = some { midRook with isWhite := false } ∧
        midFlipped 3 4 = some midKing ∧
        getLegalMoves midFlipped midKing (-1, -1) =
          some [(2, 3), (2, 4), (2, 5), (3, 3), (3, 5), (4, 3), (4, 4), (4, 5), (3, 6)]) ∧
      ∀ (b : Board) (k rk : Piece) (lm : Int × Int), k.type = KING → k.hasMoved = false →
        (0 ≤ k.row ∧ k.row < 8) → b k.row 7 = some rk → rk.type = ROOK →
        rk.hasMoved = false → b k.row 5 = none → b k.row 6 = none →
        ∃ ms, getLegalMoves b k lm = some ms ∧ (k.row, (6 : Int)) ∈ ms :=
  ⟨⟨by decide, by decide, by decide⟩, ⟨by decide, by decide, by decide, by decide⟩,
    castling_any_colour⟩

theorem castling_ignores_rook_colour_witness :
    ∃ ms, getLegalMoves mixedCornerBoard whiteKingE (-1, -1) = some ms ∧
      (whiteKingE.row, (6 : Int)) ∈ ms :=
  castling_ignores_rook_colour.2.2 mixedCornerBoard whiteKingE
    { cornerRook with isWhite := false } (-1, -1) rfl rfl (by decide) (by decide) rfl rfl
    (by decide) (by decide)

/-- A corner of the grid is never bracketed: a bracketed cell has a cell of the
grid on either side of it on its ray.  A rook on its corner is therefore never
flipped. -/
theorem corner_never_bracketed (b : Board) (row col : Int) (X : Bool) (i j : Int)
    (hb : inBounds row col) (h : bracketed b row col X i j) :
    ¬ ((i = 0 ∨ i = 7) ∧ (j = 0 ∨ j = 7)) := by
  obtain ⟨d, hd, k, n, hk, hkn, hij, hall, hn⟩ := h
  have hnext : inBounds (rayCell row col d (k + 1)).1 (rayCell row col d (k + 1)).2 := by
    rcases Nat.lt_or_ge (k + 1) n with h1 | h1
    · exact (hall (k + 1) (by omega) h1).1
    · have : n = k + 1 := by omega
      rw [← this]; exact hn.1
  obtain ⟨x, y⟩ := d
  simp only [rayCell, Prod.mk.injEq, inBounds, ROWS, COLS, Nat.cast_add, Nat.cast_one] at *
  obtain ⟨hx, hy, hz⟩ := hd
  have hk0 : (1 : Int) ≤ (k : Int) := by exact_mod_cast hk
  rcases hx with hx | hx | hx <;> rcases hy with hy | hy | hy <;> subst hx <;> subst hy <;>
    simp only [mul_neg, mul_one, mul_zero, add_zero] at hij hnext <;> omega

/-! ## Pawns on the last rows -/

theorem noFarPawn_setCell_none (b : Board) (r c : Int) (h : noFarPawn b) :
    noFarPawn (setCell b r c none) := by
  intro i j q hq
  unfold setCell at hq
  split_ifs at hq
  exact h i j q hq

theorem noFarPawn_setCell_some (b : Board) (r c : Int) (x : Piece) (h : noFarPawn b)
    (hx : x.type = PAWN → r ≠ 0 ∧ r ≠ 7) : noFarPawn (setCell b r c (some x)) := by
  intro i j q hq hk
  unfold setCell at hq
  split_ifs at hq with he
  · simp only [Option.some.injEq] at hq
    rw [← hq] at hk
    rw [he.1]
    exact hx hk
  · exact h i j q hq hk

theorem noFarPawn_modifyCell (b : Board) (r c : Int) (g : Piece → Piece) (h : noFarPawn b)
    (hg : ∀ q, (g q).type = q.type) : noFarPawn (modifyCell b r c g) := by
  intro i j q hq hk
  unfold modifyCell at hq
  split_ifs at hq with he
  · cases hb : b r c with
    | none => rw [hb] at hq; simp at hq
    | some q0 =>
      rw [hb] at hq
      simp only [Option.map_some', Option.some.injEq] at hq
      rw [← hq, hg q0] at hk
      rw [he.1]
      exact h r c q0 hb hk
  · exact h i j q hq hk

theorem noFarPawn_castleRook (b b3 : Board) (p : Piece) (row col oldCol : Int)
    (h : noFarPawn b) (hc : castleRook b p row col oldCol = some b3) : noFarPawn b3 := by
  unfold castleRook at hc
  have key : ∀ (corner dest : Int) (rook : Piece), b row corner = some rook →
      noFarPawn (modifyCell (setCell (setCell b row dest (some rook)) row corner none) row dest
        (fun q => { q with col := dest, hasMoved := true })) := by
    intro corner dest rook hrook
    exact noFarPawn_modifyCell _ _ _ _
      (noFarPawn_setCell_none _ _ _
        (noFarPawn_setCell_some _ _ _ _ h (fun hk => h row corner rook hrook hk)))
      (fun q => rfl)
  split_ifs at hc with h1 h2
  · simp only [Option.bind_eq_some, readCell_eq_some, Option.some.injEq] at hc
    obtain ⟨cell, ⟨_, hcell⟩, rook, hrook, hb3⟩ := hc
    rw [← hb3]
    exact key 7 5 rook (by rw [hcell, hrook])
  · simp only [Option.bind_eq_some, readCell_eq_some, Option.some.injEq] at hc
    obtain ⟨cell, ⟨_, hcell⟩, rook, hrook, hb3⟩ := hc
    rw [← hb3]
    exact key 0 3 rook (by rw [hcell, hrook])
  · simp only [Option.some.injEq] at hc
    rw [← hc]; exact h

/-- The board handed to `flipOthello` has no pawn on row 0 or row 7 if the
board before the move had none: a pawn that arrives there is promoted. -/
theorem noFarPawn_boardBeforeFlips (s : State) (p : Piece) (backup : Option Piece)
    (row col : Int) (b5 : Board) (h : noFarPawn s.board)
    (hb : boardBeforeFlips s p backup row col = some b5) : noFarPawn b5 := by
  unfold boardBeforeFlips at hb
  simp only [Option.bind_eq_some, Option.some.injEq] at hb
  obtain ⟨b1, hb1, b3, hb3, hb5⟩ := hb
  have c1 : noFarPawn b1 := by
    rcases enPassantRemove_eq _ _ _ _ _ _ _ hb1 with e | ⟨capRow, _, e⟩
    · rw [e]; exact h
    · rw [e]; exact noFarPawn_setCell_none _ _ _ h
  rw [← hb5]
  apply noFarPawn_modifyCell
  swap
  · intro q; rfl
  by_cases hpr : promotes p row = true
  · -- a promoting pawn: no castling, and the queen replaces the pawn
    have hk : p.type = PAWN := by
      unfold promotes at hpr
      simp only [decide_eq_true_eq] at hpr
      exact hpr.1
    have hb3' : b3 = relocate b1 p s.selectedRow s.selectedCol row col := by
      unfold castleRook at hb3
      rw [if_neg (by rw [hk]; simp)] at hb3
      simp only [Option.some.injEq] at hb3
      exact hb3.symm
    unfold promote
    rw [if_pos hpr, hb3']
    intro i j q hq hkq
    unfold setCell relocate setCell at hq
    split_ifs at hq
    · simp only [Option.some.injEq] at hq
      rw [← hq] at hkq
      simp [newQueen] at hkq
    · exact c1 i j q hq hkq
  · -- any other move: the relocated piece is no pawn on a last row
    have hx : p.type = PAWN → row ≠ 0 ∧ row ≠ 7 := by
      intro hk
      unfold promotes at hpr
      simp only [decide_eq_true_eq, not_and, not_or] at hpr
      exact hpr hk
    have c2 : noFarPawn (relocate b1 p s.selectedRow s.selectedCol row col) :=
      noFarPawn_setCell_none _ _ _ (noFarPawn_setCell_some _ _ _ _ c1 hx)
    have c3 : noFarPawn b3 := noFarPawn_castleRook _ _ _ _ _ _ c2 hb3
    unfold promote
    rw [if_neg hpr]
    exact c3

theorem noFarPawn_handleClick (s s1 : State) (row col : Int) (h : noFarPawn s.board)
    (hc : handleClick s row col = some s1) : noFarPawn s1.board := by
  unfold handleClick at hc
  split_ifs at hc with h1 h2
  · rw [selectAt_board s s s1 row col hc rfl]; exact h
  · simp only [Option.bind_eq_some, Option.some.injEq] at hc
    obtain ⟨s2, hs2, hs1⟩ := hc
    obtain ⟨p, b5, clock, f, _, _, _, _, hb5, _, hf, hs2eq⟩ :=
      executeMove_eq_some s row col s2 hs2
    have c5 := noFarPawn_boardBeforeFlips s p _ row col b5 h hb5
    obtain ⟨_, _, hframe⟩ := flipOthello_frame b5 row col _ _ f hf
    rw [← hs1, hs2eq]
    intro i j q hq hk
    simp only at hq
    obtain ⟨q0, hq0, ht, _, _, _⟩ := map_frame_some _ _ q (hframe i j) hq
    exact c5 i j q0 hq0 (by rw [ht, hk])
  · rw [selectAt_board s _ s1 row col hc rfl]; exact h

theorem noFarPawn_place (b : Board) (r c : Int) (w : Bool) (t : PieceType)
    (h : noFarPawn b) (ht : t = PAWN → r ≠ 0 ∧ r ≠ 7) : noFarPawn (place b r c w t) :=
  noFarPawn_setCell_some _ _ _ _ h ht

theorem noFarPawn_initialBoard : noFarPawn initialBoard := by
  unfold initialBoard
  simp only
  repeat (apply noFarPawn_place _ _ _ _ _ _ (by decide))
  intro i j q hq
  simp [emptyBoard] at hq

theorem reachable_noFarPawn (s : State) (h : Reachable s) : noFarPawn s.board := by
  induction h with
  | init => exact noFarPawn_initialBoard
  | click s s1 row col _ _ hc ih => exact noFarPawn_handleClick s s1 row col ih hc

/-- On a board with right stored positions and no pawn on row 0 or row 7, no
piece on the grid is a pawn on the last row of its direction. -/
theorem not_farRankPawn (b : Board) (i j : Int) (q : Piece) (hc : consistent b)
    (hn : noFarPawn b) (hq : b i j = some q) : ¬ farRankPawn q := by
  intro hf
  obtain ⟨hk, hrow⟩ := hf
  have h1 := hn i j q hq hk
  have h2 := (hc i j q hq).1
  rcases hrow with ⟨_, h0⟩ | ⟨_, h7⟩
  · exact h1.1 (by rw [← h2, h0])
  · exact h1.2 (by rw [← h2, h7])

/-- The move generator returns for every piece on the grid of such a board. -/
theorem getLegalMoves_total (b : Board) (i j : Int) (q : Piece) (lm : Int × Int)
    (hin : inBounds i j) (hc : consistent b) (hn : noFarPawn b) (hq : b i j = some q) :
    ∃ ms, getLegalMoves b q lm = some ms := by
  have hpos := hc i j q hq
  have hp : inBounds q.row q.col := by rw [hpos.1, hpos.2]; exact hin
  exact (getLegalMoves_ok b q lm hp).1 (not_farRankPawn b i j q hc hn hq)

theorem selectAt_total (s other : State) (row col : Int) (hin : inBounds row col)
    (hc : consistent s.board) (hn : noFarPawn s.board) :
    ∃ s1, selectAt s row col other = some s1 := by
  cases hq : s.board row col with
  | none => exact ⟨other, selectAt_notToMove s other row col hin (Or.inl hq)⟩
  | some q =>
    by_cases hw : q.isWhite = s.isWhiteTurn
    · obtain ⟨ms, hms⟩ := getLegalMoves_total s.board row col q s.lastMove hin hc hn hq
      refine ⟨selectCell s row col ms, ?_⟩
      rw [selectAt_own s other row col hin q hq hw, hms]
      rfl
    · exact ⟨other, selectAt_notToMove s other row col hin (Or.inr ⟨q, hq, hw⟩)⟩

theorem selInv_selectAt (s other s1 : State) (row col : Int) (hc : consistent s.board)
    (ho : selInv other) (h : selectAt s row col other = some s1) : selInv s1 := by
  unfold selectAt at h
  simp only [Option.bind_eq_some, readCell_eq_some] at h
  obtain ⟨cell, ⟨hin, hcell⟩, h⟩ := h
  cases cell with
  | none =>
    simp only [Option.some.injEq] at h
    rw [← h]; exact ho
  | some q =>
    simp only at h
    split_ifs at h with hw
    · simp only [Option.bind_eq_some, Option.some.injEq] at h
      obtain ⟨ms, hms, hs1⟩ := h
      have hpos := hc row col q hcell
      refine Or.inr ⟨q, ?_⟩
      rw [← hs1]
      exact ⟨hin, hcell, hpos.1, hpos.2, hw, hms⟩
    · simp only [Option.some.injEq] at h
      rw [← h]; exact ho

theorem selInv_handleClick (s s1 : State) (row col : Int) (hc : consistent s.board)
    (hs : selInv s) (h : handleClick s row col = some s1) : selInv s1 := by
  unfold handleClick at h
  split_ifs at h with h1 h2
  · exact selInv_selectAt s s s1 row col hc hs h
  · simp only [Option.bind_eq_some, Option.some.injEq] at h
    obtain ⟨s2, _, hs1⟩ := h
    rw [← hs1]
    exact Or.inl rfl
  · exact selInv_selectAt s _ s1 row col hc (Or.inl rfl) h

theorem reachable_good (s : State) (h : Reachable s) : goodState s := by
  induction h with
  | init => exact ⟨consistent_initialBoard, noFarPawn_initialBoard, Or.inl rfl⟩
  | click s s1 row col _ _ hc ih =>
    exact ⟨consistent_handleClick s s1 row col ih.1 hc,
      noFarPawn_handleClick s s1 row col ih.2.1 hc,
      selInv_handleClick s s1 row col ih.1 ih.2.2 hc⟩

/-- A click on a cell of the grid is handled in every good state whose clock is
below `INT_MAX`: no read leaves the grid and no empty cell is dereferenced. -/
theorem handleClick_total (s : State) (row col : Int) (hg : goodState s)
    (hin : inBounds row col) (hclk : s.halfMoveClock < INT_MAX) :
    ∃ s1, handleClick s row col = some s1 := by
  obtain ⟨hc, hn, hs⟩ := hg
  by_cases h1 : s.selectedRow = -1
  · unfold handleClick
    rw [if_pos h1]
    exact selectAt_total s s row col hin hc hn
  · by_cases h2 : (row, col) ∈ s.legalMoves
    · rcases hs with hs | ⟨p, hp⟩
      · exact absurd hs h1
      · obtain ⟨b5, clock, f, _, _, he⟩ := executeMove_legal s p row col hp h2 hclk
        rw [handleClick_move s row col h1 h2, he]
        exact ⟨_, rfl⟩
    · unfold handleClick
      rw [if_neg h1, if_neg h2]
      exact selectAt_total s _ row col hin hc hn

/-- The row that the diagonal loop of the PAWN case reads is a row of the grid
for a pawn that stands on rows 1 to 6. -/
theorem pawn_read_row (q : Piece) (h : 0 < q.row ∧ q.row < 7) :
    0 ≤ q.row + pawnDir q ∧ q.row + pawnDir q < ROWS := by
  unfold pawnDir
  simp only [ROWS]
  split_ifs <;> omega

/-- Claim C21. In every state reachable from the initial position by clicks on
cells of the grid no pawn stands on row 0 or row 7.  Therefore, for every pawn
`q` on a cell `(i, j)` of the grid of such a state, the row `q.row + pawnDir q`
that the PAWN case of `getLegalMoves` reads without a test is a row of the grid,
and `getLegalMoves` returns a move list for `q`, so that no read of it leaves the
grid.  Moreover every click on a cell of the grid is handled, while the clock is
below `INT_MAX`. -/
theorem no_pawn_on_last_rows (s : State) (h : Reachable s) :
    (∀ i j q, s.board i j = some q → q.type = PAWN → i ≠ 0 ∧ i ≠ 7) ∧
      (∀ i j q lm, inBounds i j → s.board i j = some q → q.type = PAWN →
        (0 ≤ q.row + pawnDir q ∧ q.row + pawnDir q < ROWS) ∧
          ∃ ms, getLegalMoves s.board q lm = some ms) ∧
      (∀ row col, inBounds row col → s.halfMoveClock < INT_MAX →
        ∃ s1, handleClick s row col = some s1) := by
  have hg := reachable_good s h
  refine ⟨hg.2.1, ?_, fun row col hin hclk => handleClick_total s row col hg hin hclk⟩
  intro i j q lm hin hq hk
  refine ⟨?_, getLegalMoves_total s.board i j q lm hin hg.1 hg.2.1 hq⟩
  have h1 := hg.2.1 i j q hq hk
  have h2 := (hg.1 i j q hq).1
  apply pawn_read_row
  simp only [inBounds, ROWS, COLS] at hin
  omega

theorem no_pawn_on_last_rows_witness :
    (∀ i j q, afterOpening.board i j = some q → q.type = PAWN → i ≠ 0 ∧ i ≠ 7) ∧
      (∀ i j q lm, inBounds i j → afterOpening.board i j = some q → q.type = PAWN →
        (0 ≤ q.row + pawnDir q ∧ q.row + pawnDir q < ROWS) ∧
          ∃ ms, getLegalMoves afterOpening.board q lm = some ms) ∧
      (∀ row col, inBounds row col → afterOpening.halfMoveClock < INT_MAX →
        ∃ s1, handleClick afterOpening row col = some s1) :=
  no_pawn_on_last_rows afterOpening reachable_afterOpening
end Ochello
